import Mathlib

/-!
go-astilectron: event dispatcher, lifecycle objects and synchronous correlation.

A shallow embedding of `dispatcher.go`, `object.go`, `writer.go` and the
`synchronousFunc` / `synchronousEvent` helpers of `helper.go`, followed by the
properties proved about them.

Conventions of the embedding

* A Go `map[K]V` is an association list with pairwise distinct keys
  (`AList`); the order of its entries stands for the (unspecified) order in
  which `range` visits the map, so a statement quantified over every map
  covers every iteration order.
* Shared mutable state (the dispatcher, the fired cancel functions, the
  variables captured by closures, the outbound stream) is threaded explicitly
  as a `World`.
* A goroutine body is run as one uninterrupted block; what other goroutines do
  while a call is blocked is given as a list of `Step`s. Where the order of the
  steps inside a goroutine of `dispatch` matters, the goroutines make their
  steps one by one (`Goroutine`, `Move`).
* A Go `int` has 32 or 64 bits, after the platform, and `++` wraps around:
  `identifier.new` and `addListenerInt` take the number of bits and wrap
  (`wrapInt`). `addListener` is the method on a counter that never wraps; it
  agrees with `addListenerInt` as long as `d.id + 1` is an `int`
  (`addListenerInt_no_wrap`), and it is what the properties that do not depend
  on the value of an id are stated on.
-/

namespace Astilectron

/-! ## Data model -/

/-- Modelled from the spec: the declaration of the `Event` type is not under src/.
The spec gives it as `{name, targetID, payload}`; the payload is kept as a list
of named fields. -/
structure Event where
  Name : String
  TargetID : String
  payload : List (String × String)
  deriving DecidableEq

/-- The zero value of `Event` (what `var e Event` holds). -/
instance : Inhabited Event := ⟨{ Name := "", TargetID := "", payload := [] }⟩

/-- What a Go closure used as a callback does to the shared state besides
returning: calls on the dispatcher, calls of a cancel function, assignments to a
captured `Event` variable. `Listener` of `dispatcher.go` (line 9) is
`func(e Event) (deleteListener bool)`: a function from the event to the side
effects it performs, in order, and the `deleteListener` result. -/
inductive Effect where
  | addListener (targetID eventName : String) (l : Event → List Effect × Bool)
  | delListener (targetID eventName : String) (id : Int)
  | cancel (node : Nat)
  | assign (v : Nat) (e : Event)

/-- The type `Listener` of `dispatcher.go`, line 9. -/
abbrev Listener := Event → List Effect × Bool

/-- A Go map: an association list with distinct keys. -/
abbrev GoMap (K V : Type) := AList (fun _ : K => V)

/-- The struct `dispatcher` of `dispatcher.go`, lines 18-26 (the mutex only
serialises the methods and has no counterpart here). -/
structure dispatcher where
  id : Int
  l : GoMap String (GoMap String (GoMap Int Listener))

/-- Modelled from the spec: `io.WriteCloser` is an interface of the standard
library. Only what `writer.write` uses is kept: the buffers handed to `Write`
so far, oldest first, and the error (if any) `Write` answers for a buffer. -/
structure WriteCloser where
  written : List (List UInt8)
  failure : List UInt8 → Option String

/-- One call of `Write` on the stream: the buffer is recorded, the error is returned. -/
def WriteCloser.Write (wc : WriteCloser) (p : List UInt8) : WriteCloser × Option String :=
  ({ wc with written := wc.written ++ [p] }, wc.failure p)

/-- The struct `writer` of `writer.go`, lines 12-14. -/
structure writer where
  wc : WriteCloser

/-- The content of a variable captured by a closure. -/
inductive Value where
  | event (e : Event)
  | error (err : Option String)

/-- The shared state: the dispatcher, the writer, the cancel functions that
have been called (`fired`), the allocator of cancellation nodes, the variables
captured by closures with their allocator, and the record `calls` of every
listener invocation made by `dispatch` (listener id and event, oldest first). -/
structure World where
  d : dispatcher
  w : writer
  fired : List Nat
  nextNode : Nat
  vars : GoMap Nat Value
  nextVar : Nat
  calls : List (Int × Event)

/-! ## dispatcher.go -/

/-- The function `newDispatcher` of `dispatcher.go`, lines 29-33. -/
def newDispatcher : dispatcher := { id := 0, l := ∅ }

/-- The method `addListener` of `dispatcher.go`, lines 36-47, on a counter that
never wraps around (`addListenerInt` is the method on a Go `int`). -/
def addListener (d : dispatcher) (targetID eventName : String) (l : Listener) : dispatcher :=
  let l1 := match d.l.lookup targetID with
    | some _ => d.l
    | none => d.l.insert targetID ∅
  let t1 := (l1.lookup targetID).getD ∅
  let t2 := match t1.lookup eventName with
    | some _ => t1
    | none => t1.insert eventName ∅
  let b := (t2.lookup eventName).getD ∅
  let id := d.id + 1
  { id := id, l := l1.insert targetID (t2.insert eventName (b.insert id l)) }

/-- The method `delListener` of `dispatcher.go`, lines 50-60. -/
def delListener (d : dispatcher) (targetID eventName : String) (id : Int) : dispatcher :=
  match d.l.lookup targetID with
  | none => d
  | some m =>
    match m.lookup eventName with
    | none => d
    | some b => { d with l := d.l.insert targetID (m.insert eventName (b.erase id)) }

/-- The copy loop of `listeners`, lines 84-86: every entry of the bucket is
stored in a fresh map. -/
def copyBucket (b : GoMap Int Listener) : GoMap Int Listener :=
  b.entries.foldl (fun acc kv => acc.insert kv.1 kv.2) ∅

/-- The method `listeners` of `dispatcher.go`, lines 74-88. -/
def listeners (d : dispatcher) (targetID eventName : String) : GoMap Int Listener :=
  match d.l.lookup targetID with
  | none => ∅
  | some m =>
    match m.lookup eventName with
    | none => ∅
    | some b => copyBucket b

/-- Performs one side effect of a callback on the shared state. -/
def applyEffect (s : World) : Effect → World
  | .addListener t n l => { s with d := addListener s.d t n l }
  | .delListener t n id => { s with d := delListener s.d t n id }
  | .cancel k => { s with fired := k :: s.fired }
  | .assign v e => { s with vars := s.vars.insert v (.event e) }

/-- One iteration of the loop of `dispatch`, lines 66-68: the listener is
called with the event (the call is recorded, its side effects are performed),
and it is deleted under its id when it returned true. -/
def invoke (e : Event) (s : World) (id : Int) (l : Listener) : World :=
  let r := l e
  let s1 := r.1.foldl applyEffect { s with calls := s.calls ++ [(id, e)] }
  if r.2 then { s1 with d := delListener s1.d e.TargetID e.Name id } else s1

/-- The loop of `dispatch`, lines 65-69, over a snapshot already taken. -/
def runListeners (e : Event) (snapshot : GoMap Int Listener) (s : World) : World :=
  snapshot.entries.foldl (fun s kv => invoke e s kv.1 kv.2) s

/-- The method `dispatch` of `dispatcher.go`, lines 63-71: the body of the
goroutine it starts, run to completion. -/
def dispatch (s : World) (e : Event) : World :=
  runListeners e (listeners s.d e.TargetID e.Name) s

/-- The bucket `d.l[targetID][eventName]`, when both maps exist. -/
def bucket (d : dispatcher) (targetID eventName : String) : Option (GoMap Int Listener) :=
  (d.l.lookup targetID).bind (fun m => m.lookup eventName)

/-- The listener stored under `id` in the bucket `d.l[targetID][eventName]`, if any. -/
def lookupListener (d : dispatcher) (targetID eventName : String) (id : Int) : Option Listener :=
  (bucket d targetID eventName).bind (fun b => b.lookup id)

/-- Whether a side effect is a call of `addListener` or `delListener`. -/
def Effect.touchesRegistry : Effect → Bool
  | .addListener _ _ _ => true
  | .delListener _ _ _ => true
  | .cancel _ => false
  | .assign _ _ => false

/-- Every key of every bucket is at most the counter `d.id`. -/
def KeysBelowCounter (d : dispatcher) : Prop :=
  ∀ t n b, bucket d t n = some b → ∀ k, k ∈ b.keys → k ≤ d.id

/-- The dispatchers reachable from `newDispatcher` by `addListener`,
`delListener` and `dispatch` (with callbacks of any kind). -/
inductive Reachable : dispatcher → Prop
  | init : Reachable newDispatcher
  | add (d : dispatcher) (t n : String) (l : Listener) :
      Reachable d → Reachable (addListener d t n l)
  | del (d : dispatcher) (t n : String) (id : Int) :
      Reachable d → Reachable (delListener d t n id)
  | dispatch (s : World) (e : Event) : Reachable s.d → Reachable (dispatch s e).d

/-! ## Scenario data -/

/-- A listener that always keeps itself registered. -/
def keepListener : Listener := fun _ => ([], false)

/-- A listener that asks for its removal. -/
def removeListener : Listener := fun _ => ([], true)

/-- An initial state of the shared data: empty dispatcher, a stream that accepts every write. -/
def World.init : World :=
  { d := newDispatcher, w := { wc := { written := [], failure := fun _ => none } },
    fired := [], nextNode := 0, vars := ∅, nextVar := 0, calls := [] }

/-- The event `foo` for target `1` of scenarios A and B. -/
def fooEvent : Event := { Name := "foo", TargetID := "1", payload := [] }

/-- A callback that registers another listener in the bucket of `fooEvent`. -/
def addingListener : Listener := fun _ => ([.addListener "1" "foo" keepListener], false)

/-- A callback that removes the listener `id` from the bucket of `fooEvent`. -/
def removingListener (id : Int) : Listener := fun _ => ([.delListener "1" "foo" id], false)

/-- Scenario A: one listener on `("1", "foo")` that always keeps itself. -/
def scenarioA : World :=
  { World.init with d := addListener newDispatcher "1" "foo" keepListener }

/-- Scenario B: one listener on `("1", "foo")` that asks for its removal. -/
def scenarioB : World :=
  { World.init with d := addListener newDispatcher "1" "foo" removeListener }

/-- Three listeners on `("1", "foo")`: 1 registers a new listener when called,
2 removes listener 3 when called, 3 keeps itself. -/
def scenarioInFlight : World :=
  { World.init with
    d := addListener (addListener (addListener newDispatcher "1" "foo" addingListener)
      "1" "foo" (removingListener 3)) "1" "foo" keepListener }

/-! ## Cancellation -/

/-- Modelled from the spec: the packages `context` (standard library) and
`asticontext` are not under src/. A context made by `context.WithCancel` is the
chain of cancellation nodes from its own node up to the root; it is cancelled
as soon as the cancel function of one node of the chain has been called
(cancelling an ancestor cancels all descendants), and never becomes live again.
`context.Background()` is the empty chain. -/
abbrev Context := List Nat

/-- The method `Err` of a context: non-nil once the context is cancelled. -/
def Context.Err (ctx : Context) (s : World) : Option String :=
  if ctx.any (fun k => decide (k ∈ s.fired)) then some "context canceled" else none

/-- The function `context.WithCancel`: a fresh node under `parent`; the result
is the derived context and (the node of) its cancel function. -/
def WithCancel (parent : Context) (s : World) : (Context × Nat) × World :=
  ((s.nextNode :: parent, s.nextNode), { s with nextNode := s.nextNode + 1 })

/-- Calling the cancel function of a node. -/
def cancelFunc (k : Nat) (s : World) : World :=
  { s with fired := k :: s.fired }

/-- Modelled from the spec: `asticontext.Canceller`, the root of the
cancellation tree. Its context is made by `WithCancel(Background())`. -/
structure Canceller where
  node : Nat

/-- The field `ctx` of a canceller. -/
def Canceller.ctx (c : Canceller) : Context := [c.node]

/-- The function `asticontext.NewCanceller`. -/
def NewCanceller (s : World) : Canceller × World :=
  ({ node := (WithCancel [] s).1.2 }, (WithCancel [] s).2)

/-- The method `Cancelled` of the canceller: `c.ctx.Err() != nil`. -/
def Canceller.Cancelled (c : Canceller) (s : World) : Bool :=
  (c.ctx.Err s).isSome

/-- The method `NewContext` of the canceller: `context.WithCancel(c.ctx)`
(see the comment of `object.go`, line 41). -/
def Canceller.NewContext (c : Canceller) (s : World) : (Context × Nat) × World :=
  WithCancel c.ctx s

/-- The method `Cancel` of the canceller. -/
def Canceller.Cancel (c : Canceller) (s : World) : World :=
  cancelFunc c.node s

/-! ## object.go -/

/-- The error `ErrCancellerCancelled` of `object.go`, line 14. -/
def ErrCancellerCancelled : String := "canceller.cancelled"

/-- The error `ErrObjectDestroyed` of `object.go`, line 15. -/
def ErrObjectDestroyed : String := "object.destroyed"

/-- The struct `object` of `object.go`, lines 19-27. The fields `d`, `i` and `w`
point to the shared dispatcher, identifier and writer, which live in the `World`. -/
structure object where
  cancel : Nat
  ctx : Context
  c : Canceller
  id : String

/-- The function `newObject` of `object.go`, lines 30-44. -/
def newObject (parentCtx : Option Context) (c : Canceller) (id : String) (s : World) :
    object × World :=
  match parentCtx with
  | some p =>
    ({ cancel := (WithCancel p s).1.2, ctx := (WithCancel p s).1.1, c := c, id := id },
      (WithCancel p s).2)
  | none =>
    ({ cancel := (c.NewContext s).1.2, ctx := (c.NewContext s).1.1, c := c, id := id },
      (c.NewContext s).2)

/-- The method `IsDestroyed` of `object.go`, lines 57-59. -/
def object.IsDestroyed (o : object) (s : World) : Bool :=
  (o.ctx.Err s).isSome

/-- The method `isActionable` of `object.go`, lines 47-54 (`none` is `nil`). -/
def object.isActionable (o : object) (s : World) : Option String :=
  if o.c.Cancelled s then some ErrCancellerCancelled
  else if o.IsDestroyed s then some ErrObjectDestroyed
  else none

/-- The method `On` of `object.go`, lines 62-64. -/
def object.On (o : object) (eventName : String) (l : Listener) (s : World) : World :=
  { s with d := addListener s.d o.id eventName l }

/-! ## What other goroutines do -/

/-- One step of the rest of the program while a call is blocked: a dispatch run to
completion, or one call on the shared state. -/
inductive Step where
  | dispatch (e : Event)
  | effect (eff : Effect)

/-- Performs a step. -/
def Step.run (s : World) : Step → World
  | .dispatch e => Astilectron.dispatch s e
  | .effect eff => applyEffect s eff

/-- Performs a list of steps, in order. -/
def runSteps (steps : List Step) (s : World) : World :=
  steps.foldl Step.run s

/-! ## writer.go -/

/-- The function `errors.Wrapf` on a non-nil error. -/
def wrapf (err : String) (msg : String) : String := msg ++ ": " ++ err

/-- The method `write` of `writer.go`, lines 29-42. `json.Marshal` is a
parameter; the result is the stream afterwards and the error (`none` is `nil`). -/
def writer.write (marshal : Event → Except String (List UInt8)) (w : writer) (e : Event) :
    writer × Option String :=
  match marshal e with
  | .error err => (w, some (wrapf err "Marshaling failed"))
  | .ok b =>
    match (w.wc.Write (b ++ [10])).2 with
    | some err => ({ wc := (w.wc.Write (b ++ [10])).1 }, some (wrapf err "Writing failed"))
    | none => ({ wc := (w.wc.Write (b ++ [10])).1 }, none)

/-! ## helper.go -/

/-- The closure registered by `synchronousFunc`, lines 189-193: `e = i`,
`cancel()`, `return true`; `v` is the captured result variable `e` and `k` the
node of the captured cancel function. -/
def syncListener (v k : Nat) : Listener :=
  fun i => ([.assign v i, .cancel k], true)

/-- The receive `<-ctx.Done()` of line 195: the caller stays blocked while the
other goroutines perform their steps, and resumes in the first state in which
the context is cancelled; `none` when the steps run out before that. -/
def waitDone (ctx : Context) : List Step → World → Option World
  | [], s => if (ctx.Err s).isSome then some s else none
  | st :: rest, s => if (ctx.Err s).isSome then some s else waitDone ctx rest (st.run s)

/-- The `Event` held by a captured variable. -/
def readEvent (s : World) (v : Nat) : Event :=
  match s.vars.lookup v with
  | some (.event e) => e
  | _ => default

/-- The error held by a captured variable. -/
def readError (s : World) (v : Nat) : Option String :=
  match s.vars.lookup v with
  | some (.error err) => err
  | _ => none

/-- Lines 185-193 of `synchronousFunc`: the state once the named result is
initialised, the context derived and the one-shot listener registered on `l`. -/
def synchronousFuncSetup (c : Canceller) (l : object) (eventNameDone : String) (s : World) :
    World :=
  let s0 := { s with vars := s.vars.insert s.nextVar (.event default), nextVar := s.nextVar + 1 }
  l.On eventNameDone (syncListener s.nextVar (c.NewContext s0).1.2) (c.NewContext s0).2

/-- Lines 185-194 of `synchronousFunc`: the state in which the call starts to
wait, after the setup and the call of `fn`. -/
def synchronousFuncStart (c : Canceller) (l : object) (fn : World → World)
    (eventNameDone : String) (s : World) : World :=
  fn (synchronousFuncSetup c l eventNameDone s)

/-- The function `synchronousFunc` of `helper.go`, lines 185-197; `env` is what
the other goroutines do while the call is blocked on line 195. The result is
`none` when the call never returns. -/
def synchronousFunc (c : Canceller) (l : object) (fn : World → World) (eventNameDone : String)
    (env : List Step) (s : World) : Option (Event × World) :=
  -- (e Event): the named result, captured by the listener
  let s0 := { s with vars := s.vars.insert s.nextVar (.event default), nextVar := s.nextVar + 1 }
  -- var ctx, cancel = c.NewContext()
  let r := c.NewContext s0
  -- l.On(eventNameDone, ...)
  let s1 := l.On eventNameDone (syncListener s.nextVar r.1.2) r.2
  -- fn()
  let s2 := fn s1
  -- <-ctx.Done(), then the deferred cancel() and the return of e
  match waitDone r.1.1 env s2 with
  | none => none
  | some s3 => some (readEvent (cancelFunc r.1.2 s3) s.nextVar, cancelFunc r.1.2 s3)

/-- The closure passed by `synchronousEvent`, lines 201-207: `err = w.write(i)`,
wrapped when it is not nil; `verr` is the captured result variable `err`. -/
def writeAction (marshal : Event → Except String (List UInt8)) (i : Event) (verr : Nat)
    (s : World) : World :=
  match (writer.write marshal s.w i).2 with
  | some err =>
    { s with w := (writer.write marshal s.w i).1,
             vars := s.vars.insert verr (.error (some (wrapf err "writing event failed"))) }
  | none =>
    { s with w := (writer.write marshal s.w i).1, vars := s.vars.insert verr (.error none) }

/-- The function `synchronousEvent` of `helper.go`, lines 200-209. -/
def synchronousEvent (marshal : Event → Except String (List UInt8)) (c : Canceller) (l : object)
    (i : Event) (eventNameDone : String) (env : List Step) (s : World) :
    Option (Event × Option String × World) :=
  let s0 := { s with vars := s.vars.insert s.nextVar (.error none), nextVar := s.nextVar + 1 }
  match synchronousFunc c l (writeAction marshal i s.nextVar) eventNameDone env s0 with
  | none => none
  | some r => some (r.1, readError r.2 s.nextVar, r.2)

/-- The state in which `synchronousEvent` starts to wait: the named result `err`
starts as nil, the listener is registered, the event has been written. -/
def synchronousEventStart (marshal : Event → Except String (List UInt8)) (c : Canceller)
    (l : object) (i : Event) (eventNameDone : String) (s : World) : World :=
  synchronousFuncStart c l (writeAction marshal i s.nextVar) eventNameDone
    { s with vars := s.vars.insert s.nextVar (.error none), nextVar := s.nextVar + 1 }

/-- The error `synchronousEvent` returns for the outcome of `writer.write`. -/
def writeError (marshal : Event → Except String (List UInt8)) (w : writer) (i : Event) :
    Option String :=
  match (writer.write marshal w i).2 with
  | some err => some (wrapf err "writing event failed")
  | none => none

/-! ## What the rest of the program cannot reach -/

/-- What is private to one call of `synchronousFunc`: the bucket and id of its
listener, and the variables and cancel functions allocated from the call on. -/
structure Private where
  targetID : String
  eventName : String
  id : Int
  vbound : Nat
  kbound : Nat

/-- A side effect that stays clear of what is private to the call: it does not
delete the call's listener, and it names only variables and cancel functions
that existed before the call; the listeners it registers do the same. -/
inductive Effect.Avoids (P : Private) : Effect → Prop
  | addListener (t n : String) (l : Event → List Effect × Bool) :
      (∀ e eff, eff ∈ (l e).1 → Effect.Avoids P eff) → Effect.Avoids P (.addListener t n l)
  | delListener (t n : String) (id : Int) :
      (t, n, id) ≠ (P.targetID, P.eventName, P.id) → Effect.Avoids P (.delListener t n id)
  | cancel (k : Nat) : k < P.kbound → Effect.Avoids P (.cancel k)
  | assign (v : Nat) (e : Event) : v < P.vbound → Effect.Avoids P (.assign v e)

/-- A listener all of whose side effects stay clear of what is private to the call. -/
def Listener.Avoids (P : Private) (l : Listener) : Prop :=
  ∀ e eff, eff ∈ (l e).1 → Effect.Avoids P eff

/-- A step that stays clear of what is private to the call. -/
def Step.Avoids (P : Private) : Step → Prop
  | .dispatch _ => True
  | .effect eff => Effect.Avoids P eff

/-- Whether a step is the dispatch of an event of the given target and name. -/
def Step.Delivers (targetID eventName : String) : Step → Prop
  | .dispatch e => e.TargetID = targetID ∧ e.Name = eventName
  | .effect _ => False

/-- The cancel functions called so far belong to nodes already allocated. -/
def NodesAllocated (s : World) : Prop := ∀ k ∈ s.fired, k < s.nextNode

/-- Scenario C: a canceller, and an object `t` under it. -/
def scenarioC : World := (newObject none (NewCanceller World.init).1 "t" (NewCanceller World.init).2).2

/-- The canceller of scenario C. -/
def cancellerC : Canceller := (NewCanceller World.init).1

/-- The object of scenario C. -/
def objectC : object := (newObject none (NewCanceller World.init).1 "t" (NewCanceller World.init).2).1

/-- The event `done` for target `t`. -/
def doneEvent : Event := { Name := "done", TargetID := "t", payload := [("k", "v")] }

/-- The listener of the call, as currently stored in the registry. -/
def ownListener (P : Private) (s : World) : Option Listener :=
  lookupListener s.d P.targetID P.eventName P.id

/-- The id of the call's listener has been handed out, and every other listener
of the registry stays clear of what is private to the call. -/
def OthersAvoid (P : Private) (s : World) : Prop :=
  P.id ≤ s.d.id
  ∧ ∀ t n id l, lookupListener s.d t n id = some l →
      (t, n, id) ≠ (P.targetID, P.eventName, P.id) → Listener.Avoids P l

/-- What is private to the call (its listener, its variables, its cancel
functions) is the same in `s'` as in `s`. -/
def SamePrivate (P : Private) (s s' : World) : Prop :=
  ownListener P s' = ownListener P s
  ∧ (∀ v, P.vbound ≤ v → s'.vars.lookup v = s.vars.lookup v)
  ∧ (∀ k, P.kbound ≤ k → (k ∈ s'.fired ↔ k ∈ s.fired))

/-- An action `fn` that cannot reach what is private to the call: the result
variable and the cancel function are local to `synchronousFunc`, and
`addListener` does not give out the id of the listener. -/
def Foreign (P : Private) (fn : World → World) : Prop :=
  ∀ s, OthersAvoid P s → OthersAvoid P (fn s) ∧ SamePrivate P s (fn s)

/-- What is private to the call `synchronousFunc c l fn eventNameDone` made in state `s`. -/
def privateOf (l : object) (eventNameDone : String) (s : World) : Private :=
  { targetID := l.id, eventName := eventNameDone, id := s.d.id + 1,
    vbound := s.nextVar, kbound := s.nextNode }

/-- The two states a call of `synchronousFunc` can be in while it waits: its
listener is registered and has not been called (the result variable `v` holds
the zero event, the cancel function `k` has not been called), or its listener
has been called with an event `ev` of its target and name since the call
started (`n0` calls had been recorded then) and is gone. In both, the other
variables private to the call are as in `base`. -/
def WaitingOrDelivered (P : Private) (v k n0 : Nat) (base s : World) : Prop :=
  OthersAvoid P s
  ∧ n0 ≤ s.calls.length
  ∧ (∀ u, P.vbound ≤ u → u ≠ v → s.vars.lookup u = base.vars.lookup u)
  ∧ ((ownListener P s = some (syncListener v k)
        ∧ s.vars.lookup v = some (.event default) ∧ k ∉ s.fired)
      ∨ (∃ ev : Event, ownListener P s = none ∧ s.vars.lookup v = some (.event ev)
          ∧ ev.TargetID = P.targetID ∧ ev.Name = P.eventName
          ∧ (P.id, ev) ∈ s.calls.drop n0))

/-- Two states with the same registry, the same fired cancel functions and the
same content of the variable `v`. -/
def Agree (v : Nat) (s s' : World) : Prop :=
  s.d = s'.d ∧ s.fired = s'.fired ∧ s.vars.lookup v = s'.vars.lookup v

/-- A marshaller that fails on every event. -/
def failingMarshal : Event → Except String (List UInt8) := fun _ => .error "unsupported type"

/-- A marshaller that succeeds on every event (with an empty encoding). -/
def emptyMarshal : Event → Except String (List UInt8) := fun _ => .ok []

/-! ## Go integers -/

/-- The value a Go `int` of `bits` bits (32 or 64, after the platform) holds
when the result of an operation is `n`: the representative of `n` modulo
`2^bits` between `-2^(bits-1)` and `2^(bits-1) - 1` (two's complement). -/
def wrapInt (bits : Nat) (n : Int) : Int :=
  (n + 2 ^ (bits - 1)) % 2 ^ bits - 2 ^ (bits - 1)

/-! ## dispatcher.go on a Go int -/

/-- The method `addListener` of `dispatcher.go`, lines 36-47, where `int` has
`bits` bits: `d.id++` wraps around. `addListener` above is the same method on a
counter that never wraps; the two agree as long as `d.id + 1` is an `int`. -/
def addListenerInt (bits : Nat) (d : dispatcher) (targetID eventName : String) (l : Listener) :
    dispatcher :=
  let l1 := match d.l.lookup targetID with
    | some _ => d.l
    | none => d.l.insert targetID ∅
  let t1 := (l1.lookup targetID).getD ∅
  let t2 := match t1.lookup eventName with
    | some _ => t1
    | none => t1.insert eventName ∅
  let b := (t2.lookup eventName).getD ∅
  let id := wrapInt bits (d.id + 1)
  { id := id, l := l1.insert targetID (t2.insert eventName (b.insert id l)) }

/-- The dispatchers reachable from `newDispatcher` by calls of `addListener` and
`delListener` when `int` has `bits` bits. A dispatch changes the registry only
by such calls (those its callbacks make, and the removal of a listener that
returned true), so it reaches no other dispatcher. -/
inductive ReachableInt (bits : Nat) : dispatcher → Prop
  | init : ReachableInt bits newDispatcher
  | add (d : dispatcher) (t n : String) (l : Listener) :
      ReachableInt bits d → ReachableInt bits (addListenerInt bits d t n l)
  | del (d : dispatcher) (t n : String) (id : Int) :
      ReachableInt bits d → ReachableInt bits (delListener d t n id)

/-- A registry on a 32-bit `int` whose counter has gone round: one listener is
registered on `("1", "foo")` and gets the id 1, then `2^32 - 1` listeners are
registered on `("2", "bar")`. -/
def wrappedRegistry : dispatcher :=
  (fun d => addListenerInt 32 d "2" "bar" keepListener)^[2 ^ 32 - 1]
    (addListenerInt 32 newDispatcher "1" "foo" keepListener)

/-! ## identifier.go -/

/-- The struct `identifier` of `identifier.go`, lines 11-14 (the mutex only
serialises `new`); the field `i` is a Go `int`. -/
structure identifier where
  i : Int

/-- The function `newIdentifier` of `identifier.go`, lines 17-19. -/
def newIdentifier : identifier := { i := 0 }

/-- The decimal digits of a natural number, most significant first; `fuel`
bounds the number of digits. -/
def decimalDigits : Nat → Nat → List Char
  | 0, _ => []
  | fuel + 1, n =>
    if n < 10 then [Char.ofNat (48 + n)]
    else decimalDigits fuel (n / 10) ++ [Char.ofNat (48 + n % 10)]

/-- Modelled from the spec: `strconv.Itoa` belongs to the standard library; it
gives the decimal representation of an integer, with a minus sign when it is
negative. -/
def Itoa (n : Int) : String :=
  if n < 0 then String.mk ('-' :: decimalDigits (n.natAbs + 1) n.natAbs)
  else String.mk (decimalDigits (n.natAbs + 1) n.natAbs)

/-- The method `new` of `identifier.go`, lines 22-27, where `int` has `bits`
bits: `i.i++` wraps around, the string returned is the decimal representation
of the counter afterwards. The result is that string and the identifier
afterwards. -/
def identifier.new (bits : Nat) (i : identifier) : String × identifier :=
  (Itoa (wrapInt bits (i.i + 1)), { i := wrapInt bits (i.i + 1) })

/-- The strings returned by `n` successive calls of `new`, oldest first, and the
identifier afterwards. -/
def identifier.newTimes (bits : Nat) (i : identifier) : Nat → List String × identifier
  | 0 => ([], i)
  | n + 1 => ((i.new bits).1 :: ((i.new bits).2.newTimes bits n).1,
      ((i.new bits).2.newTimes bits n).2)

/-- The number written by a list of decimal digits. -/
def digitsValue (cs : List Char) : Nat :=
  cs.foldl (fun acc c => 10 * acc + (c.toNat - 48)) 0

/-! ## The wire format -/

/-- The bytes of a string (its UTF-8 encoding). -/
def bytesOf (s : String) : List UInt8 := s.toUTF8.data.toList

/-- A hexadecimal digit, as a byte. -/
def hexDigit (n : UInt8) : UInt8 := if n < 10 then 48 + n else 87 + n

/-- The JSON escape of one byte of a string: the quote, the backslash and the
control characters are escaped, every other byte is kept. -/
def escapeByte (b : UInt8) : List UInt8 :=
  if b = 34 then [92, 34]
  else if b = 92 then [92, 92]
  else if b = 10 then [92, 110]
  else if b = 13 then [92, 114]
  else if b = 9 then [92, 116]
  else if b < 32 ∨ b = 60 ∨ b = 62 ∨ b = 38 then
    [92, 117, 48, 48, hexDigit (b / 16), hexDigit (b % 16)]
  else [b]

/-- A JSON string literal. -/
def jsonString (s : String) : List UInt8 :=
  [34] ++ (bytesOf s).flatMap escapeByte ++ [34]

/-- Modelled from the spec: the declaration of `Event` with its JSON tags is
not under src/, and `encoding/json` belongs to the standard library. The spec
gives the wire format: one JSON object with the field `name`, the field
`targetID` when it is not empty, and the payload fields flattened into the same
object, strings escaped the standard way. -/
def jsonMarshal (e : Event) : Except String (List UInt8) :=
  .ok ([123] ++ bytesOf "\"name\":" ++ jsonString e.Name
    ++ (if e.TargetID = "" then [] else bytesOf ",\"targetID\":" ++ jsonString e.TargetID)
    ++ e.payload.flatMap (fun kv => [44] ++ jsonString kv.1 ++ [58] ++ jsonString kv.2)
    ++ [125])

/-- An error returned by a read of the stream: `io.EOF`, or another error with its message. -/
inductive ReadErr where
  | EOF
  | other (msg : String)
  deriving DecidableEq

/-- The method `Error` of an error. -/
def ReadErr.Error : ReadErr → String
  | .EOF => "EOF"
  | .other msg => msg

/-- Modelled from the spec: `io.ReadCloser` is an interface of the standard
library. The inbound stream is what successive reads deliver: bytes, and
errors; once the list is exhausted every read answers `io.EOF`. -/
inductive Item where
  | byte (b : UInt8)
  | err (e : ReadErr)
  deriving DecidableEq

/-- The method `ReadBytes` of `bufio.Reader`: reads until the first occurrence
of `delim` and returns the bytes up to and including it; when an error comes
first, returns the bytes read before the error, and the error. The result is
the bytes, the error, and the rest of the stream. -/
def ReadBytes (delim : UInt8) : List Item → (List UInt8 × Option ReadErr) × List Item
  | [] => (([], some .EOF), [])
  | .err e :: rest => (([], some e), rest)
  | .byte b :: rest =>
    if b = delim then (([b], none), rest)
    else ((b :: (ReadBytes delim rest).1.1, (ReadBytes delim rest).1.2), (ReadBytes delim rest).2)

/-- The method `isEOFErr` of `reader.go`, lines 37-39. `strings.Contains` is
the infix relation. `strings.ToLower` is taken on the letters `A` to `Z`: no
character outside them has one of the letters of `wsarecv:` as its lower case,
so the containment tested is the same. -/
def isEOFErr (err : ReadErr) : Bool :=
  decide (err = .EOF) || decide ("wsarecv:".data <:+: err.Error.data.map Char.toLower)

/-- The struct `reader` of `reader.go`, lines 15-19: its context and its stream
(the dispatcher is the shared one). -/
structure reader where
  ctx : Context
  rc : List Item

/-- What a run of `read` has done when it returns: the events handed to
`dispatch`, in order, and the part of the stream left unread. -/
structure ReadResult where
  dispatched : List Event
  rest : List Item

/-- The loop of `read`, `reader.go`, lines 45-74. `json.Unmarshal` and
`bytes.TrimSpace` are parameters; `timeline n` is the shared state at the start
of iteration `n` (other goroutines, among them the dispatches the loop has
started, change it between iterations); `fuel` bounds the number of
iterations, the result is `none` when it is exhausted. -/
def readLoop (unmarshal : List UInt8 → Except String Event)
    (trimSpace : List UInt8 → List UInt8) (ctx : Context) (timeline : Nat → World) :
    Nat → Nat → List Item → List Event → Option ReadResult
  | 0, _, _, _ => none
  | fuel + 1, n, items, out =>
    if (ctx.Err (timeline n)).isSome then some { dispatched := out, rest := items }
    else
      match (ReadBytes 10 items).1.2 with
      | some err =>
        if !isEOFErr err then readLoop unmarshal trimSpace ctx timeline fuel (n + 1)
          (ReadBytes 10 items).2 out
        else some { dispatched := out, rest := (ReadBytes 10 items).2 }
      | none =>
        match unmarshal (trimSpace (ReadBytes 10 items).1.1) with
        | .error _ => readLoop unmarshal trimSpace ctx timeline fuel (n + 1)
            (ReadBytes 10 items).2 out
        | .ok e => readLoop unmarshal trimSpace ctx timeline fuel (n + 1)
            (ReadBytes 10 items).2 (out ++ [e])

/-- The method `read` of `reader.go`, lines 43-74: every iteration that does
not return consumes an item of the stream, so one iteration more than the
stream has items is enough. -/
def reader.read (unmarshal : List UInt8 → Except String Event)
    (trimSpace : List UInt8 → List UInt8) (r : reader) (timeline : Nat → World) :
    Option ReadResult :=
  readLoop unmarshal trimSpace r.ctx timeline (r.rc.length + 1) 0 r.rc []

/-- The stream that delivers the given bytes, and then ends. -/
def streamOf (bs : List UInt8) : List Item := bs.map Item.byte

/-! ## The decoder of the wire format -/

/-- ASCII white space: tab, newline, vertical tab, form feed, carriage return, space. -/
def isAsciiSpace (b : UInt8) : Bool :=
  b = 9 || b = 10 || b = 11 || b = 12 || b = 13 || b = 32

/-- Trims the ASCII white space at both ends, as `bytes.TrimSpace` does on ASCII input. -/
def trimSpaceAscii (bs : List UInt8) : List UInt8 :=
  ((bs.dropWhile isAsciiSpace).reverse.dropWhile isAsciiSpace).reverse

/-- The value of a hexadecimal digit. -/
def hexValue (b : UInt8) : Option Nat :=
  if 48 ≤ b ∧ b ≤ 57 then some (b.toNat - 48)
  else if 97 ≤ b ∧ b ≤ 102 then some (b.toNat - 87)
  else if 65 ≤ b ∧ b ≤ 70 then some (b.toNat - 55)
  else none

/-- The byte an escape sequence stands for, given the byte after the backslash. -/
def unescapeByte (c : UInt8) : Option UInt8 :=
  if c = 34 then some 34
  else if c = 92 then some 92
  else if c = 47 then some 47
  else if c = 110 then some 10
  else if c = 114 then some 13
  else if c = 116 then some 9
  else if c = 98 then some 8
  else if c = 102 then some 12
  else none

/-- Reads a JSON string literal after its opening quote: the bytes it denotes
and what follows the closing quote. Escapes `\u00XX` below 128 are supported. -/
def parseString : Nat → List UInt8 → Option (List UInt8 × List UInt8)
  | 0, _ => none
  | _ + 1, [] => none
  | fuel + 1, b :: rest =>
    if b = 34 then some ([], rest)
    else if b = 92 then
      match rest with
      | [] => none
      | c :: rest1 =>
        if c = 117 then
          match rest1 with
          | h1 :: h2 :: h3 :: h4 :: rest2 =>
            match hexValue h1, hexValue h2, hexValue h3, hexValue h4 with
            | some 0, some 0, some x, some y =>
              if x < 8 then
                (parseString fuel rest2).map (fun r => (UInt8.ofNat (16 * x + y) :: r.1, r.2))
              else none
            | _, _, _, _ => none
          | _ => none
        else
          match unescapeByte c with
          | some u => (parseString fuel rest1).map (fun r => (u :: r.1, r.2))
          | none => none
    else (parseString fuel rest).map (fun r => (b :: r.1, r.2))

/-- Decodes UTF-8 bytes into characters; `none` on a truncated or misplaced byte. -/
def decodeUTF8 : Nat → List UInt8 → Option (List Char)
  | 0, _ => none
  | _ + 1, [] => some []
  | fuel + 1, b0 :: rest =>
    if b0.toNat < 128 then (decodeUTF8 fuel rest).map (fun cs => Char.ofNat b0.toNat :: cs)
    else if b0.toNat / 32 = 6 then
      match rest with
      | b1 :: rest1 =>
        if b1.toNat / 64 = 2 then
          (decodeUTF8 fuel rest1).map
            (fun cs => Char.ofNat (b0.toNat % 32 * 64 + b1.toNat % 64) :: cs)
        else none
      | _ => none
    else if b0.toNat / 16 = 14 then
      match rest with
      | b1 :: b2 :: rest2 =>
        if b1.toNat / 64 = 2 ∧ b2.toNat / 64 = 2 then
          (decodeUTF8 fuel rest2).map
            (fun cs => Char.ofNat (b0.toNat % 16 * 4096 + b1.toNat % 64 * 64 + b2.toNat % 64) :: cs)
        else none
      | _ => none
    else if b0.toNat / 8 = 30 then
      match rest with
      | b1 :: b2 :: b3 :: rest3 =>
        if b1.toNat / 64 = 2 ∧ b2.toNat / 64 = 2 ∧ b3.toNat / 64 = 2 then
          (decodeUTF8 fuel rest3).map
            (fun cs => Char.ofNat (b0.toNat % 8 * 262144 + b1.toNat % 64 * 4096
              + b2.toNat % 64 * 64 + b3.toNat % 64) :: cs)
        else none
      | _ => none
    else none

/-- The string a list of UTF-8 bytes encodes. -/
def stringOfBytes (bs : List UInt8) : Option String :=
  (decodeUTF8 (bs.length + 1) bs).map String.mk

/-- Reads the members `"key":"value"` of a JSON object after its opening brace. -/
def parseMembers : Nat → List UInt8 → Option (List (String × String))
  | 0, _ => none
  | fuel + 1, bs =>
    match bs with
    | 34 :: rest =>
      match parseString (rest.length + 1) rest with
      | some (k, 58 :: 34 :: rest1) =>
        match parseString (rest1.length + 1) rest1 with
        | some (v, 44 :: rest2) =>
          match stringOfBytes k, stringOfBytes v with
          | some ks, some vs => (parseMembers fuel rest2).map (fun ms => (ks, vs) :: ms)
          | _, _ => none
        | some (v, [125]) =>
          match stringOfBytes k, stringOfBytes v with
          | some ks, some vs => some [(ks, vs)]
          | _, _ => none
        | _ => none
      | _ => none
    | _ => none

/-- The value of a member, `""` when it is absent. -/
def memberValue (key : String) (ms : List (String × String)) : String :=
  match ms.find? (fun kv => kv.1 = key) with
  | some kv => kv.2
  | none => ""

/-- Modelled from the spec: `encoding/json` belongs to the standard library and
the declaration of `Event` is not under src/. A decoder of the compact wire
format written by `jsonMarshal`: an object
whose members are strings; `name` and `targetID` fill the fields of the event,
the other members are its payload. It is `json.Unmarshal` on what
`jsonMarshal` writes: decoding the encoding of an event with a valid payload
gives the event back (`jsonUnmarshal_jsonMarshal`). -/
def jsonUnmarshal (bs : List UInt8) : Except String Event :=
  match bs with
  | 123 :: rest =>
    match parseMembers (rest.length + 1) rest with
    | some ms =>
      .ok { Name := memberValue "name" ms, TargetID := memberValue "targetID" ms,
            payload := ms.filter (fun kv => kv.1 ≠ "name" ∧ kv.1 ≠ "targetID") }
    | none => .error "invalid character"
  | _ => .error "invalid character"

/-- The reader of scenario D on a stream that delivers the given bytes and ends;
its context is never cancelled. -/
def readScenario (bs : List UInt8) : Option ReadResult :=
  reader.read jsonUnmarshal trimSpaceAscii { ctx := [], rc := streamOf bs } (fun _ => World.init)

/-- The event `x` for target `1` of scenario D. -/
def xEvent : Event := { Name := "x", TargetID := "1", payload := [] }

/-- What one call of `ReadBytes` consumes when it does not end the loop: a line
with its newline, or the bytes read before an error. -/
inductive Frame where
  | line (l : List UInt8)
  | failed (bytesRead : List UInt8) (err : ReadErr)

/-- The items of the stream a frame is made of. -/
def Frame.items : Frame → List Item
  | .line l => streamOf l ++ [Item.byte 10]
  | .failed p err => streamOf p ++ [Item.err err]

/-- A line holds no newline before the one that ends it; the bytes before an
error hold none, and the error is neither end-of-stream nor the peer reset. -/
def Frame.WellFormed : Frame → Prop
  | .line l => (10 : UInt8) ∉ l
  | .failed p err => (10 : UInt8) ∉ p ∧ isEOFErr err = false

/-- The event a frame yields: the one its line parses to after trimming, if any. -/
def Frame.event (unmarshal : List UInt8 → Except String Event)
    (trimSpace : List UInt8 → List UInt8) : Frame → Option Event
  | .line l => (unmarshal (trimSpace (l ++ [10]))).toOption
  | .failed _ _ => none

/-- The stream made of the given frames. -/
def framesItems (fs : List Frame) : List Item := fs.flatMap Frame.items

/-- Whether the context of the reader is cancelled at the start of iteration `n`. -/
def cancelledAt (ctx : Context) (timeline : Nat → World) (n : Nat) : Bool :=
  (ctx.Err (timeline n)).isSome

/-! ## Concurrent dispatches -/

/-- The goroutine that `dispatch` starts (`dispatcher.go`, lines 64-70), between
two of its steps: started, the snapshot not taken yet; in its loop, with the
entries of the snapshot still to visit; finished. -/
inductive Goroutine where
  | started (e : Event)
  | looping (e : Event) (todo : List (Sigma fun _ : Int => Listener))
  | finished

/-- One step of a goroutine of `dispatch`: the call of `listeners` (line 65,
under the mutex), or one iteration of the loop (lines 66-68). -/
def Goroutine.step (s : World) : Goroutine → World × Goroutine
  | .started e => (s, .looping e (listeners s.d e.TargetID e.Name).entries)
  | .looping _ [] => (s, .finished)
  | .looping e (kv :: rest) => (invoke e s kv.1 kv.2, .looping e rest)
  | .finished => (s, .finished)

/-- Whether a goroutine has finished. -/
def Goroutine.isFinished : Goroutine → Bool
  | .finished => true
  | _ => false

/-- Runs goroutines as a schedule orders: each number of the schedule names the
goroutine that makes its next step. -/
def runSchedule : List Nat → World → List Goroutine → World × List Goroutine
  | [], s, gs => (s, gs)
  | i :: is, s, gs =>
    match gs.get? i with
    | none => runSchedule is s gs
    | some g => runSchedule is (g.step s).1 (gs.set i (g.step s).2)

/-- The number of calls, among `calls`, of the listener registered under `id`
for the target `t` and the event name `n`. -/
def invocations (t n : String) (id : Int) (calls : List (Int × Event)) : Nat :=
  (calls.filter (fun c => decide (c.1 = id ∧ c.2.TargetID = t ∧ c.2.Name = n))).length

/-- The registry does not hold `id` in the bucket `(t, n)`, and `id` has been handed out. -/
def Gone (t n : String) (id : Int) (d : dispatcher) : Prop :=
  id ≤ d.id ∧ lookupListener d t n id = none

/-- The listener `id` of the bucket `(t, n)` has been handed out; it is `l` or is removed. -/
def SameOrGone (t n : String) (id : Int) (l : Listener) (d : dispatcher) : Prop :=
  id ≤ d.id ∧ (lookupListener d t n id = some l ∨ lookupListener d t n id = none)

/-! ## rectangle.go, display.go -/

/-- The struct `PositionOptions` of `rectangle.go`, lines 11-14 (a nil pointer is `none`). -/
structure PositionOptions where
  X : Option Int
  Y : Option Int
  deriving DecidableEq

/-- The struct `SizeOptions` of `rectangle.go`, lines 22-25. -/
structure SizeOptions where
  Height : Option Int
  Width : Option Int
  deriving DecidableEq

/-- The struct `RectangleOptions` of `rectangle.go`, lines 34-37. -/
structure RectangleOptions where
  toPositionOptions : PositionOptions
  toSizeOptions : SizeOptions
  deriving DecidableEq

/-- The struct `DisplayOptions` of `display.go`, lines 19-28. Every field is a
pointer, `none` when nil; the pool only copies these pointers, so each is kept
as the value it points to. A `float64` is kept as the 64 bits that represent it. -/
structure DisplayOptions where
  Bounds : Option RectangleOptions
  ID : Option Int
  Rotation : Option Int
  ScaleFactor : Option Nat
  Size : Option SizeOptions
  TouchSupport : Option String
  WorkArea : Option RectangleOptions
  WorkAreaSize : Option SizeOptions
  deriving DecidableEq

/-- The objects of type `DisplayOptions` that pointers refer to, by address.
The pool keeps the pointers of the events it is given and writes through them
(`display_pool.go`, lines 62 and 64), so the objects are part of the state. -/
abbrev Heap := Nat → DisplayOptions

/-- The assignment `*a = v`. -/
def Heap.set (h : Heap) (a : Nat) (v : DisplayOptions) : Heap :=
  fun b => if b = a then v else h b

/-- The struct `Display` of `display.go`, lines 12-15; `o` is a pointer (`none` when nil). -/
structure Display where
  o : Option Nat
  primary : Bool
  deriving DecidableEq

/-- The function `newDisplay` of `display.go`, lines 31-33. -/
def newDisplay (o : Option Nat) (primary : Bool) : Display := { o := o, primary := primary }

/-- The method `IsPrimary` of `display.go`, lines 44-46. -/
def Display.IsPrimary (d : Display) : Bool := d.primary

/-- Modelled from the spec: the declaration of `EventDisplays` is not under
src/. `update` uses its two fields: `All`, a slice of pointers to
`DisplayOptions`, and `Primary`, a pointer to `DisplayOptions`. -/
structure EventDisplays where
  All : List (Option Nat)
  Primary : Option Nat
  deriving DecidableEq

/-! ## display_pool.go -/

/-- The struct `displayPool` of `display_pool.go`, lines 6-9. Each `*Display` of
the map is made by `update` for one key and is kept as a value; the mutex has
no counterpart. -/
structure displayPool where
  d : GoMap Int Display

/-- The function `newDisplayPool` of `display_pool.go`, lines 12-17. -/
def newDisplayPool : displayPool := { d := ∅ }

/-- The method `all` of `display_pool.go`, lines 20-28. -/
def displayPool.all (p : displayPool) : List Display :=
  p.d.entries.foldl (fun ds kv => ds ++ [kv.2]) []

/-- The loop of `primary`, lines 34-38: `d` is the named result, assigned at
each iteration; the loop returns at the first display flagged primary. -/
def primaryLoop : List (Sigma fun _ : Int => Display) → Option Display → Option Display
  | [], d => d
  | kv :: rest, _ => if kv.2.primary then some kv.2 else primaryLoop rest (some kv.2)

/-- The method `primary` of `display_pool.go`, lines 31-40 (`none` is nil). -/
def displayPool.primary (p : displayPool) : Option Display :=
  primaryLoop p.d.entries none

/-- The state of `update` inside its first loop: the map of the pool, the
objects, and the local map `ids`. -/
structure UpdateState where
  d : GoMap Int Display
  heap : Heap
  ids : GoMap Int Bool

/-- One iteration of the first loop of `update`, lines 54-66, for the element
`o` of `e.All`; `none` is the panic of a nil pointer dereference. -/
def updateOne (e : EventDisplays) (st : UpdateState) (o : Option Nat) : Option UpdateState :=
  match o with
  | none => none
  | some a =>
    match (st.heap a).ID with
    | none => none
    | some id =>
      match e.Primary with
      | none => none
      | some pa =>
        match (st.heap pa).ID with
        | none => none
        | some pid =>
          match st.d.lookup id with
          | some d =>
            match d.o with
            | none => none
            | some da =>
              some { d := st.d.replace id { d with primary := decide (id = pid) },
                     heap := st.heap.set da (st.heap a),
                     ids := st.ids.insert id true }
          | none =>
            some { d := st.d.insert id (newDisplay (some a) (decide (id = pid))),
                   heap := st.heap,
                   ids := st.ids.insert id true }

/-- The first loop of `update`, lines 54-66. -/
def updateLoop (e : EventDisplays) : List (Option Nat) → UpdateState → Option UpdateState
  | [], st => some st
  | o :: rest, st =>
    match updateOne e st o with
    | none => none
    | some st1 => updateLoop e rest st1

/-- The second loop of `update`, lines 68-72: the keys that are not in `ids` are deleted. -/
def deleteOld (ids : GoMap Int Bool) (d : GoMap Int Display) : GoMap Int Display :=
  d.keys.foldl (fun m id => if (ids.lookup id).isSome then m else m.erase id) d

/-- The method `update` of `display_pool.go`, lines 43-73: the pool and the
objects afterwards, `none` when a nil pointer is dereferenced. -/
def displayPool.update (p : displayPool) (e : EventDisplays) (h : Heap) :
    Option (displayPool × Heap) :=
  match updateLoop e e.All { d := p.d, heap := h, ids := ∅ } with
  | none => none
  | some st => some ({ d := deleteOld st.ids st.d }, st.heap)

/-- Every display of the pool points to options whose `ID` is the key of the
display: what `update` establishes for every display it stores. -/
def displayPool.Consistent (p : displayPool) (h : Heap) : Prop :=
  ∀ k d, p.d.lookup k = some d → ∃ a, d.o = some a ∧ (h a).ID = some k

/-- No pointer that `update` dereferences in the event is nil: the elements of
`e.All`, their `ID`, `e.Primary` and its `ID`. -/
def EventDisplays.NonNil (e : EventDisplays) (h : Heap) : Prop :=
  (∀ o ∈ e.All, ∃ a, o = some a ∧ ((h a).ID).isSome = true)
  ∧ ∃ pa, e.Primary = some pa ∧ ((h pa).ID).isSome = true

/-- What holds inside the first loop of `update`, started on the pool `p` with
the objects `h0`, once the elements `done` of `e.All` are processed; `pid` is
the `ID` of `e.Primary`. Every object holds its first value or the first value
of a processed element with the same `ID`; every display points to options
whose `ID` is its key; `ids` holds the `ID`s of the processed elements; the
display of each of them is flagged by comparison with `pid` and its options are
the first value of a processed element with that `ID`; the keys of the map are
those of `p` and those of `ids`. -/
def UpdateInv (p : displayPool) (h0 : Heap) (pid : Int) (done : List (Option Nat))
    (st : UpdateState) : Prop :=
  (∀ a, st.heap a = h0 a ∨ ∃ b, some b ∈ done ∧ (h0 b).ID = (h0 a).ID ∧ st.heap a = h0 b)
  ∧ (∀ k d, st.d.lookup k = some d → ∃ a, d.o = some a ∧ (h0 a).ID = some k)
  ∧ (∀ k, k ∈ st.ids ↔ ∃ b, some b ∈ done ∧ (h0 b).ID = some k)
  ∧ (∀ k, k ∈ st.ids → ∃ d da b, st.d.lookup k = some d ∧ d.primary = decide (k = pid)
      ∧ d.o = some da ∧ some b ∈ done ∧ (h0 b).ID = some k ∧ st.heap da = h0 b)
  ∧ (∀ k, k ∈ st.d ↔ k ∈ p.d ∨ k ∈ st.ids)

/-- The options with the given `ID` and rotation, every other field nil. -/
def optionsOf (id rotation : Int) : DisplayOptions :=
  { Bounds := none, ID := some id, Rotation := some rotation, ScaleFactor := none, Size := none,
    TouchSupport := none, WorkArea := none, WorkAreaSize := none }

/-- Objects for the examples: at address `a` the display `a / 10`, rotated by
`90 * (a % 10)` degrees. -/
def exampleHeap : Heap := fun a => optionsOf (a / 10) (90 * (a % 10))

/-- An event with the displays 1 and 2 (objects 10 and 20), 1 being primary. -/
def exampleDisplays : EventDisplays := { All := [some 10, some 20], Primary := some 10 }

/-- A later event: display 2 rotated (object 21) and the new display 3 (object
30), 3 being primary; display 1 is no longer there. -/
def laterDisplays : EventDisplays := { All := [some 21, some 30], Primary := some 30 }

/-- What a pool and the objects look like: for each display, in the order of
the map, its key, its flag and the options it points to. -/
def displayPool.view (r : displayPool × Heap) : List (Int × Bool × Option DisplayOptions) :=
  r.1.d.entries.map (fun kv => (kv.1, kv.2.primary, kv.2.o.map r.2))

/-- A pool without primary display: the displays 1 and 2, none flagged. -/
def poolWithoutPrimary : displayPool :=
  { d := (AList.insert 2 (newDisplay (some 20) false)
      (AList.insert 1 (newDisplay (some 10) false) ∅)) }

/-- A pool with the displays 1, 2 and 3, of which 2 is flagged primary. -/
def poolWithPrimary : displayPool :=
  { d := (AList.insert 3 (newDisplay (some 30) false)
      (AList.insert 2 (newDisplay (some 20) true)
        (AList.insert 1 (newDisplay (some 10) false) ∅))) }

/-! ## paths.go -/

/-- The function `unicode.ToLower` as far as a comparison with an ASCII string
can see it: the letters `A` to `Z` become `a` to `z`, U+0130 becomes `i` and
U+212A becomes `k`; the lower case of every other character is not ASCII, and
the character is kept as it is. -/
def toLowerRune (c : Char) : Char :=
  if 65 ≤ c.toNat ∧ c.toNat ≤ 90 then Char.ofNat (c.toNat + 32)
  else if c.toNat = 304 then 'i'
  else if c.toNat = 8490 then 'k'
  else c

/-- The function `strings.ToLower`: every character is mapped to its lower case. -/
def ToLower (s : String) : String := String.mk (s.data.map toLowerRune)

/-- The function `ElectronDownloadSrc` of `paths.go`, lines 137-159. The
constant `VersionElectron` is not declared under src/ and is a parameter;
`fmt.Sprintf` with `%s` verbs is the concatenation. -/
def ElectronDownloadSrc (VersionElectron os arch : String) : String :=
  let o :=
    if ToLower os = "darwin" then "darwin"
    else if ToLower os = "linux" then "linux"
    else if ToLower os = "windows" then "win32"
    else ""
  let a :=
    if ToLower arch = "amd64" ∨ o = "darwin" then "x64"
    else if ToLower arch = "arm" ∧ o = "linux" then "armv7l"
    else "ia32"
  "https://github.com/electron/electron/releases/download/v" ++ VersionElectron
    ++ "/electron-v" ++ VersionElectron ++ "-" ++ o ++ "-" ++ a ++ ".zip"

/-! ## synchronousFunc among the goroutines of dispatch

`dispatch` only starts a goroutine (`dispatcher.go`, line 64): the listeners are
called later, one at a time, while every other goroutine goes on. In this
section the goroutines of `dispatch` make their steps one by one around a call
of `synchronousFunc`, and the call does not run again at once when its context
is cancelled. -/

/-- What one call of `synchronousFunc` owns: the place of its listener in the
registry (target, event name, id), its named result `e` (the variable `v`) and
its cancel function (the node `k`). -/
structure Own where
  targetID : String
  eventName : String
  id : Int
  v : Nat
  k : Nat

/-- What the call `synchronousFunc c l fn eventNameDone` made in state `s` owns. -/
def ownOf (l : object) (eventNameDone : String) (s : World) : Own :=
  { targetID := l.id, eventName := eventNameDone, id := s.d.id + 1,
    v := s.nextVar, k := s.nextNode }

/-- A side effect of code written outside `synchronousFunc`: it names neither
the result variable nor the cancel function of the call, which are local to
`synchronousFunc`, and the listeners it registers do not either. It may delete
any listener, the listener of the call included. -/
inductive Effect.Spares (O : Own) : Effect → Prop
  | addListener (t n : String) (l : Event → List Effect × Bool) :
      (∀ e eff, eff ∈ (l e).1 → Effect.Spares O eff) → Effect.Spares O (.addListener t n l)
  | delListener (t n : String) (id : Int) : Effect.Spares O (.delListener t n id)
  | cancel (k : Nat) : k ≠ O.k → Effect.Spares O (.cancel k)
  | assign (v : Nat) (e : Event) : v ≠ O.v → Effect.Spares O (.assign v e)

/-- A listener written outside `synchronousFunc`. -/
def Listener.Spares (O : Own) (l : Listener) : Prop :=
  ∀ e eff, eff ∈ (l e).1 → Effect.Spares O eff

/-- Whether a recorded call is a call of the listener of the call: it was made
under the id of the listener, with an event of its target and event name (on
the counter that never wraps, no other listener gets this id for them). -/
def Own.isCall (O : Own) (c : Int × Event) : Bool :=
  decide (c.1 = O.id ∧ c.2.TargetID = O.targetID ∧ c.2.Name = O.eventName)

/-- The event of the last call of the listener among `calls` (oldest first). -/
def lastCall (O : Own) (calls : List (Int × Event)) : Option Event :=
  calls.foldl (fun acc c => if O.isCall c then some c.2 else acc) none

/-- The event with which the listener of the call was last called since the
call started, `n0` calls having been recorded by then; `none` when it has not
been called. -/
def ownCall (O : Own) (n0 : Nat) (s : World) : Option Event :=
  lastCall O (s.calls.drop n0)

/-- What the scope rules give while the call is under way (`n0` calls had been
recorded when it started): the id of its listener has been handed out, its
variable and its node are allocated, the variable holds the event of the last
call of the listener (the zero event before the first one), the cancel function
has been called exactly when the listener has, the place of the listener in the
registry holds nothing else, and every other listener of the registry is written
outside `synchronousFunc`. -/
def Scoped (O : Own) (n0 : Nat) (s : World) : Prop :=
  n0 ≤ s.calls.length
  ∧ O.id ≤ s.d.id
  ∧ O.v < s.nextVar
  ∧ O.k < s.nextNode
  ∧ s.vars.lookup O.v = some (.event ((ownCall O n0 s).getD default))
  ∧ (O.k ∈ s.fired ↔ (ownCall O n0 s).isSome = true)
  ∧ ∀ t n id l, lookupListener s.d t n id = some l →
      ((t, n, id) = (O.targetID, O.eventName, O.id) → l = syncListener O.v O.k)
      ∧ ((t, n, id) ≠ (O.targetID, O.eventName, O.id) → Listener.Spares O l)

/-- A goroutine of `dispatch` while the call is under way: an entry of its
snapshot is the listener of the call, under its place, or a listener written
outside `synchronousFunc`. -/
def Goroutine.Scoped (O : Own) : Goroutine → Prop
  | .started _ => True
  | .looping e todo => ∀ kv ∈ todo,
      ((e.TargetID, e.Name, kv.1) = (O.targetID, O.eventName, O.id)
        → kv.2 = syncListener O.v O.k)
      ∧ ((e.TargetID, e.Name, kv.1) ≠ (O.targetID, O.eventName, O.id)
        → Listener.Spares O kv.2)
  | .finished => True

/-- A goroutine of `dispatch` started before the call: its snapshot holds
listeners written outside `synchronousFunc`, under ids handed out before the
id of the listener of the call. -/
def Goroutine.Before (O : Own) : Goroutine → Prop
  | .started _ => True
  | .looping _ todo => ∀ kv ∈ todo, kv.1 < O.id ∧ Listener.Spares O kv.2
  | .finished => True

/-- One move of the rest of the program while the call is under way: a call of
`dispatch`, which starts a goroutine and returns; the next step of one of the
goroutines of `dispatch`; one call on the shared state. -/
inductive Move where
  | spawn (e : Event)
  | advance (i : Nat)
  | effect (eff : Effect)

/-- Performs a move on the shared state and the goroutines of `dispatch`. -/
def Move.run (st : World × List Goroutine) : Move → World × List Goroutine
  | .spawn e => (st.1, st.2 ++ [.started e])
  | .advance i =>
    match st.2.get? i with
    | none => st
    | some g => ((g.step st.1).1, st.2.set i (g.step st.1).2)
  | .effect eff => (applyEffect st.1 eff, st.2)

/-- Performs a list of moves, in order. -/
def runMoves (moves : List Move) (st : World × List Goroutine) : World × List Goroutine :=
  moves.foldl Move.run st

/-- A move of code written outside `synchronousFunc`. -/
def Move.Spares (O : Own) : Move → Prop
  | .spawn _ => True
  | .advance _ => True
  | .effect eff => Effect.Spares O eff

/-- The receive `<-ctx.Done()` of line 195 among the moves of the rest of the
program: the receive is possible in the first state in which the context is
cancelled; the result is that state with the moves still to come, and `none`
when the moves run out before the context is cancelled. -/
def waitDoneAmong (ctx : Context) :
    List Move → World × List Goroutine → Option ((World × List Goroutine) × List Move)
  | [], st => if (ctx.Err st.1).isSome then some (st, []) else none
  | m :: rest, st =>
    if (ctx.Err st.1).isSome then some (st, m :: rest) else waitDoneAmong ctx rest (m.run st)

/-- The function `synchronousFunc` of `helper.go`, lines 185-197, among the
goroutines of `dispatch`: `gs` are the goroutines under way when the call
reaches line 195, `moves` is what the rest of the program does from then on,
and `lag` is the number of moves made between the cancellation of the context
and the moment the call runs again. The result is `none` when the call never
returns. -/
def synchronousFuncAmong (c : Canceller) (l : object) (fn : World → World)
    (eventNameDone : String) (moves : List Move) (lag : Nat) (gs : List Goroutine)
    (s : World) : Option (Event × World) :=
  -- (e Event): the named result, captured by the listener
  let s0 := { s with vars := s.vars.insert s.nextVar (.event default), nextVar := s.nextVar + 1 }
  -- var ctx, cancel = c.NewContext()
  let r := c.NewContext s0
  -- l.On(eventNameDone, ...)
  let s1 := l.On eventNameDone (syncListener s.nextVar r.1.2) r.2
  -- fn()
  let s2 := fn s1
  -- <-ctx.Done()
  match waitDoneAmong r.1.1 moves (s2, gs) with
  | none => none
  | some (st, rest) =>
    -- the deferred cancel() and the return of e, once the call runs again
    some (readEvent (cancelFunc r.1.2 (runMoves (rest.take lag) st).1) s.nextVar,
          cancelFunc r.1.2 (runMoves (rest.take lag) st).1)

/-- The shared state after the first `j` of the moves made since the call
`synchronousFunc c l fn eventNameDone` started to wait. -/
def worldAfter (c : Canceller) (l : object) (fn : World → World) (eventNameDone : String)
    (moves : List Move) (gs : List Goroutine) (s : World) (j : Nat) : World :=
  (runMoves (moves.take j) (synchronousFuncStart c l fn eventNameDone s, gs)).1

/-- The event with which the listener of the call `synchronousFunc c l fn
eventNameDone` has last been called after the first `j` moves, if it has been
called. -/
def deliveredAfter (c : Canceller) (l : object) (fn : World → World) (eventNameDone : String)
    (moves : List Move) (gs : List Goroutine) (s : World) (j : Nat) : Option Event :=
  ownCall (ownOf l eventNameDone s) s.calls.length
    (worldAfter c l fn eventNameDone moves gs s j)

/-- An action that removes the listener registered first on target `t` for the
event `done`. -/
def removeDoneListener : World → World :=
  fun s => applyEffect s (.delListener "t" "done" 1)

/-- An action that declares a variable of its own. -/
def declareVar : World → World :=
  fun s => { s with vars := s.vars.insert s.nextVar (.error none), nextVar := s.nextVar + 1 }

/-! # Theorems -/

/-! ### Go integers -/

theorem wrapInt_add_pow (bits : Nat) (x : Int) : wrapInt bits (x + 2 ^ bits) = wrapInt bits x := by
  unfold wrapInt
  have : x + 2 ^ bits + 2 ^ (bits - 1) = x + 2 ^ (bits - 1) + 2 ^ bits := by ring
  rw [this, Int.add_emod_self]

theorem wrapInt_modEq (bits : Nat) (x : Int) : (2 : Int) ^ bits ∣ wrapInt bits x - x := by
  unfold wrapInt
  have h := Int.emod_add_ediv (x + 2 ^ (bits - 1)) (2 ^ bits)
  refine ⟨-((x + 2 ^ (bits - 1)) / 2 ^ bits), ?_⟩
  linarith

theorem wrapInt_congr (bits : Nat) (x y : Int) (h : (2 : Int) ^ bits ∣ x - y) :
    wrapInt bits x = wrapInt bits y := by
  unfold wrapInt
  have : (x + 2 ^ (bits - 1)) % 2 ^ bits = (y + 2 ^ (bits - 1)) % 2 ^ bits := by
    rw [Int.emod_eq_emod_iff_emod_sub_eq_zero]
    have hxy : x + 2 ^ (bits - 1) - (y + 2 ^ (bits - 1)) = x - y := by ring
    rw [hxy]
    exact Int.emod_eq_zero_of_dvd h
  rw [this]

theorem wrapInt_wrapInt_add (bits : Nat) (x y : Int) :
    wrapInt bits (wrapInt bits x + y) = wrapInt bits (x + y) := by
  apply wrapInt_congr
  have : wrapInt bits x + y - (x + y) = wrapInt bits x - x := by ring
  rw [this]
  exact wrapInt_modEq bits x

theorem two_pow_pred (bits : Nat) (hbits : 0 < bits) :
    (2 : Int) ^ bits = 2 * 2 ^ (bits - 1) := by
  obtain ⟨b, rfl⟩ : ∃ b, bits = b + 1 := ⟨bits - 1, by omega⟩
  rw [Nat.add_sub_cancel, pow_succ]
  ring

theorem wrapInt_eq_self (bits : Nat) (x : Int) (hbits : 0 < bits)
    (hlo : -(2 ^ (bits - 1)) ≤ x) (hhi : x < 2 ^ (bits - 1)) : wrapInt bits x = x := by
  unfold wrapInt
  have hm := two_pow_pred bits hbits
  rw [Int.emod_eq_of_lt (by linarith) (by linarith)]
  ring

theorem wrapInt_inj (bits : Nat) (x y : Int) (h : wrapInt bits x = wrapInt bits y)
    (hlt : |x - y| < 2 ^ bits) : x = y := by
  have hx := wrapInt_modEq bits x
  have hy := wrapInt_modEq bits y
  have hd : (2 : Int) ^ bits ∣ x - y := by
    have : x - y = (wrapInt bits y - y) - (wrapInt bits x - x) := by rw [h]; ring
    rw [this]
    exact dvd_sub hy hx
  have := Int.eq_zero_of_abs_lt_dvd hd hlt
  linarith

theorem foldl_insert_entries (xs : List (Sigma fun _ : Int => Listener)) :
    ∀ acc : GoMap Int Listener, (xs ++ acc.entries).NodupKeys →
      (xs.foldl (fun acc kv => acc.insert kv.1 kv.2) acc).entries = xs.reverse ++ acc.entries := by
  induction xs with
  | nil => intro acc _; simp
  | cons x xs ih =>
    intro acc h
    have hx : x.1 ∉ acc := by
      intro hmem
      rw [List.cons_append, List.nodupKeys_cons] at h
      apply h.1
      rw [List.keys, List.map_append, List.mem_append]
      exact Or.inr (AList.mem_keys.mp hmem)
    have hins : (acc.insert x.1 x.2).entries = x :: acc.entries := by
      rw [AList.insert_entries_of_neg hx]
    have h2 : (xs ++ (acc.insert x.1 x.2).entries).NodupKeys := by
      rw [hins]
      have hp : (x :: xs ++ acc.entries).Perm (xs ++ x :: acc.entries) :=
        (List.perm_middle : (xs ++ x :: acc.entries).Perm (x :: (xs ++ acc.entries))).symm
      exact (List.perm_nodupKeys hp).mp h
    rw [List.foldl_cons, ih _ h2, hins]
    simp

theorem copyBucket_entries (b : GoMap Int Listener) : (copyBucket b).entries = b.entries.reverse := by
  unfold copyBucket
  rw [foldl_insert_entries]
  · simp
  · simpa using b.nodupKeys

theorem copyBucket_keys (b : GoMap Int Listener) : (copyBucket b).keys = b.keys.reverse := by
  simp [AList.keys, copyBucket_entries, List.keys]

theorem copyBucket_lookup (b : GoMap Int Listener) (k : Int) :
    (copyBucket b).lookup k = b.lookup k := by
  apply AList.perm_lookup
  rw [copyBucket_entries]
  exact List.reverse_perm _

theorem listeners_eq (d : dispatcher) (t n : String) :
    listeners d t n = match bucket d t n with
      | none => ∅
      | some b => copyBucket b := by
  unfold listeners bucket
  cases h : d.l.lookup t with
  | none => simp
  | some m =>
    cases h2 : m.lookup n with
    | none => simp [h2]
    | some b => simp [h2]

theorem bucket_addListener_same (d : dispatcher) (t n : String) (l : Listener) :
    bucket (addListener d t n l) t n = some (((bucket d t n).getD ∅).insert (d.id + 1) l) := by
  unfold bucket addListener
  cases h : d.l.lookup t with
  | none => simp [-AList.insert_empty, AList.lookup_insert]
  | some m =>
    cases h2 : m.lookup n with
    | none => simp [-AList.insert_empty, AList.lookup_insert, h, h2]
    | some b => simp [-AList.insert_empty, AList.lookup_insert, h, h2]

theorem bucket_addListener_other (d : dispatcher) (t n : String) (l : Listener) (t' n' : String)
    (hne : (t', n') ≠ (t, n)) :
    bucket (addListener d t n l) t' n' = bucket d t' n' := by
  unfold bucket addListener
  by_cases ht : t' = t
  · subst ht
    have hn : n' ≠ n := fun h => hne (by rw [h])
    cases h : d.l.lookup t' with
    | none => simp [-AList.insert_empty, AList.lookup_insert, AList.lookup_insert_ne hn]
    | some m =>
      cases h2 : m.lookup n with
      | none => simp [-AList.insert_empty, AList.lookup_insert, h, h2, AList.lookup_insert_ne hn]
      | some b => simp [-AList.insert_empty, AList.lookup_insert, h, h2, AList.lookup_insert_ne hn]
  · cases h : d.l.lookup t with
    | none => simp [AList.lookup_insert_ne ht]
    | some m => simp [AList.lookup_insert_ne ht]

theorem bucket_delListener_same (d : dispatcher) (t n : String) (id : Int) :
    bucket (delListener d t n id) t n = (bucket d t n).map (fun b => b.erase id) := by
  unfold bucket delListener
  cases h : d.l.lookup t with
  | none => simp [h]
  | some m =>
    cases h2 : m.lookup n with
    | none => simp [h, h2]
    | some b => simp [AList.lookup_insert, h, h2]

theorem bucket_delListener_other (d : dispatcher) (t n : String) (id : Int) (t' n' : String)
    (hne : (t', n') ≠ (t, n)) :
    bucket (delListener d t n id) t' n' = bucket d t' n' := by
  unfold bucket delListener
  cases h : d.l.lookup t with
  | none => simp
  | some m =>
    cases h2 : m.lookup n with
    | none => simp [h2]
    | some b =>
      by_cases ht : t' = t
      · subst ht
        have hn : n' ≠ n := fun h => hne (by rw [h])
        simp [AList.lookup_insert, h, h2, AList.lookup_insert_ne hn]
      · simp [h2, AList.lookup_insert_ne ht]

theorem delListener_id (d : dispatcher) (t n : String) (id : Int) :
    (delListener d t n id).id = d.id := by
  unfold delListener
  cases h : d.l.lookup t with
  | none => rfl
  | some m =>
    cases h2 : m.lookup n with
    | none => simp [h2]
    | some b => simp [h2]

/-! ### The loop of dispatch -/

theorem applyEffect_calls (s : World) (eff : Effect) : (applyEffect s eff).calls = s.calls := by
  cases eff <;> rfl

theorem foldl_applyEffect_calls (effs : List Effect) :
    ∀ s : World, (effs.foldl applyEffect s).calls = s.calls := by
  induction effs with
  | nil => intro s; rfl
  | cons x xs ih => intro s; rw [List.foldl_cons, ih, applyEffect_calls]

theorem invoke_calls (e : Event) (s : World) (id : Int) (l : Listener) :
    (invoke e s id l).calls = s.calls ++ [(id, e)] := by
  unfold invoke
  by_cases h : (l e).2 = true
  · simp [h, foldl_applyEffect_calls]
  · simp [h, foldl_applyEffect_calls]

theorem foldl_invoke_calls (e : Event) (xs : List (Sigma fun _ : Int => Listener)) :
    ∀ s : World, (xs.foldl (fun s kv => invoke e s kv.1 kv.2) s).calls
      = s.calls ++ xs.map (fun kv => (kv.1, e)) := by
  induction xs with
  | nil => intro s; simp
  | cons x xs ih => intro s; rw [List.foldl_cons, ih, invoke_calls]; simp

theorem runListeners_calls (e : Event) (snapshot : GoMap Int Listener) (s : World) :
    (runListeners e snapshot s).calls = s.calls ++ snapshot.keys.map (fun id => (id, e)) := by
  unfold runListeners
  rw [foldl_invoke_calls]
  simp [AList.keys, List.keys, List.map_map, Function.comp_def]

theorem dispatch_calls (s : World) (e : Event) :
    (dispatch s e).calls
      = s.calls ++ (listeners s.d e.TargetID e.Name).keys.map (fun id => (id, e)) :=
  runListeners_calls e _ s

theorem applyEffect_d_of_quiet (s : World) (eff : Effect) (h : eff.touchesRegistry = false) :
    (applyEffect s eff).d = s.d := by
  cases eff <;> first | rfl | simp [Effect.touchesRegistry] at h

theorem foldl_applyEffect_d_of_quiet (effs : List Effect)
    (h : ∀ eff ∈ effs, eff.touchesRegistry = false) :
    ∀ s : World, (effs.foldl applyEffect s).d = s.d := by
  induction effs with
  | nil => intro s; rfl
  | cons x xs ih =>
    intro s
    rw [List.foldl_cons, ih (fun eff he => h eff (List.mem_cons_of_mem _ he)),
      applyEffect_d_of_quiet _ _ (h x (List.mem_cons_self _ _))]

theorem invoke_d_of_quiet (e : Event) (s : World) (id : Int) (l : Listener)
    (h : ∀ eff ∈ (l e).1, eff.touchesRegistry = false) :
    (invoke e s id l).d = if (l e).2 then delListener s.d e.TargetID e.Name id else s.d := by
  unfold invoke
  by_cases hb : (l e).2 = true
  · simp [hb, foldl_applyEffect_d_of_quiet _ h]
  · simp [hb, foldl_applyEffect_d_of_quiet _ h]

theorem lookupListener_delListener_same (d : dispatcher) (t n : String) (id k : Int) :
    lookupListener (delListener d t n id) t n k
      = if k = id then none else lookupListener d t n k := by
  unfold lookupListener
  rw [bucket_delListener_same]
  cases h : bucket d t n with
  | none => simp
  | some b =>
    by_cases hk : k = id
    · subst hk; simp [AList.lookup_erase]
    · simp [hk, AList.lookup_erase_ne hk]

theorem lookupListener_delListener_other (d : dispatcher) (t n : String) (id : Int)
    (t' n' : String) (k : Int) (hne : (t', n') ≠ (t, n)) :
    lookupListener (delListener d t n id) t' n' k = lookupListener d t' n' k := by
  unfold lookupListener
  rw [bucket_delListener_other d t n id t' n' hne]

theorem listeners_lookup (d : dispatcher) (t n : String) (k : Int) :
    (listeners d t n).lookup k = lookupListener d t n k := by
  rw [listeners_eq]
  unfold lookupListener
  cases h : bucket d t n with
  | none => simp
  | some b => simp [copyBucket_lookup]

theorem listeners_congr {d d' : dispatcher} {t n : String} (h : bucket d' t n = bucket d t n) :
    listeners d' t n = listeners d t n := by
  rw [listeners_eq, listeners_eq, h]

/-- The ids of the entries of a snapshot whose listener asks for its removal on `e`. -/
theorem foldl_invoke_quiet (e : Event) (xs : List (Sigma fun _ : Int => Listener))
    (h : ∀ kv ∈ xs, ∀ eff ∈ (kv.2 e).1, eff.touchesRegistry = false) :
    ∀ s : World,
      (∀ k, lookupListener (xs.foldl (fun s kv => invoke e s kv.1 kv.2) s).d e.TargetID e.Name k
        = if k ∈ (xs.filter (fun kv => (kv.2 e).2)).map (fun kv => kv.1) then none
          else lookupListener s.d e.TargetID e.Name k)
      ∧ (∀ t n, (t, n) ≠ (e.TargetID, e.Name) →
          bucket (xs.foldl (fun s kv => invoke e s kv.1 kv.2) s).d t n = bucket s.d t n)
      ∧ ((∀ kv ∈ xs, (kv.2 e).2 = false) →
          (xs.foldl (fun s kv => invoke e s kv.1 kv.2) s).d = s.d) := by
  induction xs with
  | nil => intro s; simp
  | cons x xs ih =>
    intro s
    have hx := h x (List.mem_cons_self _ _)
    have ih' := ih (fun kv hkv => h kv (List.mem_cons_of_mem _ hkv)) (invoke e s x.1 x.2)
    rw [List.foldl_cons]
    refine ⟨?_, ?_, ?_⟩
    · intro k
      rw [ih'.1 k, invoke_d_of_quiet e s x.1 x.2 hx]
      by_cases hb : (x.2 e).2 = true
      · simp only [hb, if_true, List.filter_cons_of_pos, List.map_cons, List.mem_cons]
        rw [lookupListener_delListener_same]
        by_cases hk : k = x.1
        · simp [hk]
        · by_cases hA : k ∈ (xs.filter (fun kv => (kv.2 e).2)).map (fun kv => kv.1)
          · rw [if_pos hA, if_pos (Or.inr hA)]
          · rw [if_neg hA, if_neg hk, if_neg (by tauto)]
      · have hb' : (x.2 e).2 = false := by simpa using hb
        rw [List.filter_cons_of_neg (by simpa using hb')]
        simp [hb']
    · intro t n hne
      rw [ih'.2.1 t n hne, invoke_d_of_quiet e s x.1 x.2 hx]
      by_cases hb : (x.2 e).2 = true
      · simp only [hb, if_true]
        exact bucket_delListener_other _ _ _ _ _ _ hne
      · have hb' : (x.2 e).2 = false := by simpa using hb
        simp [hb']
    · intro hk
      rw [ih'.2.2 (fun kv hkv => hk kv (List.mem_cons_of_mem _ hkv)),
        invoke_d_of_quiet e s x.1 x.2 hx, hk x (List.mem_cons_self _ _)]
      simp

theorem dispatch_d_of_quiet_keep (s : World) (e : Event)
    (hquiet : ∀ kv ∈ (listeners s.d e.TargetID e.Name).entries,
      ∀ eff ∈ (kv.2 e).1, eff.touchesRegistry = false)
    (hkeep : ∀ kv ∈ (listeners s.d e.TargetID e.Name).entries, (kv.2 e).2 = false) :
    (dispatch s e).d = s.d :=
  (foldl_invoke_quiet e _ hquiet s).2.2 hkeep

theorem count_call_of_mem (ks : List Int) (e : Event) (id : Int) (hn : ks.Nodup)
    (h : id ∈ ks) : (ks.map (fun k => (k, e))).count (id, e) = 1 := by
  induction ks with
  | nil => simp at h
  | cons a as ih =>
    rw [List.nodup_cons] at hn
    rw [List.map_cons, List.count_cons]
    by_cases ha : id = a
    · subst ha
      have : (as.map (fun k => (k, e))).count (id, e) = 0 := by
        rw [List.count_eq_zero]
        intro hm
        obtain ⟨k, hk, hke⟩ := List.mem_map.mp hm
        exact hn.1 ((Prod.mk.inj hke).1 ▸ hk)
      simp [this]
    · have hin : id ∈ as := by
        rcases List.mem_cons.mp h with h | h
        · exact absurd h ha
        · exact h
      rw [ih hn.2 hin]
      have : ((a, e) == (id, e)) = false := by
        simp
        intro h; exact absurd h.symm ha
      simp [this]

theorem count_call_of_mem_keys (m : GoMap Int Listener) (e : Event) (id : Int)
    (h : id ∈ m.keys) : (m.keys.map (fun k => (k, e))).count (id, e) = 1 :=
  count_call_of_mem m.keys e id m.keys_nodup h

theorem iterate_dispatch_of_quiet_keep (s : World) (e : Event)
    (hquiet : ∀ kv ∈ (listeners s.d e.TargetID e.Name).entries,
      ∀ eff ∈ (kv.2 e).1, eff.touchesRegistry = false)
    (hkeep : ∀ kv ∈ (listeners s.d e.TargetID e.Name).entries, (kv.2 e).2 = false) (n : Nat) :
    ((fun x => dispatch x e)^[n] s).d = s.d
    ∧ ∀ id ∈ (listeners s.d e.TargetID e.Name).keys,
        ((fun x => dispatch x e)^[n] s).calls.count (id, e) = s.calls.count (id, e) + n := by
  induction n with
  | zero => simp
  | succ n ih =>
    rw [Function.iterate_succ_apply']
    obtain ⟨hd, hc⟩ := ih
    have hq' : ∀ kv ∈ (listeners ((fun x => dispatch x e)^[n] s).d e.TargetID e.Name).entries,
        ∀ eff ∈ (kv.2 e).1, eff.touchesRegistry = false := by rw [hd]; exact hquiet
    have hk' : ∀ kv ∈ (listeners ((fun x => dispatch x e)^[n] s).d e.TargetID e.Name).entries,
        (kv.2 e).2 = false := by rw [hd]; exact hkeep
    refine ⟨by rw [dispatch_d_of_quiet_keep _ e hq' hk', hd], ?_⟩
    intro id hid
    rw [dispatch_calls, List.count_append, hc id hid, hd, count_call_of_mem_keys _ e id hid]
    omega

theorem keys_eq_nil_of_lookup (m : GoMap Int Listener) (h : ∀ k, m.lookup k = none) :
    m.keys = [] := by
  apply List.eq_nil_iff_forall_not_mem.mpr
  intro k hk
  exact (AList.lookup_eq_none.mp (h k)) (AList.mem_keys.mpr hk)

theorem lookup_removed_iff (m : GoMap Int Listener) (e : Event) (k : Int) (l : Listener)
    (h : m.lookup k = some l) :
    k ∈ (m.entries.filter (fun kv => (kv.2 e).2)).map (fun kv => kv.1) ↔ (l e).2 = true := by
  have hmem : (⟨k, l⟩ : Sigma fun _ : Int => Listener) ∈ m.entries := AList.mem_lookup_iff.mp h
  constructor
  · intro hk
    obtain ⟨kv, hkv, rfl⟩ := List.mem_map.mp hk
    obtain ⟨hin, hb⟩ := List.mem_filter.mp hkv
    have hkv' : m.lookup kv.1 = some kv.2 := AList.mem_lookup_iff.mpr hin
    rw [h] at hkv'
    have : l = kv.2 := Option.some.inj hkv'
    rw [this]
    exact hb
  · intro hb
    exact List.mem_map.mpr ⟨⟨k, l⟩, List.mem_filter.mpr ⟨hmem, hb⟩, rfl⟩

theorem not_removed_of_lookup_none (m : GoMap Int Listener) (e : Event) (k : Int)
    (h : m.lookup k = none) :
    k ∉ (m.entries.filter (fun kv => (kv.2 e).2)).map (fun kv => kv.1) := by
  intro hk
  obtain ⟨kv, hkv, rfl⟩ := List.mem_map.mp hk
  obtain ⟨hin, _⟩ := List.mem_filter.mp hkv
  have hkv' : m.lookup kv.1 = some kv.2 := AList.mem_lookup_iff.mpr hin
  rw [h] at hkv'
  exact Option.noConfusion hkv'

theorem dispatch_lookup_of_quiet (s : World) (e : Event)
    (hquiet : ∀ kv ∈ (listeners s.d e.TargetID e.Name).entries,
      ∀ eff ∈ (kv.2 e).1, eff.touchesRegistry = false) (id : Int) :
    (listeners (dispatch s e).d e.TargetID e.Name).lookup id
      = ((listeners s.d e.TargetID e.Name).lookup id).filter (fun l => !(l e).2) := by
  rw [listeners_lookup]
  have h1 := (foldl_invoke_quiet e _ hquiet s).1 id
  unfold dispatch runListeners
  rw [h1]
  cases hl : (listeners s.d e.TargetID e.Name).lookup id with
  | none =>
    rw [if_neg (not_removed_of_lookup_none _ e id hl), ← listeners_lookup, hl]
    rfl
  | some l =>
    by_cases hb : (l e).2 = true
    · rw [if_pos ((lookup_removed_iff _ e id l hl).mpr hb)]
      simp [Option.filter, hb]
    · rw [if_neg (fun h => hb ((lookup_removed_iff _ e id l hl).mp h)), ← listeners_lookup, hl]
      simp [Option.filter, hb]

/-- C1. Running `dispatch(e)` to completion, with listeners that do not call
`addListener` or `delListener` themselves, invokes every listener registered
under `(e.TargetID, e.Name)` exactly once with `e`; afterwards that bucket holds
exactly the listeners that returned false, under their ids, and no other bucket
has changed. A bucket of listeners that all keep themselves is unchanged after
`n` dispatches and each of them has been invoked `n` times; a bucket whose only
listener asks for its removal is empty after one dispatch. -/
theorem dispatch_invokes_once_and_keeps (s : World) (e : Event)
    (hquiet : ∀ kv ∈ (listeners s.d e.TargetID e.Name).entries,
      ∀ eff ∈ (kv.2 e).1, eff.touchesRegistry = false) :
    (dispatch s e).calls
        = s.calls ++ (listeners s.d e.TargetID e.Name).keys.map (fun id => (id, e))
    ∧ (listeners s.d e.TargetID e.Name).keys.Nodup
    ∧ (∀ id, (listeners (dispatch s e).d e.TargetID e.Name).lookup id
        = ((listeners s.d e.TargetID e.Name).lookup id).filter (fun l => !(l e).2))
    ∧ (∀ t n, (t, n) ≠ (e.TargetID, e.Name) →
        listeners (dispatch s e).d t n = listeners s.d t n)
    ∧ ((∀ kv ∈ (listeners s.d e.TargetID e.Name).entries, (kv.2 e).2 = false) →
        ∀ n : Nat,
          listeners ((fun x => dispatch x e)^[n] s).d e.TargetID e.Name
            = listeners s.d e.TargetID e.Name
          ∧ ∀ id ∈ (listeners s.d e.TargetID e.Name).keys,
              ((fun x => dispatch x e)^[n] s).calls.count (id, e) = s.calls.count (id, e) + n)
    ∧ (∀ id l, (listeners s.d e.TargetID e.Name).entries = [⟨id, l⟩] → (l e).2 = true →
        (listeners (dispatch s e).d e.TargetID e.Name).keys = []) := by
  refine ⟨dispatch_calls s e, AList.keys_nodup _, dispatch_lookup_of_quiet s e hquiet, ?_, ?_, ?_⟩
  · intro t n hne
    exact listeners_congr ((foldl_invoke_quiet e _ hquiet s).2.1 t n hne)
  · intro hkeep n
    have h := iterate_dispatch_of_quiet_keep s e hquiet hkeep n
    exact ⟨by rw [h.1], h.2⟩
  · intro id l hent hb
    apply keys_eq_nil_of_lookup
    intro k
    rw [dispatch_lookup_of_quiet s e hquiet k]
    cases hl : (listeners s.d e.TargetID e.Name).lookup k with
    | none => rfl
    | some l' =>
      have hmem := AList.mem_lookup_iff.mp hl
      rw [hent, List.mem_singleton] at hmem
      have hl' : l' = l := by
        have := congrArg Sigma.snd hmem
        simpa using this
      simp [Option.filter, hl', hb]

theorem scenarioA_entries :
    (listeners scenarioA.d fooEvent.TargetID fooEvent.Name).entries = [⟨1, keepListener⟩] := by
  rfl

theorem scenarioB_entries :
    (listeners scenarioB.d fooEvent.TargetID fooEvent.Name).entries = [⟨1, removeListener⟩] := by
  rfl

theorem dispatch_invokes_once_and_keeps_witness :
    (∀ kv ∈ (listeners scenarioA.d fooEvent.TargetID fooEvent.Name).entries,
      ∀ eff ∈ (kv.2 fooEvent).1, eff.touchesRegistry = false)
    ∧ (∀ kv ∈ (listeners scenarioB.d fooEvent.TargetID fooEvent.Name).entries,
      ∀ eff ∈ (kv.2 fooEvent).1, eff.touchesRegistry = false)
    ∧ ((fun x => dispatch x fooEvent)^[2] scenarioA).calls.count (1, fooEvent) = 2
    ∧ (listeners ((fun x => dispatch x fooEvent)^[2] scenarioA).d "1" "foo").keys = [1]
    ∧ (dispatch scenarioB fooEvent).calls = [(1, fooEvent)]
    ∧ (listeners (dispatch scenarioB fooEvent).d "1" "foo").keys = [] := by
  have hA : ∀ kv ∈ (listeners scenarioA.d fooEvent.TargetID fooEvent.Name).entries,
      ∀ eff ∈ (kv.2 fooEvent).1, eff.touchesRegistry = false := by
    intro kv hkv
    rw [scenarioA_entries, List.mem_singleton] at hkv
    subst hkv
    intro eff heff
    simp [keepListener] at heff
  have hB : ∀ kv ∈ (listeners scenarioB.d fooEvent.TargetID fooEvent.Name).entries,
      ∀ eff ∈ (kv.2 fooEvent).1, eff.touchesRegistry = false := by
    intro kv hkv
    rw [scenarioB_entries, List.mem_singleton] at hkv
    subst hkv
    intro eff heff
    simp [removeListener] at heff
  have hkeep : ∀ kv ∈ (listeners scenarioA.d fooEvent.TargetID fooEvent.Name).entries,
      (kv.2 fooEvent).2 = false := by
    intro kv hkv
    rw [scenarioA_entries, List.mem_singleton] at hkv
    subst hkv
    rfl
  have tA := dispatch_invokes_once_and_keeps scenarioA fooEvent hA
  have tB := dispatch_invokes_once_and_keeps scenarioB fooEvent hB
  have tA2 := tA.2.2.2.2.1 hkeep 2
  refine ⟨hA, hB, ?_, ?_, ?_, ?_⟩
  · have := tA2.2 1 (by decide)
    simpa [scenarioA, World.init] using this
  · exact (congrArg AList.keys tA2.1).trans (by decide)
  · rw [tB.1]
    decide
  · exact tB.2.2.2.2.2 1 removeListener scenarioB_entries rfl

/-! ### Properties of the registry kept by every operation -/

theorem applyEffect_preserves (P : dispatcher → Prop)
    (hadd : ∀ d t n l, P d → P (addListener d t n l))
    (hdel : ∀ d t n id, P d → P (delListener d t n id))
    (s : World) (eff : Effect) (h : P s.d) : P (applyEffect s eff).d := by
  cases eff with
  | addListener t n l => exact hadd _ _ _ _ h
  | delListener t n id => exact hdel _ _ _ _ h
  | cancel k => exact h
  | assign v e => exact h

theorem foldl_applyEffect_preserves (P : dispatcher → Prop)
    (hadd : ∀ d t n l, P d → P (addListener d t n l))
    (hdel : ∀ d t n id, P d → P (delListener d t n id))
    (effs : List Effect) : ∀ s : World, P s.d → P (effs.foldl applyEffect s).d := by
  induction effs with
  | nil => intro s h; exact h
  | cons x xs ih =>
    intro s h
    rw [List.foldl_cons]
    exact ih _ (applyEffect_preserves P hadd hdel s x h)

theorem invoke_preserves (P : dispatcher → Prop)
    (hadd : ∀ d t n l, P d → P (addListener d t n l))
    (hdel : ∀ d t n id, P d → P (delListener d t n id))
    (e : Event) (s : World) (id : Int) (l : Listener) (h : P s.d) : P (invoke e s id l).d := by
  unfold invoke
  have h1 : P ((l e).1.foldl applyEffect { s with calls := s.calls ++ [(id, e)] }).d :=
    foldl_applyEffect_preserves P hadd hdel _ _ h
  by_cases hb : (l e).2 = true
  · simp only [hb, if_true]
    exact hdel _ _ _ _ h1
  · simp only [hb]
    exact h1

theorem runListeners_preserves (P : dispatcher → Prop)
    (hadd : ∀ d t n l, P d → P (addListener d t n l))
    (hdel : ∀ d t n id, P d → P (delListener d t n id))
    (e : Event) (snapshot : GoMap Int Listener) (s : World) (h : P s.d) :
    P (runListeners e snapshot s).d := by
  unfold runListeners
  generalize snapshot.entries = xs
  induction xs generalizing s with
  | nil => exact h
  | cons x xs ih =>
    rw [List.foldl_cons]
    exact ih _ (invoke_preserves P hadd hdel e s x.1 x.2 h)

theorem dispatch_preserves (P : dispatcher → Prop)
    (hadd : ∀ d t n l, P d → P (addListener d t n l))
    (hdel : ∀ d t n id, P d → P (delListener d t n id))
    (s : World) (e : Event) (h : P s.d) : P (dispatch s e).d :=
  runListeners_preserves P hadd hdel e _ s h

theorem addListener_id (d : dispatcher) (t n : String) (l : Listener) :
    (addListener d t n l).id = d.id + 1 := rfl

theorem bucket_newDispatcher (t n : String) : bucket newDispatcher t n = none := by
  simp [bucket, newDispatcher]

theorem keysBelowCounter_addListener (d : dispatcher) (t n : String) (l : Listener)
    (h : KeysBelowCounter d) : KeysBelowCounter (addListener d t n l) := by
  intro t' n' b hb k hk
  rw [addListener_id]
  by_cases hne : (t', n') = (t, n)
  · obtain ⟨rfl, rfl⟩ := Prod.mk.inj hne
    rw [bucket_addListener_same] at hb
    have hb' := Option.some.inj hb
    rw [← hb', AList.keys_insert] at hk
    rcases List.mem_cons.mp hk with hk | hk
    · omega
    · have hk' := List.mem_of_mem_erase hk
      cases hbd : bucket d t' n' with
      | none => rw [hbd] at hk'; simp at hk'
      | some b0 =>
        rw [hbd] at hk'
        have := h t' n' b0 hbd k hk'
        omega
  · rw [bucket_addListener_other d t n l t' n' hne] at hb
    have := h t' n' b hb k hk
    omega

theorem keysBelowCounter_delListener (d : dispatcher) (t n : String) (id : Int)
    (h : KeysBelowCounter d) : KeysBelowCounter (delListener d t n id) := by
  intro t' n' b hb k hk
  rw [delListener_id]
  by_cases hne : (t', n') = (t, n)
  · obtain ⟨rfl, rfl⟩ := Prod.mk.inj hne
    rw [bucket_delListener_same] at hb
    cases hbd : bucket d t' n' with
    | none => rw [hbd] at hb; simp at hb
    | some b0 =>
      rw [hbd] at hb
      have hb' : b0.erase id = b := by simpa using hb
      rw [← hb', AList.keys_erase] at hk
      exact h t' n' b0 hbd k (List.mem_of_mem_erase hk)
  · rw [bucket_delListener_other d t n id t' n' hne] at hb
    exact h t' n' b hb k hk

theorem keysBelowCounter_of_reachable (d : dispatcher) (h : Reachable d) : KeysBelowCounter d := by
  induction h with
  | init =>
    intro t n b hb
    rw [bucket_newDispatcher] at hb
    exact Option.noConfusion hb
  | add d t n l _ ih => exact keysBelowCounter_addListener d t n l ih
  | del d t n id _ ih => exact keysBelowCounter_delListener d t n id ih
  | dispatch s e _ ih =>
    exact dispatch_preserves KeysBelowCounter keysBelowCounter_addListener
      keysBelowCounter_delListener s e ih

theorem listeners_entries (d : dispatcher) (t n : String) :
    (listeners d t n).entries = (((bucket d t n).getD ∅).entries).reverse := by
  rw [listeners_eq]
  cases h : bucket d t n with
  | none => simp
  | some b => simp [copyBucket_entries]

theorem listeners_keys (d : dispatcher) (t n : String) :
    (listeners d t n).keys = (((bucket d t n).getD ∅).keys).reverse := by
  simp [AList.keys, listeners_entries, List.keys]

/-- On a counter that never wraps, `addListener(t, n, l)` adds exactly one
entry to `listeners(t, n)`, under the id `d.id + 1`, which is fresh. -/
theorem addListener_fresh (d : dispatcher) (hr : Reachable d)
    (t n : String) (l : Listener) :
    (listeners (addListener d t n l) t n).entries
        = (listeners d t n).entries ++ [⟨d.id + 1, l⟩]
    ∧ (listeners (addListener d t n l) t n).lookup (d.id + 1) = some l
    ∧ d.id + 1 ∉ (listeners d t n).keys
    ∧ (∀ k, k ≠ d.id + 1 →
        (listeners (addListener d t n l) t n).lookup k = (listeners d t n).lookup k)
    ∧ (bucket (addListener d t n l) t n).isSome = true
    ∧ (∀ t' n', (t', n') ≠ (t, n) →
        listeners (addListener d t n l) t' n' = listeners d t' n') := by
  have hinv := keysBelowCounter_of_reachable d hr
  have hfresh : d.id + 1 ∉ ((bucket d t n).getD ∅).keys := by
    intro hk
    cases hb : bucket d t n with
    | none => rw [hb] at hk; simp at hk
    | some b =>
      rw [hb] at hk
      have := hinv t n b hb (d.id + 1) hk
      omega
  refine ⟨?_, ?_, ?_, ?_, ?_, ?_⟩
  · rw [listeners_entries, listeners_entries, bucket_addListener_same]
    simp only [Option.getD_some]
    rw [AList.insert_entries_of_neg (AList.mem_keys.not.mpr hfresh)]
    simp
  · rw [listeners_lookup]
    unfold lookupListener
    rw [bucket_addListener_same]
    simp [AList.lookup_insert]
  · rw [listeners_keys]
    simpa using hfresh
  · intro k hk
    rw [listeners_lookup, listeners_lookup]
    unfold lookupListener
    rw [bucket_addListener_same]
    cases hb : bucket d t n with
    | none => simp [-AList.insert_empty, AList.lookup_insert_ne hk]
    | some b => simp [AList.lookup_insert_ne hk]
  · rw [bucket_addListener_same]
    rfl
  · intro t' n' hne
    exact listeners_congr (bucket_addListener_other d t n l t' n' hne)

/-! ### addListener on a Go int -/

/-- The method on a Go `int` is the method on a counter that never wraps,
started one below the wrapped value. -/
theorem addListenerInt_eq (bits : Nat) (d : dispatcher) (t n : String) (l : Listener) :
    addListenerInt bits d t n l
      = addListener { d with id := wrapInt bits (d.id + 1) - 1 } t n l := by
  unfold addListenerInt addListener
  simp only [Int.sub_add_cancel]

/-- As long as `d.id + 1` is an `int`, the counter of the embedding and the Go
`int` do the same. -/
theorem addListenerInt_no_wrap (bits : Nat) (d : dispatcher) (t n : String) (l : Listener)
    (hbits : 0 < bits) (hlo : -(2 ^ (bits - 1)) ≤ d.id + 1) (hhi : d.id + 1 < 2 ^ (bits - 1)) :
    addListenerInt bits d t n l = addListener d t n l := by
  unfold addListenerInt addListener
  simp only [wrapInt_eq_self bits (d.id + 1) hbits hlo hhi]

theorem addListenerInt_id (bits : Nat) (d : dispatcher) (t n : String) (l : Listener) :
    (addListenerInt bits d t n l).id = wrapInt bits (d.id + 1) := rfl

theorem bucket_addListenerInt_same (bits : Nat) (d : dispatcher) (t n : String) (l : Listener) :
    bucket (addListenerInt bits d t n l) t n
      = some (((bucket d t n).getD ∅).insert (wrapInt bits (d.id + 1)) l) := by
  rw [addListenerInt_eq, bucket_addListener_same]
  simp only [Int.sub_add_cancel]
  rfl

theorem bucket_addListenerInt_other (bits : Nat) (d : dispatcher) (t n : String) (l : Listener)
    (t' n' : String) (hne : (t', n') ≠ (t, n)) :
    bucket (addListenerInt bits d t n l) t' n' = bucket d t' n' := by
  rw [addListenerInt_eq, bucket_addListener_other _ t n l t' n' hne]
  rfl

theorem reachable_id_nonneg (d : dispatcher) (h : Reachable d) : 0 ≤ d.id := by
  induction h with
  | init => exact le_refl _
  | add d t n l _ ih => rw [addListener_id]; omega
  | del d t n id _ ih => rw [delListener_id]; exact ih
  | dispatch s e _ ih =>
    exact dispatch_preserves (fun d => 0 ≤ d.id)
      (fun d t n l h => by
        show 0 ≤ (addListener d t n l).id
        have h' : 0 ≤ d.id := h
        rw [addListener_id]; omega)
      (fun d t n id h => by
        show 0 ≤ (delListener d t n id).id
        rw [delListener_id]; exact h) s e ih

/-- A registry reached on the counter that never wraps, with its counter still
below the largest `int`, is reached by the methods on a Go `int`. -/
theorem reachableInt_of_reachable (bits : Nat) (hbits : 0 < bits) (d : dispatcher)
    (h : Reachable d) : d.id < 2 ^ (bits - 1) → ReachableInt bits d := by
  have hpos : (0 : Int) < 2 ^ (bits - 1) := by positivity
  have hadd : ∀ (d : dispatcher) (t n : String) (l : Listener),
      (0 ≤ d.id ∧ (d.id < 2 ^ (bits - 1) → ReachableInt bits d)) →
      (0 ≤ (addListener d t n l).id
        ∧ ((addListener d t n l).id < 2 ^ (bits - 1) →
            ReachableInt bits (addListener d t n l))) := by
    intro d t n l hd
    refine ⟨by rw [addListener_id]; omega, ?_⟩
    intro hlt
    rw [addListener_id] at hlt
    rw [← addListenerInt_no_wrap bits d t n l hbits (by omega) hlt]
    exact ReachableInt.add d t n l (hd.2 (by omega))
  have hdel : ∀ (d : dispatcher) (t n : String) (id : Int),
      (0 ≤ d.id ∧ (d.id < 2 ^ (bits - 1) → ReachableInt bits d)) →
      (0 ≤ (delListener d t n id).id
        ∧ ((delListener d t n id).id < 2 ^ (bits - 1) →
            ReachableInt bits (delListener d t n id))) := by
    intro d t n id hd
    rw [delListener_id]
    exact ⟨hd.1, fun hlt => ReachableInt.del d t n id (hd.2 hlt)⟩
  have main : 0 ≤ d.id ∧ (d.id < 2 ^ (bits - 1) → ReachableInt bits d) := by
    induction h with
    | init => exact ⟨le_refl _, fun _ => ReachableInt.init⟩
    | add d t n l _ ih => exact hadd d t n l ih
    | del d t n id _ ih => exact hdel d t n id ih
    | dispatch s e _ ih =>
      exact dispatch_preserves
        (fun d => 0 ≤ d.id ∧ (d.id < 2 ^ (bits - 1) → ReachableInt bits d)) hadd hdel s e ih
  exact main.2

/-- Registering `k` listeners on `(t, n)` moves the counter `k` steps round the
`int`s and leaves the other buckets as they are. -/
theorem iterate_addListenerInt (bits : Nat) (t n : String) (l : Listener) (k : Nat) :
    ∀ d : dispatcher, wrapInt bits d.id = d.id →
      ((fun d => addListenerInt bits d t n l)^[k] d).id = wrapInt bits (d.id + (k : Int))
      ∧ (∀ t' n', (t', n') ≠ (t, n) →
          bucket ((fun d => addListenerInt bits d t n l)^[k] d) t' n' = bucket d t' n')
      ∧ (ReachableInt bits d →
          ReachableInt bits ((fun d => addListenerInt bits d t n l)^[k] d)) := by
  induction k with
  | zero =>
    intro d hd
    refine ⟨?_, fun _ _ _ => rfl, fun h => h⟩
    show d.id = wrapInt bits (d.id + ((0 : Nat) : Int))
    rw [Nat.cast_zero, add_zero, hd]
  | succ k ih =>
    intro d hd
    obtain ⟨h1, h2, h3⟩ := ih d hd
    rw [Function.iterate_succ_apply']
    refine ⟨?_, ?_, fun h => ReachableInt.add _ t n l (h3 h)⟩
    · rw [addListenerInt_id, h1, wrapInt_wrapInt_add]
      congr 1
      push_cast
      ring
    · intro t' n' hne
      rw [bucket_addListenerInt_other bits _ t n l t' n' hne]
      exact h2 t' n' hne

theorem wrappedRegistry_facts :
    ReachableInt 32 wrappedRegistry
    ∧ wrappedRegistry.id = 0
    ∧ bucket wrappedRegistry "1" "foo"
        = some ((∅ : GoMap Int Listener).insert 1 keepListener) := by
  have h := iterate_addListenerInt 32 "2" "bar" keepListener (2 ^ 32 - 1)
    (addListenerInt 32 newDispatcher "1" "foo" keepListener) (by decide)
  refine ⟨h.2.2 (ReachableInt.add _ _ _ _ ReachableInt.init), ?_, ?_⟩
  · show ((fun d => addListenerInt 32 d "2" "bar" keepListener)^[2 ^ 32 - 1]
      (addListenerInt 32 newDispatcher "1" "foo" keepListener)).id = 0
    rw [h.1]
    decide
  · show bucket ((fun d => addListenerInt 32 d "2" "bar" keepListener)^[2 ^ 32 - 1]
      (addListenerInt 32 newDispatcher "1" "foo" keepListener)) "1" "foo" = _
    rw [h.2.1 "1" "foo" (by decide), bucket_addListenerInt_same, bucket_newDispatcher]
    rfl

/-- C5, as stated, fails: the counter is a Go `int` and wraps around. On a
32-bit `int`, after one registration on `("1", "foo")` (id 1) and `2^32 - 1`
registrations on `("2", "bar")`, the counter is back at 0: the next
`addListener("1", "foo", l)` gives the id 1, which is a key of that bucket
already, and the bucket has one entry before and one entry after. -/
theorem addListener_reuses_id_after_wrap :
    ReachableInt 32 wrappedRegistry
    ∧ wrappedRegistry.id = 0
    ∧ (listeners wrappedRegistry "1" "foo").keys = [1]
    ∧ (addListenerInt 32 wrappedRegistry "1" "foo" removeListener).id = 1
    ∧ (listeners (addListenerInt 32 wrappedRegistry "1" "foo" removeListener) "1" "foo").keys
        = [1] := by
  obtain ⟨hr, hid, hb⟩ := wrappedRegistry_facts
  refine ⟨hr, hid, ?_, ?_, ?_⟩
  · rw [listeners_keys, hb]
    rfl
  · rw [addListenerInt_id, hid]
    decide
  · rw [listeners_keys, bucket_addListenerInt_same, hb, hid]
    rfl

/-- C5, amended. From every dispatcher reachable from `newDispatcher` by
`addListener`, `delListener` and `dispatch` before the counter `d.id` has
reached the largest `int` (of `bits` bits), `addListener(t, n, l)` makes
`listeners(t, n)` its previous content plus exactly one new entry, which maps
to `l`, under an id that was not a key of that bucket before; the bucket exists
afterwards (it is created when the target or the event name was absent); the
listener set of every other (target, event name) pair is unchanged. Such a
dispatcher is reachable by the methods on a Go `int`, on it the method on a Go
`int` and the method on a counter that never wraps are the same. -/
theorem addListener_adds_one_fresh_entry (bits : Nat) (d : dispatcher) (hr : Reachable d)
    (hbits : 0 < bits) (hno : d.id + 1 < 2 ^ (bits - 1)) (t n : String) (l : Listener) :
    ReachableInt bits d
    ∧ addListenerInt bits d t n l = addListener d t n l
    ∧ (addListenerInt bits d t n l).id = d.id + 1
    ∧ (listeners (addListenerInt bits d t n l) t n).entries
        = (listeners d t n).entries ++ [⟨d.id + 1, l⟩]
    ∧ (listeners (addListenerInt bits d t n l) t n).lookup (d.id + 1) = some l
    ∧ d.id + 1 ∉ (listeners d t n).keys
    ∧ (∀ k, k ≠ d.id + 1 →
        (listeners (addListenerInt bits d t n l) t n).lookup k = (listeners d t n).lookup k)
    ∧ (bucket (addListenerInt bits d t n l) t n).isSome = true
    ∧ (∀ t' n', (t', n') ≠ (t, n) →
        listeners (addListenerInt bits d t n l) t' n' = listeners d t' n') := by
  have hnn := reachable_id_nonneg d hr
  have hpos : (0 : Int) < 2 ^ (bits - 1) := by positivity
  have heq := addListenerInt_no_wrap bits d t n l hbits (by omega) hno
  have hold := addListener_fresh d hr t n l
  rw [heq]
  exact ⟨reachableInt_of_reachable bits hbits d hr (by omega), rfl, rfl, hold⟩

/-- A reachable dispatcher with one listener, and what C5 gives for a second
registration in the same bucket and for one in a bucket that does not exist yet. -/
theorem addListener_adds_one_fresh_entry_witness :
    Reachable (addListener newDispatcher "1" "foo" keepListener)
    ∧ 0 < 32
    ∧ (addListener newDispatcher "1" "foo" keepListener).id + 1 < 2 ^ (32 - 1)
    ∧ (listeners (addListenerInt 32 (addListener newDispatcher "1" "foo" keepListener)
          "1" "foo" removeListener) "1" "foo").entries
        = (listeners (addListener newDispatcher "1" "foo" keepListener) "1" "foo").entries
          ++ [⟨(addListener newDispatcher "1" "foo" keepListener).id + 1, removeListener⟩]
    ∧ (bucket (addListenerInt 32 (addListener newDispatcher "1" "foo" keepListener)
          "2" "bar" removeListener) "2" "bar").isSome = true :=
  ⟨Reachable.add _ _ _ _ Reachable.init, by decide, by decide,
   (addListener_adds_one_fresh_entry 32 _ (Reachable.add _ _ _ _ Reachable.init)
      (by decide) (by decide) "1" "foo" removeListener).2.2.2.1,
   (addListener_adds_one_fresh_entry 32 _ (Reachable.add _ _ _ _ Reachable.init)
      (by decide) (by decide) "2" "bar" removeListener).2.2.2.2.2.2.2.1⟩

theorem erase_of_not_mem (b : GoMap Int Listener) (id : Int) (h : id ∉ b.keys) :
    b.erase id = b := by
  apply AList.ext
  exact List.kerase_of_not_mem_keys h

/-- C6. `delListener(t, n, id)` on a registry that has no target `t`, no event
bucket `n` under `t`, or no listener with that id in the bucket, returns (the
function is total) and leaves the listener set of every (target, event name)
pair, and the counter, unchanged. -/
theorem delListener_absent_is_noop (d : dispatcher) (t n : String) (id : Int)
    (habsent : d.l.lookup t = none
      ∨ (∃ m, d.l.lookup t = some m ∧ m.lookup n = none)
      ∨ (∃ b, bucket d t n = some b ∧ id ∉ b.keys)) :
    (∀ t' n', listeners (delListener d t n id) t' n' = listeners d t' n')
    ∧ (delListener d t n id).id = d.id := by
  refine ⟨?_, delListener_id d t n id⟩
  intro t' n'
  apply listeners_congr
  by_cases hne : (t', n') = (t, n)
  · obtain ⟨rfl, rfl⟩ := Prod.mk.inj hne
    rw [bucket_delListener_same]
    rcases habsent with h | ⟨m, hm, hn⟩ | ⟨b, hb, hid⟩
    · simp [bucket, h]
    · simp [bucket, hm, hn]
    · rw [hb]
      simp [erase_of_not_mem b id hid]
  · exact bucket_delListener_other d t n id t' n' hne

/-- The three ways of being absent, on a dispatcher holding one listener under
id 1 in the bucket of target `1` and event `foo`. -/
theorem delListener_absent_is_noop_witness :
    ((addListener newDispatcher "1" "foo" keepListener).l.lookup "2" = none
      ∧ (listeners (delListener (addListener newDispatcher "1" "foo" keepListener) "2" "foo" 1)
          "1" "foo").keys = [1])
    ∧ ((∃ m, (addListener newDispatcher "1" "foo" keepListener).l.lookup "1" = some m
          ∧ m.lookup "bar" = none)
      ∧ (listeners (delListener (addListener newDispatcher "1" "foo" keepListener) "1" "bar" 1)
          "1" "foo").keys = [1])
    ∧ ((∃ b, bucket (addListener newDispatcher "1" "foo" keepListener) "1" "foo" = some b
          ∧ (7 : Int) ∉ b.keys)
      ∧ (listeners (delListener (addListener newDispatcher "1" "foo" keepListener) "1" "foo" 7)
          "1" "foo").keys = [1]) := by
  have h1 : (addListener newDispatcher "1" "foo" keepListener).l.lookup "2" = none := by
    rfl
  have h2 : ∃ m, (addListener newDispatcher "1" "foo" keepListener).l.lookup "1" = some m
      ∧ m.lookup "bar" = none := ⟨_, rfl, rfl⟩
  have h3 : ∃ b, bucket (addListener newDispatcher "1" "foo" keepListener) "1" "foo" = some b
      ∧ (7 : Int) ∉ b.keys := ⟨_, rfl, by decide⟩
  refine ⟨⟨h1, ?_⟩, ⟨h2, ?_⟩, ⟨h3, ?_⟩⟩
  · rw [(delListener_absent_is_noop _ "2" "foo" 1 (Or.inl h1)).1]
    decide
  · rw [(delListener_absent_is_noop _ "1" "bar" 1 (Or.inr (Or.inl h2))).1]
    decide
  · rw [(delListener_absent_is_noop _ "1" "foo" 7 (Or.inr (Or.inr h3))).1]
    decide

theorem listeners_keys_delListener (d : dispatcher) (t n : String) (id : Int) :
    (listeners (delListener d t n id) t n).keys
      = (listeners d t n).keys.filter (fun k => decide (k ≠ id)) := by
  rw [listeners_keys, listeners_keys, bucket_delListener_same]
  cases hb : bucket d t n with
  | none => simp
  | some b =>
    simp only [Option.map_some', Option.getD_some]
    rw [AList.keys_erase, List.Nodup.erase_eq_filter b.keys_nodup, List.filter_reverse]
    congr 1
    apply List.filter_congr
    intro k _
    by_cases hk : k = id <;> simp [hk]

/-- C7. After `delListener(t, n, id)` has returned, `listeners(t, n)` no longer
contains `id`, its other entries and all other buckets are unchanged, and every
dispatch of an event `(t, n)` started in that registry invokes exactly the other
listeners of the bucket, once each: the removed listener is skipped. -/
theorem dispatch_after_delListener_skips (d : dispatcher) (t n : String) (id : Int) :
    id ∉ (listeners (delListener d t n id) t n).keys
    ∧ (∀ k, k ≠ id →
        (listeners (delListener d t n id) t n).lookup k = (listeners d t n).lookup k)
    ∧ (∀ t' n', (t', n') ≠ (t, n) →
        listeners (delListener d t n id) t' n' = listeners d t' n')
    ∧ (∀ (s : World) (e : Event), s.d = delListener d t n id → e.TargetID = t → e.Name = n →
        (dispatch s e).calls = s.calls
            ++ ((listeners d t n).keys.filter (fun k => decide (k ≠ id))).map (fun k => (k, e))
        ∧ (∀ ev, (id, ev) ∉ (dispatch s e).calls.drop s.calls.length)
        ∧ (∀ k ∈ (listeners d t n).keys, k ≠ id →
            ((dispatch s e).calls.drop s.calls.length).count (k, e) = 1)) := by
  have hkeys := listeners_keys_delListener d t n id
  refine ⟨?_, ?_, ?_, ?_⟩
  · rw [hkeys]
    simp
  · intro k hk
    rw [listeners_lookup, listeners_lookup, lookupListener_delListener_same, if_neg hk]
  · intro t' n' hne
    exact listeners_congr (bucket_delListener_other d t n id t' n' hne)
  · intro s e hs ht hn
    have hc : (dispatch s e).calls = s.calls
        ++ ((listeners d t n).keys.filter (fun k => decide (k ≠ id))).map (fun k => (k, e)) := by
      rw [dispatch_calls, hs, ht, hn, hkeys]
    refine ⟨hc, ?_, ?_⟩
    · intro ev hmem
      rw [hc, List.drop_left] at hmem
      obtain ⟨k, hk, hke⟩ := List.mem_map.mp hmem
      have hk' := (List.mem_filter.mp hk).2
      have : k = id := (Prod.mk.inj hke).1
      simp [this] at hk'
    · intro k hk hne
      rw [hc, List.drop_left]
      apply count_call_of_mem
      · exact (listeners d t n).keys_nodup.filter _
      · exact List.mem_filter.mpr ⟨hk, by simpa using hne⟩

/-- Every key of a bucket is a key the bucket had in `d0` or was handed out after `d0`. -/
theorem keys_old_or_new_addListener (d0 d : dispatcher) (t n : String) (l : Listener)
    (h : d0.id ≤ d.id ∧ ∀ t' n' k, k ∈ ((bucket d t' n').getD ∅).keys →
      k ∈ ((bucket d0 t' n').getD ∅).keys ∨ d0.id < k) :
    d0.id ≤ (addListener d t n l).id
    ∧ ∀ t' n' k, k ∈ ((bucket (addListener d t n l) t' n').getD ∅).keys →
      k ∈ ((bucket d0 t' n').getD ∅).keys ∨ d0.id < k := by
  refine ⟨by rw [addListener_id]; omega, ?_⟩
  intro t' n' k hk
  by_cases hne : (t', n') = (t, n)
  · obtain ⟨rfl, rfl⟩ := Prod.mk.inj hne
    rw [bucket_addListener_same, Option.getD_some, AList.keys_insert] at hk
    rcases List.mem_cons.mp hk with hk | hk
    · right; omega
    · exact h.2 t' n' k (List.mem_of_mem_erase hk)
  · rw [bucket_addListener_other d t n l t' n' hne] at hk
    exact h.2 t' n' k hk

theorem keys_old_or_new_delListener (d0 d : dispatcher) (t n : String) (id : Int)
    (h : d0.id ≤ d.id ∧ ∀ t' n' k, k ∈ ((bucket d t' n').getD ∅).keys →
      k ∈ ((bucket d0 t' n').getD ∅).keys ∨ d0.id < k) :
    d0.id ≤ (delListener d t n id).id
    ∧ ∀ t' n' k, k ∈ ((bucket (delListener d t n id) t' n').getD ∅).keys →
      k ∈ ((bucket d0 t' n').getD ∅).keys ∨ d0.id < k := by
  refine ⟨by rw [delListener_id]; exact h.1, ?_⟩
  intro t' n' k hk
  by_cases hne : (t', n') = (t, n)
  · obtain ⟨rfl, rfl⟩ := Prod.mk.inj hne
    rw [bucket_delListener_same] at hk
    cases hb : bucket d t' n' with
    | none => rw [hb] at hk; simp at hk
    | some b =>
      rw [hb] at hk
      simp only [Option.map_some', Option.getD_some, AList.keys_erase] at hk
      apply h.2 t' n' k
      rw [hb]
      exact List.mem_of_mem_erase hk
  · rw [bucket_delListener_other d t n id t' n' hne] at hk
    exact h.2 t' n' k hk

theorem mem_listeners_keys (d : dispatcher) (t n : String) (k : Int) :
    k ∈ (listeners d t n).keys ↔ k ∈ ((bucket d t n).getD ∅).keys := by
  rw [listeners_keys, List.mem_reverse]

theorem keys_le_of_keysBelowCounter (d : dispatcher) (h : KeysBelowCounter d)
    (t n : String) (k : Int) (hk : k ∈ (listeners d t n).keys) : k ≤ d.id := by
  rw [mem_listeners_keys] at hk
  cases hb : bucket d t n with
  | none => rw [hb] at hk; simp at hk
  | some b =>
    rw [hb] at hk
    exact h t n b hb k hk

/-- C8. `dispatch(e)` invokes exactly the listeners of the snapshot that
`listeners(e.TargetID, e.Name)` returns at its start, once each, whatever the
callbacks do to the registry meanwhile: an id that is not in the snapshot is not
invoked (in particular the ids handed out while the dispatch is in flight, which
are the keys of the final registry not in the initial one), and an id of the
snapshot is invoked once even when a callback has removed it from the bucket. In
`scenarioInFlight`, listener 1 registers listener 4 and listener 2 removes
listener 3: the calls are 1, 2, 3 and the bucket ends as 1, 2, 4. -/
theorem dispatch_invokes_exactly_the_snapshot (s : World) (e : Event) :
    dispatch s e = runListeners e (listeners s.d e.TargetID e.Name) s
    ∧ (∀ (snapshot : GoMap Int Listener) (s0 : World),
        (runListeners e snapshot s0).calls = s0.calls ++ snapshot.keys.map (fun k => (k, e)))
    ∧ (listeners s.d e.TargetID e.Name).keys.Nodup
    ∧ (∀ k ∈ (listeners s.d e.TargetID e.Name).keys,
        ((dispatch s e).calls.drop s.calls.length).count (k, e) = 1)
    ∧ (∀ k, k ∉ (listeners s.d e.TargetID e.Name).keys →
        ∀ ev, (k, ev) ∉ (dispatch s e).calls.drop s.calls.length)
    ∧ (∀ t n k, k ∈ (listeners (dispatch s e).d t n).keys →
        k ∈ (listeners s.d t n).keys ∨ s.d.id < k)
    ∧ (KeysBelowCounter s.d → ∀ k, s.d.id < k →
        ∀ ev, (k, ev) ∉ (dispatch s e).calls.drop s.calls.length)
    ∧ (dispatch scenarioInFlight fooEvent).calls
        = [(1, fooEvent), (2, fooEvent), (3, fooEvent)]
    ∧ (listeners scenarioInFlight.d "1" "foo").keys = [1, 2, 3]
    ∧ (listeners (dispatch scenarioInFlight fooEvent).d "1" "foo").keys = [1, 2, 4] := by
  have hdrop : (dispatch s e).calls.drop s.calls.length
      = (listeners s.d e.TargetID e.Name).keys.map (fun k => (k, e)) := by
    rw [dispatch_calls, List.drop_left]
  have hnot : ∀ k, k ∉ (listeners s.d e.TargetID e.Name).keys →
      ∀ ev, (k, ev) ∉ (dispatch s e).calls.drop s.calls.length := by
    intro k hk ev hmem
    rw [hdrop] at hmem
    obtain ⟨k', hk', hke⟩ := List.mem_map.mp hmem
    exact hk ((Prod.mk.inj hke).1 ▸ hk')
  refine ⟨rfl, fun snapshot s0 => runListeners_calls e snapshot s0, AList.keys_nodup _,
    ?_, hnot, ?_, ?_, by decide, by decide, by decide⟩
  · intro k hk
    rw [hdrop]
    exact count_call_of_mem_keys _ e k hk
  · intro t n k hk
    rw [mem_listeners_keys] at hk ⊢
    have hP := dispatch_preserves
      (fun d => s.d.id ≤ d.id ∧ ∀ t' n' k, k ∈ ((bucket d t' n').getD ∅).keys →
        k ∈ ((bucket s.d t' n').getD ∅).keys ∨ s.d.id < k)
      (fun d t n l h => keys_old_or_new_addListener s.d d t n l h)
      (fun d t n id h => keys_old_or_new_delListener s.d d t n id h)
      s e ⟨le_refl _, fun _ _ _ h => Or.inl h⟩
    exact hP.2 t n k hk
  · intro hinv k hk
    apply hnot
    intro hmem
    have := keys_le_of_keysBelowCounter s.d hinv _ _ k hmem
    omega

/-! ### Cancellation is monotone -/

theorem applyEffect_fired (s : World) (eff : Effect) : s.fired ⊆ (applyEffect s eff).fired := by
  cases eff with
  | addListener t n l => exact List.Subset.refl _
  | delListener t n id => exact List.Subset.refl _
  | cancel k => exact List.subset_cons_self _ _
  | assign v e => exact List.Subset.refl _

theorem foldl_applyEffect_fired (effs : List Effect) :
    ∀ s : World, s.fired ⊆ (effs.foldl applyEffect s).fired := by
  induction effs with
  | nil => intro s; exact List.Subset.refl _
  | cons x xs ih =>
    intro s
    rw [List.foldl_cons]
    exact List.Subset.trans (applyEffect_fired s x) (ih _)

theorem invoke_fired (e : Event) (s : World) (id : Int) (l : Listener) :
    s.fired ⊆ (invoke e s id l).fired := by
  unfold invoke
  have h := foldl_applyEffect_fired (l e).1 { s with calls := s.calls ++ [(id, e)] }
  by_cases hb : (l e).2 = true
  · simp only [hb, if_true]
    exact h
  · simp only [hb]
    exact h

theorem runListeners_fired (e : Event) (snapshot : GoMap Int Listener) (s : World) :
    s.fired ⊆ (runListeners e snapshot s).fired := by
  unfold runListeners
  generalize snapshot.entries = xs
  induction xs generalizing s with
  | nil => exact List.Subset.refl _
  | cons x xs ih =>
    rw [List.foldl_cons]
    exact List.Subset.trans (invoke_fired e s x.1 x.2) (ih _)

theorem step_fired (s : World) (st : Step) : s.fired ⊆ (st.run s).fired := by
  cases st with
  | dispatch e => exact runListeners_fired e _ s
  | effect eff => exact applyEffect_fired s eff

theorem runSteps_fired (steps : List Step) : ∀ s : World, s.fired ⊆ (runSteps steps s).fired := by
  induction steps with
  | nil => intro s; exact List.Subset.refl _
  | cons x xs ih =>
    intro s
    unfold runSteps
    rw [List.foldl_cons]
    exact List.Subset.trans (step_fired s x) (ih _)

theorem err_isSome_iff (ctx : Context) (s : World) :
    (ctx.Err s).isSome = true ↔ ∃ k, k ∈ ctx ∧ k ∈ s.fired := by
  unfold Context.Err
  by_cases h : ctx.any (fun k => decide (k ∈ s.fired)) = true
  · rw [if_pos h]
    simp only [Option.isSome_some, true_iff]
    obtain ⟨k, hk, hd⟩ := List.any_eq_true.mp h
    exact ⟨k, hk, of_decide_eq_true hd⟩
  · rw [if_neg h]
    constructor
    · intro hf
      exact Bool.noConfusion hf
    · rintro ⟨k, hk, hf⟩
      exact absurd (List.any_eq_true.mpr ⟨k, hk, decide_eq_true hf⟩) h

theorem err_mono (ctx : Context) (s s' : World) (hsub : s.fired ⊆ s'.fired)
    (h : (ctx.Err s).isSome = true) : (ctx.Err s').isSome = true := by
  rw [err_isSome_iff] at h ⊢
  obtain ⟨k, hk, hf⟩ := h
  exact ⟨k, hk, hsub hf⟩

theorem isActionable_ne_none_of_destroyed (o : object) (s : World)
    (h : o.IsDestroyed s = true) : o.isActionable s ≠ none := by
  unfold object.isActionable
  by_cases hc : o.c.Cancelled s = true
  · simp [hc]
  · simp [hc, h]

theorem isActionable_ne_none_of_cancelled (o : object) (s : World)
    (h : o.c.Cancelled s = true) : o.isActionable s ≠ none := by
  unfold object.isActionable
  simp [h]

/-- C9. `isActionable` returns `ErrCancellerCancelled` whenever the shared
canceller has been cancelled (whatever the state of the object's own context),
`ErrObjectDestroyed` when the canceller is not cancelled but the object's own
context is, and nil exactly when neither is cancelled; the canceller is
cancelled when its cancel function has been called, the object's context when
the cancel function of a node of its chain has been. -/
theorem isActionable_reports_canceller_first (o : object) (s : World) :
    (o.c.Cancelled s = true → o.isActionable s = some ErrCancellerCancelled)
    ∧ (o.c.Cancelled s = false → o.IsDestroyed s = true →
        o.isActionable s = some ErrObjectDestroyed)
    ∧ (o.isActionable s = none ↔ (o.c.Cancelled s = false ∧ o.IsDestroyed s = false))
    ∧ ErrCancellerCancelled ≠ ErrObjectDestroyed
    ∧ (o.c.Cancelled s = true ↔ o.c.node ∈ s.fired)
    ∧ (o.IsDestroyed s = true ↔ ∃ k, k ∈ o.ctx ∧ k ∈ s.fired) := by
  refine ⟨?_, ?_, ?_, by decide, ?_, err_isSome_iff o.ctx s⟩
  · intro h
    simp [object.isActionable, h]
  · intro h1 h2
    simp [object.isActionable, h1, h2]
  · unfold object.isActionable
    by_cases hc : o.c.Cancelled s = true
    · simp [hc]
    · by_cases hd : o.IsDestroyed s = true
      · simp [hc, hd]
      · simp [hc, hd]
  · unfold Canceller.Cancelled
    rw [err_isSome_iff]
    simp [Canceller.ctx]

theorem mem_ctx_newObject (parentCtx : Option Context) (c : Canceller) (id : String) (s : World)
    (k : Nat)
    (hk : k = (newObject parentCtx c id s).1.cancel
      ∨ (∃ p, parentCtx = some p ∧ k ∈ p)
      ∨ (k = c.node ∧ (parentCtx = none ∨ ∃ p, parentCtx = some p ∧ c.node ∈ p))) :
    k ∈ (newObject parentCtx c id s).1.ctx := by
  cases parentCtx with
  | none =>
    rcases hk with hk | ⟨p, hp, _⟩ | ⟨hk, _⟩
    · simp [newObject, Canceller.NewContext, WithCancel] at hk ⊢
      exact Or.inl hk
    · exact Option.noConfusion hp
    · simp [newObject, Canceller.NewContext, WithCancel, Canceller.ctx, hk]
  | some p =>
    rcases hk with hk | ⟨p', hp, hk⟩ | ⟨hk, h⟩
    · simp [newObject, WithCancel] at hk ⊢
      exact Or.inl hk
    · have : p = p' := Option.some.inj hp
      subst this
      simp [newObject, WithCancel, hk]
    · rcases h with h | ⟨p', hp, hk'⟩
      · exact Option.noConfusion h
      · have : p = p' := Option.some.inj hp
        subst this
        simp [newObject, WithCancel, hk, hk']

/-- C10. An object built by `newObject`, with or without a parent context, is
destroyed once its own cancel function, the cancel function of a context of its
parent chain, or (the root being an ancestor) the root canceller has been
called, and stays so: whatever the program did before and does afterwards
(dispatches, further cancel calls, any call of a callback), `IsDestroyed` is
true and `isActionable` returns an error. After a call of the root canceller
`isActionable` returns an error for every object of that canceller. -/
theorem destroyed_is_permanent (parentCtx : Option Context) (c : Canceller) (id : String)
    (s : World) (k : Nat)
    (hk : k = (newObject parentCtx c id s).1.cancel
      ∨ (∃ p, parentCtx = some p ∧ k ∈ p)
      ∨ (k = c.node ∧ (parentCtx = none ∨ ∃ p, parentCtx = some p ∧ c.node ∈ p)))
    (before after : List Step) :
    (newObject parentCtx c id s).1.IsDestroyed
        (runSteps after (cancelFunc k (runSteps before (newObject parentCtx c id s).2))) = true
    ∧ (newObject parentCtx c id s).1.isActionable
        (runSteps after (cancelFunc k (runSteps before (newObject parentCtx c id s).2))) ≠ none
    ∧ (∀ o : object, o.c = c →
        o.isActionable (runSteps after (c.Cancel (runSteps before s))) ≠ none) := by
  have hd : (newObject parentCtx c id s).1.IsDestroyed
      (runSteps after (cancelFunc k (runSteps before (newObject parentCtx c id s).2))) = true := by
    unfold object.IsDestroyed
    apply err_mono _ _ _ (runSteps_fired after _)
    rw [err_isSome_iff]
    exact ⟨k, mem_ctx_newObject parentCtx c id s k hk, List.mem_cons_self _ _⟩
  refine ⟨hd, isActionable_ne_none_of_destroyed _ _ hd, ?_⟩
  intro o ho
  apply isActionable_ne_none_of_cancelled
  rw [ho]
  unfold Canceller.Cancelled
  apply err_mono _ _ _ (runSteps_fired after _)
  rw [err_isSome_iff]
  exact ⟨c.node, by simp [Canceller.ctx], List.mem_cons_self _ _⟩

/-- An object under the canceller of scenario C, cancelled by the canceller and
then exposed to a second cancel call and a dispatch. -/
theorem destroyed_is_permanent_witness :
    (cancellerC.node = cancellerC.node
      ∧ ((none : Option Context) = none ∨ ∃ p, (none : Option Context) = some p ∧ cancellerC.node ∈ p))
    ∧ (newObject none cancellerC "w" scenarioC).1.IsDestroyed
        (runSteps [.effect (.cancel 0), .dispatch doneEvent]
          (cancelFunc cancellerC.node (runSteps [] (newObject none cancellerC "w" scenarioC).2)))
        = true :=
  ⟨⟨rfl, Or.inl rfl⟩,
   (destroyed_is_permanent none cancellerC "w" scenarioC cancellerC.node
      (Or.inr (Or.inr ⟨rfl, Or.inl rfl⟩)) [] [.effect (.cancel 0), .dispatch doneEvent]).1⟩

/-! ### What is private to a call of synchronousFunc is out of reach -/

theorem lookupListener_addListener (d : dispatcher) (t n : String) (l : Listener)
    (t' n' : String) (id' : Int) :
    lookupListener (addListener d t n l) t' n' id'
      = if (t', n', id') = (t, n, d.id + 1) then some l else lookupListener d t' n' id' := by
  unfold lookupListener
  by_cases hne : (t', n') = (t, n)
  · obtain ⟨rfl, rfl⟩ := Prod.mk.inj hne
    rw [bucket_addListener_same]
    by_cases hid : id' = d.id + 1
    · subst hid
      simp [AList.lookup_insert]
    · have hne3 : ¬ (t', n', id') = (t', n', d.id + 1) := by
        intro h
        exact hid (Prod.mk.inj (Prod.mk.inj h).2).2
      rw [if_neg hne3]
      cases hb : bucket d t' n' with
      | none => simp [-AList.insert_empty, AList.lookup_insert_ne hid]
      | some b => simp [AList.lookup_insert_ne hid]
  · have hne3 : ¬ (t', n', id') = (t, n, d.id + 1) := by
      intro h
      apply hne
      have h1 := (Prod.mk.inj h).1
      have h2 := (Prod.mk.inj (Prod.mk.inj h).2).1
      rw [h1, h2]
    rw [if_neg hne3, bucket_addListener_other d t n l t' n' hne]

theorem lookupListener_delListener (d : dispatcher) (t n : String) (id : Int)
    (t' n' : String) (id' : Int) :
    lookupListener (delListener d t n id) t' n' id'
      = if (t', n', id') = (t, n, id) then none else lookupListener d t' n' id' := by
  by_cases hne : (t', n') = (t, n)
  · obtain ⟨rfl, rfl⟩ := Prod.mk.inj hne
    rw [lookupListener_delListener_same]
    by_cases hid : id' = id
    · simp [hid]
    · have hne3 : ¬ (t', n', id') = (t', n', id) := by
        intro h
        exact hid (Prod.mk.inj (Prod.mk.inj h).2).2
      rw [if_neg hid, if_neg hne3]
  · have hne3 : ¬ (t', n', id') = (t, n, id) := by
      intro h
      apply hne
      have h1 := (Prod.mk.inj h).1
      have h2 := (Prod.mk.inj (Prod.mk.inj h).2).1
      rw [h1, h2]
    rw [if_neg hne3, lookupListener_delListener_other d t n id t' n' id' hne]

theorem samePrivate_refl (P : Private) (s : World) : SamePrivate P s s :=
  ⟨rfl, fun _ _ => rfl, fun _ _ => Iff.rfl⟩

theorem samePrivate_trans (P : Private) (s1 s2 s3 : World)
    (h12 : SamePrivate P s1 s2) (h23 : SamePrivate P s2 s3) :
    SamePrivate P s1 s3 :=
  ⟨h23.1.trans h12.1, fun v hv => (h23.2.1 v hv).trans (h12.2.1 v hv),
    fun k hk => (h23.2.2 k hk).trans (h12.2.2 k hk)⟩

theorem othersAvoid_delListener (P : Private) (s : World) (t n : String) (id : Int)
    (h : OthersAvoid P s) : OthersAvoid P { s with d := delListener s.d t n id } := by
  refine ⟨by simpa [delListener_id] using h.1, ?_⟩
  intro t' n' id' l hl hne
  simp only [lookupListener_delListener] at hl
  by_cases hc : (t', n', id') = (t, n, id)
  · rw [if_pos hc] at hl
    exact Option.noConfusion hl
  · rw [if_neg hc] at hl
    exact h.2 t' n' id' l hl hne

theorem ownListener_delListener (P : Private) (s : World) (t n : String) (id : Int)
    (hne : (t, n, id) ≠ (P.targetID, P.eventName, P.id)) :
    ownListener P { s with d := delListener s.d t n id } = ownListener P s := by
  unfold ownListener
  simp only [lookupListener_delListener]
  rw [if_neg (fun h => hne h.symm)]

theorem applyEffect_avoids (P : Private)
    (s : World) (eff : Effect) (h : OthersAvoid P s) (ha : Effect.Avoids P eff) :
    OthersAvoid P (applyEffect s eff) ∧ SamePrivate P s (applyEffect s eff) := by
  cases ha with
  | addListener t n l hl =>
    refine ⟨⟨?_, ?_⟩, ?_, fun _ _ => rfl, fun _ _ => Iff.rfl⟩
    · show P.id ≤ (addListener s.d t n l).id
      rw [addListener_id]
      have := h.1
      omega
    · intro t' n' id' l' hl' hne
      have hl'' : lookupListener (addListener s.d t n l) t' n' id' = some l' := hl'
      rw [lookupListener_addListener] at hl''
      by_cases hc : (t', n', id') = (t, n, s.d.id + 1)
      · rw [if_pos hc] at hl''
        have : l = l' := Option.some.inj hl''
        rw [← this]
        exact hl
      · rw [if_neg hc] at hl''
        exact h.2 t' n' id' l' hl'' hne
    · show lookupListener (addListener s.d t n l) P.targetID P.eventName P.id = _
      rw [lookupListener_addListener]
      have hc : ¬ (P.targetID, P.eventName, P.id) = (t, n, s.d.id + 1) := by
        intro hc
        have := (Prod.mk.inj (Prod.mk.inj hc).2).2
        have := h.1
        omega
      rw [if_neg hc]
      rfl
  | delListener t n id hne =>
    exact ⟨othersAvoid_delListener P s t n id h, ownListener_delListener P s t n id hne,
      fun _ _ => rfl, fun _ _ => Iff.rfl⟩
  | cancel k' hk' =>
    refine ⟨h, rfl, fun _ _ => rfl, ?_⟩
    intro k hk
    show k ∈ k' :: s.fired ↔ k ∈ s.fired
    have : k ≠ k' := by omega
    simp [this]
  | assign v' e hv' =>
    refine ⟨h, rfl, ?_, fun _ _ => Iff.rfl⟩
    intro v hv
    show (s.vars.insert v' (Value.event e)).lookup v = s.vars.lookup v
    have : v ≠ v' := by omega
    exact AList.lookup_insert_ne this

theorem foldl_applyEffect_avoids (P : Private) (effs : List Effect) (ha : ∀ eff ∈ effs, Effect.Avoids P eff) :
    ∀ s : World, OthersAvoid P s →
      OthersAvoid P (effs.foldl applyEffect s) ∧ SamePrivate P s (effs.foldl applyEffect s) := by
  induction effs with
  | nil => intro s h; exact ⟨h, samePrivate_refl P s⟩
  | cons x xs ih =>
    intro s h
    rw [List.foldl_cons]
    have h1 := applyEffect_avoids P s x h (ha x (List.mem_cons_self _ _))
    have h2 := ih (fun eff he => ha eff (List.mem_cons_of_mem _ he)) _ h1.1
    exact ⟨h2.1, samePrivate_trans P _ _ _ h1.2 h2.2⟩

theorem invoke_avoids (P : Private)
    (e : Event) (s : World) (id : Int) (l : Listener) (h : OthersAvoid P s)
    (hl : Listener.Avoids P l)
    (hne : (e.TargetID, e.Name, id) ≠ (P.targetID, P.eventName, P.id)) :
    OthersAvoid P (invoke e s id l) ∧ SamePrivate P s (invoke e s id l) := by
  unfold invoke
  have h0 : OthersAvoid P { s with calls := s.calls ++ [(id, e)] } := h
  have h1 := foldl_applyEffect_avoids P (l e).1 (hl e) _ h0
  have hs0 : SamePrivate P s { s with calls := s.calls ++ [(id, e)] } :=
    ⟨rfl, fun _ _ => rfl, fun _ _ => Iff.rfl⟩
  by_cases hb : (l e).2 = true
  · simp only [hb, if_true]
    refine ⟨othersAvoid_delListener P _ _ _ _ h1.1, ?_⟩
    refine samePrivate_trans P _ _ _ (samePrivate_trans P _ _ _ hs0 h1.2) ?_
    exact ⟨ownListener_delListener P _ _ _ _ hne, fun _ _ => rfl, fun _ _ => Iff.rfl⟩
  · simp only [hb]
    exact ⟨h1.1, samePrivate_trans P _ _ _ hs0 h1.2⟩

theorem foldl_invoke_avoids (P : Private)
    (e : Event) (xs : List (Sigma fun _ : Int => Listener))
    (hxs : ∀ kv ∈ xs, Listener.Avoids P kv.2
      ∧ (e.TargetID, e.Name, kv.1) ≠ (P.targetID, P.eventName, P.id)) :
    ∀ s : World, OthersAvoid P s →
      OthersAvoid P (xs.foldl (fun s kv => invoke e s kv.1 kv.2) s)
      ∧ SamePrivate P s (xs.foldl (fun s kv => invoke e s kv.1 kv.2) s) := by
  induction xs with
  | nil => intro s h; exact ⟨h, samePrivate_refl P s⟩
  | cons x xs ih =>
    intro s h
    rw [List.foldl_cons]
    have hx := hxs x (List.mem_cons_self _ _)
    have h1 := invoke_avoids P e s x.1 x.2 h hx.1 hx.2
    have h2 := ih (fun kv hkv => hxs kv (List.mem_cons_of_mem _ hkv)) _ h1.1
    exact ⟨h2.1, samePrivate_trans P _ _ _ h1.2 h2.2⟩

theorem mem_listeners_entries (d : dispatcher) (t n : String)
    (kv : Sigma fun _ : Int => Listener) (h : kv ∈ (listeners d t n).entries) :
    lookupListener d t n kv.1 = some kv.2 := by
  rw [← listeners_lookup]
  exact AList.mem_lookup_iff.mpr h

theorem dispatch_avoids (P : Private) (s : World) (e : Event) (h : OthersAvoid P s)
    (hne : ¬ (e.TargetID = P.targetID ∧ e.Name = P.eventName) ∨ ownListener P s = none) :
    OthersAvoid P (dispatch s e) ∧ SamePrivate P s (dispatch s e) := by
  unfold dispatch runListeners
  apply foldl_invoke_avoids P e _ _ s h
  intro kv hkv
  have hl := mem_listeners_entries s.d _ _ kv hkv
  have hne3 : (e.TargetID, e.Name, kv.1) ≠ (P.targetID, P.eventName, P.id) := by
    intro hc
    have h1 := (Prod.mk.inj hc).1
    have h2 := (Prod.mk.inj (Prod.mk.inj hc).2).1
    have h3 := (Prod.mk.inj (Prod.mk.inj hc).2).2
    rcases hne with hne | hne
    · exact hne ⟨h1, h2⟩
    · unfold ownListener at hne
      rw [← h1, ← h2, ← h3, hl] at hne
      exact Option.noConfusion hne
  exact ⟨h.2 _ _ _ _ hl hne3, hne3⟩

/-- The call of the listener of `synchronousFunc` by `dispatch`. -/
theorem invoke_syncListener (P : Private) (v k : Nat) (e : Event) (s : World)
    (h : OthersAvoid P s) (ht : e.TargetID = P.targetID) (hn : e.Name = P.eventName) :
    OthersAvoid P (invoke e s P.id (syncListener v k))
    ∧ ownListener P (invoke e s P.id (syncListener v k)) = none
    ∧ (invoke e s P.id (syncListener v k)).vars.lookup v = some (.event e)
    ∧ k ∈ (invoke e s P.id (syncListener v k)).fired
    ∧ (∀ u, u ≠ v → (invoke e s P.id (syncListener v k)).vars.lookup u = s.vars.lookup u)
    ∧ (∀ j, j ≠ k → (j ∈ (invoke e s P.id (syncListener v k)).fired ↔ j ∈ s.fired)) := by
  have hinv : invoke e s P.id (syncListener v k)
      = { s with calls := s.calls ++ [(P.id, e)], vars := s.vars.insert v (.event e),
                 fired := k :: s.fired, d := delListener s.d e.TargetID e.Name P.id } := by
    simp [invoke, syncListener, applyEffect]
  rw [hinv]
  refine ⟨?_, ?_, ?_, ?_, ?_, ?_⟩
  · exact othersAvoid_delListener P _ _ _ _ h
  · show lookupListener (delListener s.d e.TargetID e.Name P.id) P.targetID P.eventName P.id = none
    rw [lookupListener_delListener, ht, hn, if_pos rfl]
  · exact AList.lookup_insert _
  · exact List.mem_cons_self _ _
  · intro u hu
    exact AList.lookup_insert_ne hu
  · intro j hj
    show j ∈ k :: s.fired ↔ j ∈ s.fired
    simp [hj]

theorem dispatch_delivers (P : Private) (v k : Nat) (hv : P.vbound ≤ v) (hk : P.kbound ≤ k)
    (s : World) (e : Event) (h : OthersAvoid P s)
    (hown : ownListener P s = some (syncListener v k))
    (ht : e.TargetID = P.targetID) (hn : e.Name = P.eventName) :
    OthersAvoid P (dispatch s e)
    ∧ ownListener P (dispatch s e) = none
    ∧ (dispatch s e).vars.lookup v = some (.event e)
    ∧ k ∈ (dispatch s e).fired
    ∧ (∀ u, P.vbound ≤ u → u ≠ v → (dispatch s e).vars.lookup u = s.vars.lookup u)
    ∧ (∀ j, P.kbound ≤ j → j ≠ k → (j ∈ (dispatch s e).fired ↔ j ∈ s.fired))
    ∧ (P.id, e) ∈ (dispatch s e).calls.drop s.calls.length := by
  have hmem : (⟨P.id, syncListener v k⟩ : Sigma fun _ : Int => Listener)
      ∈ (listeners s.d e.TargetID e.Name).entries := by
    apply AList.mem_lookup_iff.mp
    rw [listeners_lookup, ht, hn]
    exact hown
  have hcalls : (P.id, e) ∈ (dispatch s e).calls.drop s.calls.length := by
    rw [dispatch_calls, List.drop_left]
    exact List.mem_map.mpr ⟨P.id, List.mem_keys.mpr ⟨_, hmem⟩, rfl⟩
  obtain ⟨A, B, hAB⟩ := List.append_of_mem hmem
  have hnd : (A ++ ⟨P.id, syncListener v k⟩ :: B).NodupKeys := by
    rw [← hAB]
    exact (listeners s.d e.TargetID e.Name).nodupKeys
  have hkeys : (A ++ ⟨P.id, syncListener v k⟩ :: B).keys.Nodup := hnd
  simp only [List.keys, List.map_append, List.map_cons] at hkeys
  have hforeign : ∀ kv, kv ∈ A ∨ kv ∈ B → Listener.Avoids P kv.2
      ∧ (e.TargetID, e.Name, kv.1) ≠ (P.targetID, P.eventName, P.id) := by
    intro kv hkv
    have hin : kv ∈ (listeners s.d e.TargetID e.Name).entries := by
      rw [hAB]
      rcases hkv with hkv | hkv
      · exact List.mem_append_left _ hkv
      · exact List.mem_append_right _ (List.mem_cons_of_mem _ hkv)
    have hl := mem_listeners_entries s.d _ _ kv hin
    have hid : kv.1 ≠ P.id := by
      intro hc
      rcases hkv with hkv | hkv
      · have h1 : kv.1 ∈ A.map Sigma.fst := List.mem_map.mpr ⟨kv, hkv, rfl⟩
        have := (List.nodup_append.mp hkeys).2.2
        exact this h1 (by rw [hc]; exact List.mem_cons_self _ _)
      · have h1 : kv.1 ∈ B.map Sigma.fst := List.mem_map.mpr ⟨kv, hkv, rfl⟩
        have := (List.nodup_cons.mp (List.nodup_append.mp hkeys).2.1).1
        exact this (by rw [← hc]; exact h1)
    have hne3 : (e.TargetID, e.Name, kv.1) ≠ (P.targetID, P.eventName, P.id) := by
      intro hc
      exact hid (Prod.mk.inj (Prod.mk.inj hc).2).2
    exact ⟨h.2 _ _ _ _ hl hne3, hne3⟩
  have hrun : dispatch s e
      = B.foldl (fun s kv => invoke e s kv.1 kv.2)
          (invoke e (A.foldl (fun s kv => invoke e s kv.1 kv.2) s) P.id (syncListener v k)) := by
    unfold dispatch runListeners
    rw [hAB, List.foldl_append, List.foldl_cons]
  have hA := foldl_invoke_avoids P e A (fun kv hkv => hforeign kv (Or.inl hkv)) s h
  have hO := invoke_syncListener P v k e (A.foldl (fun s kv => invoke e s kv.1 kv.2) s) hA.1 ht hn
  have hB := foldl_invoke_avoids P e B (fun kv hkv => hforeign kv (Or.inr hkv)) _ hO.1
  rw [hrun]
  refine ⟨hB.1, ?_, ?_, ?_, ?_, ?_, ?_⟩
  · rw [hB.2.1, hO.2.1]
  · rw [hB.2.2.1 v hv, hO.2.2.1]
  · exact (hB.2.2.2 k hk).mpr hO.2.2.2.1
  · intro u hu hne
    rw [hB.2.2.1 u hu, hO.2.2.2.2.1 u hne, hA.2.2.1 u hu]
  · intro j hj hne
    rw [hB.2.2.2 j hj, hO.2.2.2.2.2 j hne, hA.2.2.2 j hj]
  · rw [← hrun]
    exact hcalls

theorem step_avoids (P : Private) (s : World) (st : Step) (h : OthersAvoid P s)
    (ha : st.Avoids P)
    (hne : ¬ st.Delivers P.targetID P.eventName ∨ ownListener P s = none) :
    OthersAvoid P (st.run s) ∧ SamePrivate P s (st.run s) := by
  cases st with
  | dispatch e => exact dispatch_avoids P s e h hne
  | effect eff => exact applyEffect_avoids P s eff h ha

theorem runSteps_avoids (P : Private) (steps : List Step)
    (ha : ∀ st ∈ steps, st.Avoids P ∧ ¬ st.Delivers P.targetID P.eventName) :
    ∀ s : World, OthersAvoid P s →
      OthersAvoid P (runSteps steps s) ∧ SamePrivate P s (runSteps steps s) := by
  induction steps with
  | nil => intro s h; exact ⟨h, samePrivate_refl P s⟩
  | cons x xs ih =>
    intro s h
    have hx := ha x (List.mem_cons_self _ _)
    have h1 := step_avoids P s x h hx.1 (Or.inl hx.2)
    have h2 := ih (fun st hst => ha st (List.mem_cons_of_mem _ hst)) _ h1.1
    exact ⟨h2.1, samePrivate_trans P _ _ _ h1.2 h2.2⟩

/-! ### The wait on the derived context -/

theorem waitDone_of_done (ctx : Context) (env : List Step) (s : World)
    (h : (ctx.Err s).isSome = true) : waitDone ctx env s = some s := by
  cases env with
  | nil => simp [waitDone, h]
  | cons x xs => simp [waitDone, h]

theorem runSteps_cons (st : Step) (steps : List Step) (s : World) :
    runSteps (st :: steps) s = runSteps steps (st.run s) := rfl

theorem runSteps_append (xs ys : List Step) (s : World) :
    runSteps (xs ++ ys) s = runSteps ys (runSteps xs s) := by
  unfold runSteps
  rw [List.foldl_append]

theorem waitDone_skip (ctx : Context) (rest : List Step) (pre : List Step) :
    ∀ s : World, (ctx.Err (runSteps pre s)).isSome = false →
      waitDone ctx (pre ++ rest) s = waitDone ctx rest (runSteps pre s) := by
  induction pre with
  | nil => intro s _; rfl
  | cons x xs ih =>
    intro s h
    have hs : (ctx.Err s).isSome = false := by
      cases hc : (ctx.Err s).isSome with
      | false => rfl
      | true =>
        have := err_mono ctx s _ (runSteps_fired (x :: xs) s) hc
        rw [this] at h
        exact Bool.noConfusion h
    rw [List.cons_append]
    show (if (ctx.Err s).isSome then some s else waitDone ctx (xs ++ rest) (x.run s)) = _
    rw [hs]
    exact ih (x.run s) h

theorem waitDone_stops (ctx : Context) (post : List Step) (pre : List Step) :
    ∀ s : World, (ctx.Err (runSteps pre s)).isSome = true →
      ∃ pre1 pre2, pre = pre1 ++ pre2 ∧ waitDone ctx (pre ++ post) s = some (runSteps pre1 s) := by
  induction pre with
  | nil =>
    intro s h
    exact ⟨[], [], rfl, waitDone_of_done ctx _ s h⟩
  | cons x xs ih =>
    intro s h
    by_cases hs : (ctx.Err s).isSome = true
    · exact ⟨[], x :: xs, rfl, waitDone_of_done ctx _ s hs⟩
    · obtain ⟨p1, p2, hp, hw⟩ := ih (x.run s) h
      refine ⟨x :: p1, p2, by rw [hp]; rfl, ?_⟩
      rw [List.cons_append]
      show (if (ctx.Err s).isSome then some s else waitDone ctx (xs ++ post) (x.run s)) = _
      rw [if_neg hs, hw]
      rfl

theorem waitDone_invariant (ctx : Context) (Inv : World → Prop) (env : List Step)
    (hstep : ∀ st ∈ env, ∀ s, Inv s → Inv (st.run s)) :
    ∀ s s3 : World, Inv s → waitDone ctx env s = some s3 →
      Inv s3 ∧ (ctx.Err s3).isSome = true := by
  induction env with
  | nil =>
    intro s s3 hi hw
    by_cases hs : (ctx.Err s).isSome = true
    · simp [waitDone, hs] at hw
      rw [← hw]
      exact ⟨hi, hs⟩
    · simp [waitDone, hs] at hw
  | cons x xs ih =>
    intro s s3 hi hw
    by_cases hs : (ctx.Err s).isSome = true
    · simp [waitDone, hs] at hw
      rw [← hw]
      exact ⟨hi, hs⟩
    · simp only [waitDone, hs] at hw
      exact ih (fun st hst => hstep st (List.mem_cons_of_mem _ hst)) (x.run s) s3
        (hstep x (List.mem_cons_self _ _) s hi) hw

/-! ### synchronousFunc -/

theorem setup_d (c : Canceller) (l : object) (name : String) (s : World) :
    (synchronousFuncSetup c l name s).d
      = addListener s.d l.id name (syncListener s.nextVar s.nextNode) := rfl

theorem setup_fired (c : Canceller) (l : object) (name : String) (s : World) :
    (synchronousFuncSetup c l name s).fired = s.fired := rfl

theorem setup_calls (c : Canceller) (l : object) (name : String) (s : World) :
    (synchronousFuncSetup c l name s).calls = s.calls := rfl

theorem setup_writer (c : Canceller) (l : object) (name : String) (s : World) :
    (synchronousFuncSetup c l name s).w = s.w := rfl

theorem setup_vars (c : Canceller) (l : object) (name : String) (s : World) :
    (synchronousFuncSetup c l name s).vars = s.vars.insert s.nextVar (.event default) := rfl

theorem setup_own (c : Canceller) (l : object) (name : String) (s : World) :
    ownListener (privateOf l name s) (synchronousFuncSetup c l name s)
      = some (syncListener s.nextVar s.nextNode) := by
  unfold ownListener
  rw [setup_d, lookupListener_addListener]
  simp [privateOf]

theorem setup_othersAvoid (c : Canceller) (l : object) (name : String) (s : World)
    (hreg : ∀ t n id l', lookupListener s.d t n id = some l' →
      Listener.Avoids (privateOf l name s) l') :
    OthersAvoid (privateOf l name s) (synchronousFuncSetup c l name s) := by
  refine ⟨?_, ?_⟩
  · rw [setup_d, addListener_id]
    exact le_refl _
  · intro t n id l' hl hne
    rw [setup_d, lookupListener_addListener] at hl
    by_cases hc : (t, n, id) = (l.id, name, s.d.id + 1)
    · exact absurd hc hne
    · rw [if_neg hc] at hl
      exact hreg t n id l' hl

theorem not_fired_of_allocated (s : World) (h : NodesAllocated s) : s.nextNode ∉ s.fired := by
  intro hk
  have := h _ hk
  omega

theorem err_pair (k : Nat) (c : Canceller) (s : World) :
    (Context.Err (k :: c.ctx) s).isSome = true ↔ (k ∈ s.fired ∨ c.Cancelled s = true) := by
  unfold Canceller.Cancelled
  rw [err_isSome_iff, err_isSome_iff]
  simp [Canceller.ctx]

theorem readEvent_of_lookup (s : World) (v : Nat) (e : Event)
    (h : s.vars.lookup v = some (.event e)) : readEvent s v = e := by
  unfold readEvent
  rw [h]

theorem synchronousFunc_eq (c : Canceller) (l : object) (fn : World → World) (name : String)
    (env : List Step) (s : World) :
    synchronousFunc c l fn name env s
      = (waitDone (s.nextNode :: c.ctx) env (synchronousFuncStart c l fn name s)).map
          (fun s3 => (readEvent (cancelFunc s.nextNode s3) s.nextVar, cancelFunc s.nextNode s3)) := by
  show (match waitDone (s.nextNode :: c.ctx) env (synchronousFuncStart c l fn name s) with
    | none => none
    | some s3 => some (readEvent (cancelFunc s.nextNode s3) s.nextVar, cancelFunc s.nextNode s3))
    = _
  cases waitDone (s.nextNode :: c.ctx) env (synchronousFuncStart c l fn name s) <;> rfl

/-- The state in which `synchronousFunc` starts to wait. -/
theorem start_waiting (c : Canceller) (l : object) (fn : World → World) (name : String)
    (s : World) (halloc : NodesAllocated s)
    (hreg : ∀ t n id l', lookupListener s.d t n id = some l' →
      Listener.Avoids (privateOf l name s) l')
    (hfn : Foreign (privateOf l name s) fn) :
    OthersAvoid (privateOf l name s) (synchronousFuncStart c l fn name s)
    ∧ ownListener (privateOf l name s) (synchronousFuncStart c l fn name s)
        = some (syncListener s.nextVar s.nextNode)
    ∧ (synchronousFuncStart c l fn name s).vars.lookup s.nextVar = some (.event default)
    ∧ s.nextNode ∉ (synchronousFuncStart c l fn name s).fired := by
  have h1 := hfn _ (setup_othersAvoid c l name s hreg)
  unfold synchronousFuncStart
  refine ⟨h1.1, ?_, ?_, ?_⟩
  · rw [h1.2.1, setup_own]
  · rw [h1.2.2.1 s.nextVar (le_refl _), setup_vars]
    exact AList.lookup_insert _
  · rw [h1.2.2.2 s.nextNode (le_refl _), setup_fired]
    exact not_fired_of_allocated s halloc

/-- When every `dispatch` runs to its end before the next step, the call runs
again at once, and neither the action `fn` nor the other goroutines remove the
listener of the call: `synchronousFunc` returns the event named `eventNameDone`
that is dispatched to the listen target before the canceller is cancelled, and
the zero `Event` when the canceller is cancelled before any such event is
dispatched. -/
theorem synchronousFunc_atomic_delivered_or_empty (c : Canceller) (l : object)
    (fn : World → World) (eventNameDone : String) (s : World)
    (halloc : NodesAllocated s)
    (hreg : ∀ t n id l', lookupListener s.d t n id = some l' →
      Listener.Avoids (privateOf l eventNameDone s) l')
    (hfn : Foreign (privateOf l eventNameDone s) fn) :
    (∀ (pre post : List Step) (ev : Event),
        (∀ st ∈ pre, st.Avoids (privateOf l eventNameDone s)
          ∧ ¬ st.Delivers l.id eventNameDone) →
        ev.TargetID = l.id → ev.Name = eventNameDone →
        c.Cancelled (runSteps pre (synchronousFuncStart c l fn eventNameDone s)) = false →
        (synchronousFunc c l fn eventNameDone (pre ++ Step.dispatch ev :: post) s).map Prod.fst
          = some ev)
    ∧ (∀ (pre post : List Step),
        (∀ st ∈ pre, st.Avoids (privateOf l eventNameDone s)
          ∧ ¬ st.Delivers l.id eventNameDone) →
        c.Cancelled (runSteps pre (synchronousFuncStart c l fn eventNameDone s)) = true →
        (synchronousFunc c l fn eventNameDone (pre ++ post) s).map Prod.fst = some default) := by
  obtain ⟨hO, hown, hvar, hk⟩ := start_waiting c l fn eventNameDone s halloc hreg hfn
  constructor
  · intro pre post ev hpre ht hn hc
    have hp := runSteps_avoids (privateOf l eventNameDone s) pre hpre _ hO
    have hown' := hp.2.1.trans hown
    have hk' : s.nextNode ∉ (runSteps pre (synchronousFuncStart c l fn eventNameDone s)).fired :=
      fun h => hk ((hp.2.2.2 s.nextNode (le_refl _)).mp h)
    have herr : (Context.Err (s.nextNode :: c.ctx)
        (runSteps pre (synchronousFuncStart c l fn eventNameDone s))).isSome = false := by
      cases he : (Context.Err (s.nextNode :: c.ctx)
          (runSteps pre (synchronousFuncStart c l fn eventNameDone s))).isSome with
      | false => rfl
      | true =>
        rcases (err_pair _ _ _).mp he with h | h
        · exact absurd h hk'
        · rw [hc] at h
          exact Bool.noConfusion h
    have hdel := dispatch_delivers (privateOf l eventNameDone s) s.nextVar s.nextNode
      (le_refl _) (le_refl _) _ ev hp.1 hown' ht hn
    have hw : waitDone (s.nextNode :: c.ctx) (pre ++ Step.dispatch ev :: post)
        (synchronousFuncStart c l fn eventNameDone s)
        = some (dispatch (runSteps pre (synchronousFuncStart c l fn eventNameDone s)) ev) := by
      rw [waitDone_skip _ _ _ _ herr]
      show (if (Context.Err (s.nextNode :: c.ctx) _).isSome then _ else _) = _
      rw [herr]
      exact waitDone_of_done _ _ _ ((err_pair _ _ _).mpr (Or.inl hdel.2.2.2.1))
    rw [synchronousFunc_eq, hw]
    exact congrArg some (readEvent_of_lookup (cancelFunc s.nextNode _) s.nextVar ev hdel.2.2.1)
  · intro pre post hpre hc
    have herr : (Context.Err (s.nextNode :: c.ctx)
        (runSteps pre (synchronousFuncStart c l fn eventNameDone s))).isSome = true :=
      (err_pair _ _ _).mpr (Or.inr hc)
    obtain ⟨p1, p2, hp12, hw⟩ := waitDone_stops _ post pre _ herr
    have hp := runSteps_avoids (privateOf l eventNameDone s) p1
      (fun st hst => hpre st (by rw [hp12]; exact List.mem_append_left _ hst)) _ hO
    rw [synchronousFunc_eq, hw]
    exact congrArg some (readEvent_of_lookup (cancelFunc s.nextNode _) s.nextVar default
      ((hp.2.2.1 s.nextVar (le_refl _)).trans hvar))

/-! ### Scenario C -/

theorem scenarioC_allocated : NodesAllocated scenarioC := by
  intro k hk
  exact absurd hk (List.not_mem_nil k)

theorem scenarioC_registry (P : Private) :
    ∀ t n id l', lookupListener scenarioC.d t n id = some l' → Listener.Avoids P l' := by
  intro t n id l' h
  have hd : scenarioC.d = newDispatcher := rfl
  rw [hd] at h
  simp [lookupListener, bucket_newDispatcher] at h

theorem foreign_id (P : Private) : Foreign P id :=
  fun s h => ⟨h, samePrivate_refl P s⟩

theorem cancel_root_avoids :
    ∀ st ∈ [Step.effect (.cancel cancellerC.node)],
      st.Avoids (privateOf objectC "done" scenarioC) ∧ ¬ st.Delivers objectC.id "done" := by
  intro st hst
  rw [List.mem_singleton] at hst
  subst hst
  exact ⟨Effect.Avoids.cancel _ (by decide), fun h => h⟩

/-- Scenario C and its counterpart with a reply, every `dispatch` running to
its end at once: the canceller is cancelled and nothing was sent, the call
returns the zero event; the event `done` is dispatched to `t` first, the call
returns it. -/
theorem synchronousFunc_atomic_scenarioC :
    NodesAllocated scenarioC
    ∧ Foreign (privateOf objectC "done" scenarioC) id
    ∧ (synchronousFunc cancellerC objectC id "done"
        ([] ++ Step.dispatch doneEvent :: [Step.effect (.cancel cancellerC.node)]) scenarioC).map
          Prod.fst = some doneEvent
    ∧ (synchronousFunc cancellerC objectC id "done"
        ([Step.effect (.cancel cancellerC.node)] ++ [Step.dispatch doneEvent]) scenarioC).map
          Prod.fst = some default :=
  ⟨scenarioC_allocated, foreign_id _,
   (synchronousFunc_atomic_delivered_or_empty cancellerC objectC id "done" scenarioC
      scenarioC_allocated (scenarioC_registry _) (foreign_id _)).1
      [] [Step.effect (.cancel cancellerC.node)] doneEvent
      (fun st hst => absurd hst (List.not_mem_nil st)) rfl rfl rfl,
   (synchronousFunc_atomic_delivered_or_empty cancellerC objectC id "done" scenarioC
      scenarioC_allocated (scenarioC_registry _) (foreign_id _)).2
      [Step.effect (.cancel cancellerC.node)] [Step.dispatch doneEvent]
      cancel_root_avoids rfl⟩

/-! ### synchronousEvent -/

theorem step_calls (s : World) (st : Step) : ∃ extra, (st.run s).calls = s.calls ++ extra := by
  cases st with
  | dispatch e => exact ⟨_, dispatch_calls s e⟩
  | effect eff => exact ⟨[], by simp [Step.run, applyEffect_calls]⟩

theorem mem_drop_append {α : Type} (x : α) (n : Nat) (xs ys : List α) (h : x ∈ xs.drop n) :
    x ∈ (xs ++ ys).drop n := by
  rw [List.drop_append_eq_append_drop]
  exact List.mem_append_left _ h

theorem mem_drop_of_le {α : Type} (x : α) (n m : Nat) (xs : List α) (hnm : n ≤ m)
    (h : x ∈ xs.drop m) : x ∈ xs.drop n := by
  have : xs.drop m = (xs.drop n).drop (m - n) := by
    rw [List.drop_drop]
    congr 1
    omega
  rw [this] at h
  exact List.mem_of_mem_drop h

theorem step_waitingOrDelivered (P : Private) (v k n0 : Nat) (hv : P.vbound ≤ v)
    (hk : P.kbound ≤ k) (base s : World) (st : Step) (ha : st.Avoids P)
    (h : WaitingOrDelivered P v k n0 base s) :
    WaitingOrDelivered P v k n0 base (st.run s) := by
  obtain ⟨hO, hn0, hu, hcase⟩ := h
  obtain ⟨extra, hextra⟩ := step_calls s st
  have hlen : n0 ≤ (st.run s).calls.length := by
    rw [hextra, List.length_append]
    omega
  rcases hcase with ⟨hown, hvar, hkf⟩ | ⟨ev, hown, hvar, ht, hn, hcall⟩
  · by_cases hd : st.Delivers P.targetID P.eventName
    · cases st with
      | effect eff => exact absurd hd (fun h => h)
      | dispatch e =>
        have hdel := dispatch_delivers P v k hv hk s e hO hown hd.1 hd.2
        refine ⟨hdel.1, hlen, ?_, Or.inr ⟨e, hdel.2.1, hdel.2.2.1, hd.1, hd.2, ?_⟩⟩
        · intro u hub hne
          exact (hdel.2.2.2.2.1 u hub hne).trans (hu u hub hne)
        · exact mem_drop_of_le _ _ _ _ hn0 hdel.2.2.2.2.2.2
    · have hs := step_avoids P s st hO ha (Or.inl hd)
      refine ⟨hs.1, hlen, ?_, Or.inl ⟨hs.2.1.trans hown, (hs.2.2.1 v hv).trans hvar, ?_⟩⟩
      · intro u hub hne
        exact (hs.2.2.1 u hub).trans (hu u hub hne)
      · exact fun hf => hkf ((hs.2.2.2 k hk).mp hf)
  · have hs := step_avoids P s st hO ha (Or.inr hown)
    refine ⟨hs.1, hlen, ?_, Or.inr ⟨ev, hs.2.1.trans hown, (hs.2.2.1 v hv).trans hvar, ht, hn, ?_⟩⟩
    · intro u hub hne
      exact (hs.2.2.1 u hub).trans (hu u hub hne)
    · rw [hextra]
      exact mem_drop_append _ _ _ _ hcall

/-! The outcome of the wait does not depend on the writer. -/

theorem applyEffect_agree (v : Nat) (s s' : World) (eff : Effect) (h : Agree v s s') :
    Agree v (applyEffect s eff) (applyEffect s' eff) := by
  obtain ⟨hd, hf, hvv⟩ := h
  cases eff with
  | addListener t n l => exact ⟨by show addListener s.d t n l = addListener s'.d t n l; rw [hd], hf, hvv⟩
  | delListener t n id => exact ⟨by show delListener s.d t n id = delListener s'.d t n id; rw [hd], hf, hvv⟩
  | cancel k => exact ⟨hd, by show k :: s.fired = k :: s'.fired; rw [hf], hvv⟩
  | assign u e =>
    refine ⟨hd, hf, ?_⟩
    show (s.vars.insert u (Value.event e)).lookup v = (s'.vars.insert u (Value.event e)).lookup v
    by_cases hvu : v = u
    · subst hvu
      rw [AList.lookup_insert, AList.lookup_insert]
    · rw [AList.lookup_insert_ne hvu, AList.lookup_insert_ne hvu]
      exact hvv

theorem foldl_applyEffect_agree (v : Nat) (effs : List Effect) :
    ∀ s s' : World, Agree v s s' →
      Agree v (effs.foldl applyEffect s) (effs.foldl applyEffect s') := by
  induction effs with
  | nil => intro s s' h; exact h
  | cons x xs ih =>
    intro s s' h
    rw [List.foldl_cons, List.foldl_cons]
    exact ih _ _ (applyEffect_agree v s s' x h)

theorem invoke_agree (v : Nat) (e : Event) (s s' : World) (id : Int) (l : Listener)
    (h : Agree v s s') : Agree v (invoke e s id l) (invoke e s' id l) := by
  unfold invoke
  have h0 : Agree v { s with calls := s.calls ++ [(id, e)] }
      { s' with calls := s'.calls ++ [(id, e)] } := h
  have h1 := foldl_applyEffect_agree v (l e).1 _ _ h0
  by_cases hb : (l e).2 = true
  · simp only [hb, if_true]
    refine ⟨?_, h1.2.1, h1.2.2⟩
    show delListener _ e.TargetID e.Name id = delListener _ e.TargetID e.Name id
    rw [h1.1]
  · simp only [hb]
    exact h1

theorem step_agree (v : Nat) (s s' : World) (st : Step) (h : Agree v s s') :
    Agree v (st.run s) (st.run s') := by
  cases st with
  | effect eff => exact applyEffect_agree v s s' eff h
  | dispatch e =>
    show Agree v (dispatch s e) (dispatch s' e)
    unfold dispatch runListeners
    rw [← h.1]
    generalize (listeners s.d e.TargetID e.Name).entries = xs
    induction xs generalizing s s' with
    | nil => exact h
    | cons x xs ih =>
      rw [List.foldl_cons, List.foldl_cons]
      exact ih _ _ (invoke_agree v e s s' x.1 x.2 h)

theorem err_agree (ctx : Context) (v : Nat) (s s' : World) (h : Agree v s s') :
    ctx.Err s = ctx.Err s' := by
  unfold Context.Err
  rw [h.2.1]

theorem waitDone_agree (ctx : Context) (v k : Nat) (env : List Step) :
    ∀ s s' : World, Agree v s s' →
      (waitDone ctx env s).map (fun x => readEvent (cancelFunc k x) v)
        = (waitDone ctx env s').map (fun x => readEvent (cancelFunc k x) v) := by
  have hread : ∀ s s' : World, Agree v s s' →
      readEvent (cancelFunc k s) v = readEvent (cancelFunc k s') v := by
    intro s s' h
    unfold readEvent cancelFunc
    simp only
    rw [h.2.2]
  induction env with
  | nil =>
    intro s s' h
    simp only [waitDone, err_agree ctx v s s' h]
    by_cases hs : (ctx.Err s').isSome = true
    · simp [hs, hread s s' h]
    · simp [hs]
  | cons x xs ih =>
    intro s s' h
    simp only [waitDone, err_agree ctx v s s' h]
    by_cases hs : (ctx.Err s').isSome = true
    · simp [hs, hread s s' h]
    · simp only [hs]
      exact ih _ _ (step_agree v s s' x h)

/-- The wait ends with the first dispatch of an event of the call's target and
name, when the canceller is not cancelled before. -/
theorem wait_delivered (P : Private) (v k : Nat) (hv : P.vbound ≤ v) (hk : P.kbound ≤ k)
    (c : Canceller) (s2 : World) (hO : OthersAvoid P s2)
    (hown : ownListener P s2 = some (syncListener v k)) (hkf : k ∉ s2.fired)
    (pre post : List Step) (ev : Event)
    (hpre : ∀ st ∈ pre, st.Avoids P ∧ ¬ st.Delivers P.targetID P.eventName)
    (ht : ev.TargetID = P.targetID) (hn : ev.Name = P.eventName)
    (hc : c.Cancelled (runSteps pre s2) = false) :
    waitDone (k :: c.ctx) (pre ++ Step.dispatch ev :: post) s2
        = some (dispatch (runSteps pre s2) ev)
    ∧ (dispatch (runSteps pre s2) ev).vars.lookup v = some (.event ev)
    ∧ ∀ u, P.vbound ≤ u → u ≠ v →
        (dispatch (runSteps pre s2) ev).vars.lookup u = s2.vars.lookup u := by
  have hp := runSteps_avoids P pre hpre _ hO
  have hown' := hp.2.1.trans hown
  have hk' : k ∉ (runSteps pre s2).fired := fun h => hkf ((hp.2.2.2 k hk).mp h)
  have herr : (Context.Err (k :: c.ctx) (runSteps pre s2)).isSome = false := by
    cases he : (Context.Err (k :: c.ctx) (runSteps pre s2)).isSome with
    | false => rfl
    | true =>
      rcases (err_pair _ _ _).mp he with h | h
      · exact absurd h hk'
      · rw [hc] at h
        exact Bool.noConfusion h
  have hdel := dispatch_delivers P v k hv hk _ ev hp.1 hown' ht hn
  refine ⟨?_, hdel.2.2.1, ?_⟩
  · rw [waitDone_skip _ _ _ _ herr]
    show (if (Context.Err (k :: c.ctx) _).isSome then _ else _) = _
    rw [herr]
    exact waitDone_of_done _ _ _ ((err_pair _ _ _).mpr (Or.inl hdel.2.2.2.1))
  · intro u hu hne
    exact (hdel.2.2.2.2.1 u hu hne).trans (hp.2.2.1 u hu)

/-- The wait ends without any call of the listener when the canceller is
cancelled before an event of the call's target and name is dispatched. -/
theorem wait_cancelled (P : Private) (k : Nat) (c : Canceller) (s2 : World)
    (hO : OthersAvoid P s2) (pre post : List Step)
    (hpre : ∀ st ∈ pre, st.Avoids P ∧ ¬ st.Delivers P.targetID P.eventName)
    (hc : c.Cancelled (runSteps pre s2) = true) :
    ∃ p1 p2, pre = p1 ++ p2
      ∧ waitDone (k :: c.ctx) (pre ++ post) s2 = some (runSteps p1 s2)
      ∧ OthersAvoid P (runSteps p1 s2) ∧ SamePrivate P s2 (runSteps p1 s2) := by
  have herr : (Context.Err (k :: c.ctx) (runSteps pre s2)).isSome = true :=
    (err_pair _ _ _).mpr (Or.inr hc)
  obtain ⟨p1, p2, hp12, hw⟩ := waitDone_stops _ post pre _ herr
  have hp := runSteps_avoids P p1
    (fun st hst => hpre st (by rw [hp12]; exact List.mem_append_left _ hst)) _ hO
  exact ⟨p1, p2, hp12, hw, hp.1, hp.2⟩

theorem writeAction_d (marshal : Event → Except String (List UInt8)) (i : Event) (u : Nat)
    (s : World) : (writeAction marshal i u s).d = s.d := by
  unfold writeAction
  cases (writer.write marshal s.w i).2 <;> rfl

theorem writeAction_fired (marshal : Event → Except String (List UInt8)) (i : Event) (u : Nat)
    (s : World) : (writeAction marshal i u s).fired = s.fired := by
  unfold writeAction
  cases (writer.write marshal s.w i).2 <;> rfl

theorem writeAction_calls (marshal : Event → Except String (List UInt8)) (i : Event) (u : Nat)
    (s : World) : (writeAction marshal i u s).calls = s.calls := by
  unfold writeAction
  cases (writer.write marshal s.w i).2 <;> rfl

theorem writeAction_vars_other (marshal : Event → Except String (List UInt8)) (i : Event)
    (u v : Nat) (s : World) (hne : v ≠ u) :
    (writeAction marshal i u s).vars.lookup v = s.vars.lookup v := by
  unfold writeAction
  cases (writer.write marshal s.w i).2 <;> exact AList.lookup_insert_ne hne

theorem writeAction_vars_own (marshal : Event → Except String (List UInt8)) (i : Event)
    (u : Nat) (s : World) :
    (writeAction marshal i u s).vars.lookup u = some (.error (writeError marshal s.w i)) := by
  unfold writeAction writeError
  cases h : (writer.write marshal s.w i).2 with
  | none => exact AList.lookup_insert _
  | some e => exact AList.lookup_insert _

theorem writeError_ne_none_iff (marshal : Event → Except String (List UInt8)) (w : writer)
    (i : Event) : writeError marshal w i ≠ none ↔ (writer.write marshal w i).2 ≠ none := by
  unfold writeError
  cases (writer.write marshal w i).2 <;> simp

theorem readError_of_lookup (s : World) (u : Nat) (err : Option String)
    (h : s.vars.lookup u = some (.error err)) : readError s u = err := by
  unfold readError
  rw [h]

/-- The state in which `synchronousEvent` starts to wait. -/
theorem synchronousEvent_start (marshal : Event → Except String (List UInt8)) (c : Canceller)
    (l : object) (i : Event) (name : String) (s : World) :
    (synchronousEventStart marshal c l i name s).d
      = addListener s.d l.id name (syncListener (s.nextVar + 1) s.nextNode)
    ∧ (synchronousEventStart marshal c l i name s).fired = s.fired
    ∧ (synchronousEventStart marshal c l i name s).calls = s.calls
    ∧ (synchronousEventStart marshal c l i name s).vars.lookup (s.nextVar + 1)
      = some (.event default)
    ∧ (synchronousEventStart marshal c l i name s).vars.lookup s.nextVar
      = some (.error (writeError marshal s.w i)) := by
  unfold synchronousEventStart synchronousFuncStart
  refine ⟨?_, ?_, ?_, ?_, ?_⟩
  · rw [writeAction_d]
    rfl
  · rw [writeAction_fired]
    rfl
  · rw [writeAction_calls]
    rfl
  · rw [writeAction_vars_other _ _ _ _ _ (by omega)]
    exact AList.lookup_insert _
  · exact writeAction_vars_own marshal i s.nextVar _

theorem synchronousEvent_eq (marshal : Event → Except String (List UInt8)) (c : Canceller)
    (l : object) (i : Event) (name : String) (env : List Step) (s : World) :
    synchronousEvent marshal c l i name env s
      = (waitDone (s.nextNode :: c.ctx) env (synchronousEventStart marshal c l i name s)).map
          (fun s3 => (readEvent (cancelFunc s.nextNode s3) (s.nextVar + 1),
            readError (cancelFunc s.nextNode s3) s.nextVar, cancelFunc s.nextNode s3)) := by
  unfold synchronousEvent synchronousEventStart
  simp only
  rw [synchronousFunc_eq]
  cases waitDone (s.nextNode :: c.ctx) env
      (synchronousFuncStart c l (writeAction marshal i s.nextVar) name
        { s with vars := s.vars.insert s.nextVar (.error none), nextVar := s.nextVar + 1 }) with
  | none => rfl
  | some s3 => rfl

theorem synchronousEvent_start_waiting (marshal : Event → Except String (List UInt8))
    (c : Canceller) (l : object) (i : Event) (name : String) (s : World)
    (halloc : NodesAllocated s)
    (hreg : ∀ t n id l', lookupListener s.d t n id = some l' →
      Listener.Avoids (privateOf l name s) l') :
    OthersAvoid (privateOf l name s) (synchronousEventStart marshal c l i name s)
    ∧ ownListener (privateOf l name s) (synchronousEventStart marshal c l i name s)
        = some (syncListener (s.nextVar + 1) s.nextNode)
    ∧ s.nextNode ∉ (synchronousEventStart marshal c l i name s).fired := by
  obtain ⟨hd, hf, _, _, _⟩ := synchronousEvent_start marshal c l i name s
  refine ⟨⟨?_, ?_⟩, ?_, ?_⟩
  · rw [hd, addListener_id]
    exact le_refl _
  · intro t n id l' hl hne
    rw [hd, lookupListener_addListener] at hl
    by_cases hc : (t, n, id) = (l.id, name, s.d.id + 1)
    · exact absurd hc hne
    · rw [if_neg hc] at hl
      exact hreg t n id l' hl
  · unfold ownListener
    rw [hd, lookupListener_addListener]
    simp [privateOf]
  · rw [hf]
    exact not_fired_of_allocated s halloc

/-- C4. `synchronousEvent` returns a non-nil error if and only if `writer.write`
of the outgoing event fails, together with the event the wait produced: the
event of the first dispatch to the listen target named `eventNameDone` when it
comes before the canceller is cancelled, the zero event when the canceller is
cancelled first. A failed write does not cut the wait short: the event
returned, and whether the call returns at all, are the same whatever the writer
does, and the call returns only once its listener has been called or the
canceller has been cancelled. -/
theorem synchronousEvent_error_iff_write_fails (marshal : Event → Except String (List UInt8))
    (c : Canceller) (l : object) (i : Event) (eventNameDone : String) (s : World)
    (halloc : NodesAllocated s)
    (hreg : ∀ t n id l', lookupListener s.d t n id = some l' →
      Listener.Avoids (privateOf l eventNameDone s) l') :
    (writeError marshal s.w i ≠ none ↔ (writer.write marshal s.w i).2 ≠ none)
    ∧ (∀ (pre post : List Step) (ev : Event),
        (∀ st ∈ pre, st.Avoids (privateOf l eventNameDone s)
          ∧ ¬ st.Delivers l.id eventNameDone) →
        ev.TargetID = l.id → ev.Name = eventNameDone →
        c.Cancelled (runSteps pre (synchronousEventStart marshal c l i eventNameDone s)) = false →
        (synchronousEvent marshal c l i eventNameDone (pre ++ Step.dispatch ev :: post) s).map
          (fun r => (r.1, r.2.1)) = some (ev, writeError marshal s.w i))
    ∧ (∀ (pre post : List Step),
        (∀ st ∈ pre, st.Avoids (privateOf l eventNameDone s)
          ∧ ¬ st.Delivers l.id eventNameDone) →
        c.Cancelled (runSteps pre (synchronousEventStart marshal c l i eventNameDone s)) = true →
        (synchronousEvent marshal c l i eventNameDone (pre ++ post) s).map
          (fun r => (r.1, r.2.1)) = some (default, writeError marshal s.w i))
    ∧ (∀ (env : List Step) o err s',
        (∀ st ∈ env, st.Avoids (privateOf l eventNameDone s)) →
        synchronousEvent marshal c l i eventNameDone env s = some (o, err, s') →
        err = writeError marshal s.w i
        ∧ ∃ s3, s' = cancelFunc s.nextNode s3
          ∧ ((o = default ∧ c.Cancelled s3 = true)
            ∨ (o.TargetID = l.id ∧ o.Name = eventNameDone
                ∧ (s.d.id + 1, o) ∈ s3.calls.drop s.calls.length)))
    ∧ (∀ (env : List Step) (marshal' : Event → Except String (List UInt8)) (w' : writer),
        (synchronousEvent marshal' c l i eventNameDone env { s with w := w' }).map (fun r => r.1)
          = (synchronousEvent marshal c l i eventNameDone env s).map (fun r => r.1)) := by
  obtain ⟨hd, hf, hcalls, hvar, herr0⟩ := synchronousEvent_start marshal c l i eventNameDone s
  obtain ⟨hO, hown, hkf⟩ :=
    synchronousEvent_start_waiting marshal c l i eventNameDone s halloc hreg
  have hvb : (privateOf l eventNameDone s).vbound ≤ s.nextVar + 1 := by simp [privateOf]
  have hub : (privateOf l eventNameDone s).vbound ≤ s.nextVar := le_refl _
  refine ⟨writeError_ne_none_iff marshal s.w i, ?_, ?_, ?_, ?_⟩
  · intro pre post ev hpre ht hn hc
    obtain ⟨hw, hv3, hu3⟩ := wait_delivered (privateOf l eventNameDone s) (s.nextVar + 1)
      s.nextNode hvb (le_refl _) c _ hO hown hkf pre post ev hpre ht hn hc
    rw [synchronousEvent_eq, hw]
    have h1 := readEvent_of_lookup (cancelFunc s.nextNode
      (dispatch (runSteps pre (synchronousEventStart marshal c l i eventNameDone s)) ev))
      (s.nextVar + 1) ev hv3
    have h2 := readError_of_lookup (cancelFunc s.nextNode
      (dispatch (runSteps pre (synchronousEventStart marshal c l i eventNameDone s)) ev))
      s.nextVar _ ((hu3 s.nextVar hub (by omega)).trans herr0)
    show some (readEvent _ _, readError _ _) = _
    rw [h1, h2]
  · intro pre post hpre hc
    obtain ⟨p1, p2, _, hw, _, hsame⟩ := wait_cancelled (privateOf l eventNameDone s)
      s.nextNode c _ hO pre post hpre hc
    rw [synchronousEvent_eq, hw]
    have h1 := readEvent_of_lookup (cancelFunc s.nextNode
      (runSteps p1 (synchronousEventStart marshal c l i eventNameDone s)))
      (s.nextVar + 1) default ((hsame.2.1 _ hvb).trans hvar)
    have h2 := readError_of_lookup (cancelFunc s.nextNode
      (runSteps p1 (synchronousEventStart marshal c l i eventNameDone s)))
      s.nextVar _ ((hsame.2.1 _ hub).trans herr0)
    show some (readEvent _ _, readError _ _) = _
    rw [h1, h2]
  · intro env o err s' henv hres
    rw [synchronousEvent_eq] at hres
    generalize hs2 : synchronousEventStart marshal c l i eventNameDone s = s2
      at hres hd hf hcalls hvar herr0 hO hown hkf
    have hinit : WaitingOrDelivered (privateOf l eventNameDone s) (s.nextVar + 1) s.nextNode
        s.calls.length s2 s2 :=
      ⟨hO, by rw [hcalls], fun _ _ _ => rfl, Or.inl ⟨hown, hvar, hkf⟩⟩
    cases hw : waitDone (s.nextNode :: c.ctx) env s2 with
    | none => rw [hw] at hres; exact Option.noConfusion hres
    | some s3 =>
      rw [hw] at hres
      have hres' := Option.some.inj hres
      have ho : o = readEvent (cancelFunc s.nextNode s3) (s.nextVar + 1) :=
        (congrArg (fun r => r.1) hres').symm
      have he : err = readError (cancelFunc s.nextNode s3) s.nextVar :=
        (congrArg (fun r => r.2.1) hres').symm
      have hs' : s' = cancelFunc s.nextNode s3 := (congrArg (fun r => r.2.2) hres').symm
      obtain ⟨hinv, hdone⟩ := waitDone_invariant (s.nextNode :: c.ctx)
        (WaitingOrDelivered (privateOf l eventNameDone s) (s.nextVar + 1) s.nextNode
          s.calls.length s2) env
        (fun st hst x hx => step_waitingOrDelivered _ _ _ _ hvb (le_refl _) s2 x st
          (henv st hst) hx) s2 s3 hinit hw
      obtain ⟨_, _, hu, hcase⟩ := hinv
      constructor
      · have hlook : s3.vars.lookup s.nextVar = some (.error (writeError marshal s.w i)) :=
          (hu s.nextVar hub (by omega)).trans herr0
        rw [he]
        exact readError_of_lookup (cancelFunc s.nextNode s3) s.nextVar _ hlook
      · refine ⟨s3, hs', ?_⟩
        rcases hcase with ⟨_, hv3, hk3⟩ | ⟨ev, _, hv3, ht, hn, hcall⟩
        · left
          refine ⟨?_, ?_⟩
          · rw [ho]
            exact readEvent_of_lookup (cancelFunc s.nextNode s3) _ default hv3
          · rcases (err_pair _ _ _).mp hdone with h | h
            · exact absurd h hk3
            · exact h
        · right
          have hoe : o = ev := by
            rw [ho]
            exact readEvent_of_lookup (cancelFunc s.nextNode s3) _ ev hv3
          rw [hoe]
          exact ⟨ht, hn, hcall⟩
  · intro env marshal' w'
    rw [synchronousEvent_eq, synchronousEvent_eq, Option.map_map, Option.map_map]
    obtain ⟨hd', hf', _, hvar', _⟩ :=
      synchronousEvent_start marshal' c l i eventNameDone { s with w := w' }
    exact waitDone_agree (s.nextNode :: c.ctx) (s.nextVar + 1) s.nextNode env _ _
      ⟨hd'.trans hd.symm, hf'.trans hf.symm, hvar'.trans hvar.symm⟩

/-- Scenario C with a failing marshaller: the reply `done` is dispatched, the
call returns it together with the write error; with a working marshaller the
same event is returned and the error is nil. -/
theorem synchronousEvent_error_iff_write_fails_witness :
    NodesAllocated scenarioC
    ∧ (synchronousEvent failingMarshal cancellerC objectC fooEvent "done"
        ([] ++ Step.dispatch doneEvent :: []) scenarioC).map (fun r => (r.1, r.2.1))
        = some (doneEvent, some "writing event failed: Marshaling failed: unsupported type")
    ∧ (synchronousEvent emptyMarshal cancellerC objectC fooEvent "done"
        ([] ++ Step.dispatch doneEvent :: []) scenarioC).map (fun r => (r.1, r.2.1))
        = some (doneEvent, none) :=
  ⟨scenarioC_allocated,
   (synchronousEvent_error_iff_write_fails failingMarshal cancellerC objectC fooEvent "done"
      scenarioC scenarioC_allocated (scenarioC_registry _)).2.1 [] [] doneEvent
      (fun st hst => absurd hst (List.not_mem_nil st)) rfl rfl rfl,
   (synchronousEvent_error_iff_write_fails emptyMarshal cancellerC objectC fooEvent "done"
      scenarioC scenarioC_allocated (scenarioC_registry _)).2.1 [] [] doneEvent
      (fun st hst => absurd hst (List.not_mem_nil st)) rfl rfl rfl⟩

theorem digitChar_toNat (d : Nat) (h : d < 10) : (Char.ofNat (48 + d)).toNat - 48 = d := by
  interval_cases d <;> rfl

theorem digitChar_ne_minus (d : Nat) (h : d < 10) : Char.ofNat (48 + d) ≠ '-' := by
  interval_cases d <;> decide

theorem digitsValue_append (cs : List Char) (c : Char) :
    digitsValue (cs ++ [c]) = 10 * digitsValue cs + (c.toNat - 48) := by
  simp [digitsValue, List.foldl_append]

theorem digitsValue_decimalDigits (fuel : Nat) : ∀ n, n ≤ fuel →
    digitsValue (decimalDigits (fuel + 1) n) = n := by
  induction fuel with
  | zero =>
    intro n hn
    have : n = 0 := by omega
    subst this
    rfl
  | succ f ih =>
    intro n hn
    rw [decimalDigits]
    by_cases h : n < 10
    · rw [if_pos h]
      simp [digitsValue, digitChar_toNat n h]
    · rw [if_neg h, digitsValue_append, ih (n / 10) (by omega),
        digitChar_toNat (n % 10) (by omega)]
      omega

theorem decimalDigits_ne_minus (fuel : Nat) : ∀ n, ∀ c ∈ decimalDigits fuel n, c ≠ '-' := by
  induction fuel with
  | zero => intro n c hc; simp [decimalDigits] at hc
  | succ f ih =>
    intro n c hc
    rw [decimalDigits] at hc
    by_cases h : n < 10
    · rw [if_pos h, List.mem_singleton] at hc
      rw [hc]
      exact digitChar_ne_minus n h
    · rw [if_neg h, List.mem_append, List.mem_singleton] at hc
      rcases hc with hc | hc
      · exact ih _ c hc
      · rw [hc]
        exact digitChar_ne_minus (n % 10) (by omega)

theorem Itoa_injective : Function.Injective Itoa := by
  intro a b hab
  have hd := congrArg String.data hab
  unfold Itoa at hd
  have h1 := digitsValue_decimalDigits a.natAbs a.natAbs (le_refl _)
  have h2 := digitsValue_decimalDigits b.natAbs b.natAbs (le_refl _)
  by_cases ha : a < 0 <;> by_cases hb : b < 0
  · simp only [ha, hb, if_true, List.cons.injEq, true_and] at hd
    rw [hd] at h1
    have : a.natAbs = b.natAbs := by rw [← h1, h2]
    omega
  · simp only [ha, hb, if_true, if_false] at hd
    exfalso
    exact decimalDigits_ne_minus _ _ '-' (by rw [← hd]; exact List.mem_cons_self _ _) rfl
  · simp only [ha, hb, if_true, if_false] at hd
    exfalso
    exact decimalDigits_ne_minus _ _ '-' (by rw [hd]; exact List.mem_cons_self _ _) rfl
  · simp only [ha, hb, if_false] at hd
    rw [hd] at h1
    have : a.natAbs = b.natAbs := by rw [← h1, h2]
    omega

theorem newTimes_eq (bits : Nat) (n : Nat) : ∀ i : identifier,
    (i.newTimes bits n).1
      = (List.range n).map (fun k : Nat => Itoa (wrapInt bits (i.i + 1 + (k : Int)))) := by
  induction n with
  | zero => intro i; simp [identifier.newTimes]
  | succ n ih =>
    intro i
    have h := ih (i.new bits).2
    have hi : (i.new bits).2.i = wrapInt bits (i.i + 1) := rfl
    show (i.new bits).1 :: ((i.new bits).2.newTimes bits n).1 = _
    rw [h, List.range_succ_eq_map, List.map_cons, List.map_map, hi]
    congr 1
    · simp [identifier.new]
    · apply List.map_congr_left
      intro k _
      simp only [Function.comp]
      congr 1
      rw [add_assoc, wrapInt_wrapInt_add]
      congr 1
      push_cast
      ring

theorem newTimes_getElem? (bits : Nat) (i : identifier) (n k : Nat) (hk : k < n) :
    (i.newTimes bits n).1.get? k = some (Itoa (wrapInt bits (i.i + 1 + (k : Int)))) := by
  rw [newTimes_eq, List.get?_eq_getElem?, List.getElem?_map, List.getElem?_range hk]
  rfl

/-- More calls than an `int` has values return some string twice: the call
number `2^bits + 1` returns what the first call returned. -/
theorem newTimes_not_nodup (bits : Nat) (i : identifier) (m : Nat) (hm : 2 ^ bits < m) :
    ¬ (i.newTimes bits m).1.Nodup := by
  intro hnd
  rw [newTimes_eq] at hnd
  have hinj := List.inj_on_of_nodup_map hnd
  have hpos : 0 < 2 ^ bits := Nat.two_pow_pos bits
  have h0 : 0 ∈ List.range m := List.mem_range.mpr (by omega)
  have h1 : 2 ^ bits ∈ List.range m := List.mem_range.mpr hm
  have := hinj h0 h1 (by
    show Itoa (wrapInt bits (i.i + 1 + ((0 : Nat) : Int)))
      = Itoa (wrapInt bits (i.i + 1 + ((2 ^ bits : Nat) : Int)))
    congr 1
    have hc : ((2 ^ bits : Nat) : Int) = (2 : Int) ^ bits := by push_cast; rfl
    rw [hc, wrapInt_add_pow]
    simp)
  omega

/-- C11, as stated, fails: the counter is a Go `int` and wraps around. With an
`int` of 32 bits, the call number `2^32 + 1` on a new identifier returns `1`, the
string the first call returned. -/
theorem identifier_new_repeats_after_wrap :
    (newIdentifier.newTimes 32 (2 ^ 32 + 1)).1.get? 0 = some "1"
    ∧ (newIdentifier.newTimes 32 (2 ^ 32 + 1)).1.get? (2 ^ 32) = some "1"
    ∧ ¬ (newIdentifier.newTimes 32 (2 ^ 32 + 1)).1.Nodup := by
  refine ⟨?_, ?_, newTimes_not_nodup 32 newIdentifier (2 ^ 32 + 1) (Nat.lt_succ_self _)⟩
  · rw [newTimes_getElem? 32 newIdentifier (2 ^ 32 + 1) 0 (Nat.succ_pos _)]
    decide
  · rw [newTimes_getElem? 32 newIdentifier (2 ^ 32 + 1) (2 ^ 32) (Nat.lt_succ_self _)]
    have h : wrapInt 32 (newIdentifier.i + 1 + ((2 ^ 32 : Nat) : Int)) = 1 := by decide
    rw [h]
    decide

/-- C11, amended. For an `int` of `bits` bits and every sequence of at most
`2^bits` calls of `identifier.new` on one identifier, the strings returned are
pairwise distinct: each call returns a string that no earlier call returned.
The `k`-th call returns the decimal representation of the counter plus `k`,
wrapped to an `int`. The bound cannot be raised: every longer sequence returns
some string twice. -/
theorem identifier_new_returns_distinct (bits : Nat) (i : identifier) (n : Nat)
    (hn : n ≤ 2 ^ bits) :
    (i.newTimes bits n).1.Nodup
    ∧ (i.newTimes bits n).1
        = (List.range n).map (fun k : Nat => Itoa (wrapInt bits (i.i + 1 + (k : Int))))
    ∧ (∀ j k (hj : j < (i.newTimes bits n).1.length) (hk : k < (i.newTimes bits n).1.length),
        j < k → (i.newTimes bits n).1.get ⟨k, hk⟩ ≠ (i.newTimes bits n).1.get ⟨j, hj⟩)
    ∧ (∀ m, 2 ^ bits < m → ¬ (i.newTimes bits m).1.Nodup)
    ∧ (newIdentifier.newTimes 32 3).1 = ["1", "2", "3"]
    ∧ (newIdentifier.newTimes 64 3).1 = ["1", "2", "3"] := by
  have hnd : (i.newTimes bits n).1.Nodup := by
    rw [newTimes_eq]
    apply List.Nodup.map_on _ (List.nodup_range n)
    intro a ha b hb hab
    have ha' := List.mem_range.mp ha
    have hb' := List.mem_range.mp hb
    have hw := Itoa_injective hab
    have hpow : ((2 ^ bits : Nat) : Int) = (2 : Int) ^ bits := by push_cast; rfl
    have heq := wrapInt_inj bits _ _ hw (by
      rw [← hpow, abs_lt]
      constructor <;> omega)
    omega
  refine ⟨hnd, newTimes_eq bits n i, ?_, fun m hm => newTimes_not_nodup bits i m hm,
    by decide, by decide⟩
  intro j k hj hk hjk heq
  have := (List.Nodup.get_inj_iff hnd).mp heq
  have h2 := congrArg Fin.val this
  simp at h2
  omega

theorem identifier_new_returns_distinct_witness :
    3 ≤ 2 ^ 32
    ∧ (newIdentifier.newTimes 32 3).1.Nodup
    ∧ (newIdentifier.newTimes 32 3).1 = ["1", "2", "3"] :=
  ⟨by decide,
    (identifier_new_returns_distinct 32 newIdentifier 3 (by decide)).1,
    (identifier_new_returns_distinct 32 newIdentifier 3 (by decide)).2.2.2.2.1⟩

/-! ### writer.write -/

theorem uint8_ofNat_toNat (b : UInt8) : UInt8.ofNat b.toNat = b := by
  cases b with
  | mk bv =>
    show UInt8.mk (BitVec.ofNat 8 bv.toNat) = UInt8.mk bv
    rw [BitVec.ofNat_toNat, BitVec.setWidth_eq]

set_option maxRecDepth 100000 in
theorem escapeByte_no_newline_fin :
    ∀ x : Fin 256, (10 : UInt8) ∉ escapeByte (UInt8.ofNat x.val) := by
  decide

theorem escapeByte_no_newline (b : UInt8) : (10 : UInt8) ∉ escapeByte b := by
  have h := escapeByte_no_newline_fin ⟨b.toNat, UInt8.toNat_lt_size b⟩
  rw [uint8_ofNat_toNat] at h
  exact h

theorem jsonString_no_newline (s : String) : (10 : UInt8) ∉ jsonString s := by
  unfold jsonString
  intro h
  rw [List.mem_append, List.mem_append] at h
  rcases h with (h | h) | h
  · simp at h
  · obtain ⟨b, _, hb⟩ := List.mem_flatMap.mp h
    exact escapeByte_no_newline b hb
  · simp at h

theorem jsonMarshal_ok (e : Event) : ∃ b, jsonMarshal e = .ok b := ⟨_, rfl⟩

theorem jsonMarshal_no_newline (e : Event) (b : List UInt8) (h : jsonMarshal e = .ok b) :
    (10 : UInt8) ∉ b := by
  unfold jsonMarshal at h
  have hb := (Except.ok.inj h).symm
  rw [hb]
  intro hm
  simp only [List.mem_append] at hm
  rcases hm with ((((hm | hm) | hm) | hm) | hm) | hm
  · simp at hm
  · revert hm; decide
  · exact jsonString_no_newline _ hm
  · by_cases ht : e.TargetID = ""
    · rw [if_pos ht] at hm
      simp at hm
    · rw [if_neg ht, List.mem_append] at hm
      rcases hm with hm | hm
      · revert hm; decide
      · exact jsonString_no_newline _ hm
  · obtain ⟨kv, _, hkv⟩ := List.mem_flatMap.mp hm
    simp only [List.mem_append] at hkv
    rcases hkv with ((hkv | hkv) | hkv) | hkv
    · simp at hkv
    · exact jsonString_no_newline _ hkv
    · simp at hkv
    · exact jsonString_no_newline _ hkv
  · simp at hm

theorem write_ok_written (marshal : Event → Except String (List UInt8)) (w : writer) (e : Event)
    (b : List UInt8) (h : marshal e = .ok b) :
    (writer.write marshal w e).1.wc.written = w.wc.written ++ [b ++ [10]] := by
  unfold writer.write
  rw [h]
  simp only
  cases (w.wc.Write (b ++ [10])).2 <;> rfl

theorem count_newline_of_not_mem (b : List UInt8) (h : (10 : UInt8) ∉ b) :
    (b ++ [10]).count 10 = 1 := by
  rw [List.count_append, List.count_eq_zero_of_not_mem h]
  rfl

/-- C12. For every event whose JSON encoding succeeds, `writer.write` performs
exactly one `Write` call on the stream, with the encoding followed by exactly one
newline byte as its buffer (whatever the encoder); the JSON encoding of an event
contains no newline byte, so the newline that ends the buffer is the only one. -/
theorem write_emits_exactly_one_line :
    (∀ (marshal : Event → Except String (List UInt8)) (w : writer) (e : Event)
        (b : List UInt8), marshal e = .ok b →
        (writer.write marshal w e).1.wc.written = w.wc.written ++ [b ++ [10]]
        ∧ (b ++ [10]).getLast? = some 10
        ∧ (b ++ [10]).dropLast = b)
    ∧ (∀ (w : writer) (e : Event), ∃ b, jsonMarshal e = .ok b
        ∧ (writer.write jsonMarshal w e).1.wc.written = w.wc.written ++ [b ++ [10]]
        ∧ (10 : UInt8) ∉ b
        ∧ (b ++ [10]).count 10 = 1)
    ∧ (writer.write jsonMarshal World.init.w
          { Name := "a\nb", TargetID := "1", payload := [] }).1.wc.written
        = [bytesOf "\x7b\"name\":\"a\\nb\",\"targetID\":\"1\"\x7d\n"] := by
  refine ⟨?_, ?_, by decide⟩
  · intro marshal w e b h
    exact ⟨write_ok_written marshal w e b h, by simp, by simp⟩
  · intro w e
    obtain ⟨b, hb⟩ := jsonMarshal_ok e
    have hn := jsonMarshal_no_newline e b hb
    exact ⟨b, hb, write_ok_written jsonMarshal w e b hb, hn, count_newline_of_not_mem b hn⟩

/-- C13. `writer.write` returns a non-nil error if and only if the JSON
encoding of the event fails or the `Write` of the stream returns an error; when
the encoding fails, the writer is unchanged: nothing is written. -/
theorem write_error_iff_encoding_or_stream_fails
    (marshal : Event → Except String (List UInt8)) (w : writer) (e : Event) :
    ((writer.write marshal w e).2 ≠ none ↔
        ((∃ err, marshal e = .error err)
          ∨ (∃ b, marshal e = .ok b ∧ (w.wc.Write (b ++ [10])).2 ≠ none)))
    ∧ (∀ err, marshal e = .error err →
        (writer.write marshal w e).1 = w
        ∧ (writer.write marshal w e).1.wc.written = w.wc.written) := by
  constructor
  · unfold writer.write
    cases hm : marshal e with
    | error err => simp
    | ok b =>
      simp only
      cases hw : (w.wc.Write (b ++ [10])).2 with
      | none => simp [hw]
      | some err => simp [hw]
  · intro err hm
    unfold writer.write
    rw [hm]
    exact ⟨rfl, rfl⟩

/-! ### reader.read -/

theorem ReadBytes_line (l : List UInt8) (rest : List Item) (h : (10 : UInt8) ∉ l) :
    ReadBytes 10 (streamOf l ++ Item.byte 10 :: rest) = ((l ++ [10], none), rest) := by
  induction l with
  | nil => simp [streamOf, ReadBytes]
  | cons b bs ih =>
    have hb : b ≠ 10 := fun hb => h (by rw [hb]; exact List.mem_cons_self _ _)
    have hbs : (10 : UInt8) ∉ bs := fun hm => h (List.mem_cons_of_mem _ hm)
    have ih' := ih hbs
    show ReadBytes 10 (Item.byte b :: (streamOf bs ++ Item.byte 10 :: rest)) = _
    rw [ReadBytes, if_neg hb, ih']
    rfl

theorem ReadBytes_failed (p : List UInt8) (err : ReadErr) (rest : List Item)
    (h : (10 : UInt8) ∉ p) :
    ReadBytes 10 (streamOf p ++ Item.err err :: rest) = ((p, some err), rest) := by
  induction p with
  | nil => simp [streamOf, ReadBytes]
  | cons b bs ih =>
    have hb : b ≠ 10 := fun hb => h (by rw [hb]; exact List.mem_cons_self _ _)
    have hbs : (10 : UInt8) ∉ bs := fun hm => h (List.mem_cons_of_mem _ hm)
    have ih' := ih hbs
    show ReadBytes 10 (Item.byte b :: (streamOf bs ++ Item.err err :: rest)) = _
    rw [ReadBytes, if_neg hb, ih']

theorem ReadBytes_trailing (t : List UInt8) (h : (10 : UInt8) ∉ t) :
    ReadBytes 10 (streamOf t) = ((t, some ReadErr.EOF), []) := by
  induction t with
  | nil => simp [streamOf, ReadBytes]
  | cons b bs ih =>
    have hb : b ≠ 10 := fun hb => h (by rw [hb]; exact List.mem_cons_self _ _)
    have hbs : (10 : UInt8) ∉ bs := fun hm => h (List.mem_cons_of_mem _ hm)
    have ih' := ih hbs
    show ReadBytes 10 (Item.byte b :: streamOf bs) = _
    rw [ReadBytes, if_neg hb, ih']

theorem readLoop_succ (unmarshal : List UInt8 → Except String Event)
    (trimSpace : List UInt8 → List UInt8) (ctx : Context) (timeline : Nat → World)
    (fuel n : Nat) (items : List Item) (out : List Event) :
    readLoop unmarshal trimSpace ctx timeline (fuel + 1) n items out
      = if cancelledAt ctx timeline n then some { dispatched := out, rest := items }
        else
          match (ReadBytes 10 items).1.2 with
          | some err =>
            if !isEOFErr err then readLoop unmarshal trimSpace ctx timeline fuel (n + 1)
              (ReadBytes 10 items).2 out
            else some { dispatched := out, rest := (ReadBytes 10 items).2 }
          | none =>
            match unmarshal (trimSpace (ReadBytes 10 items).1.1) with
            | .error _ => readLoop unmarshal trimSpace ctx timeline fuel (n + 1)
                (ReadBytes 10 items).2 out
            | .ok e => readLoop unmarshal trimSpace ctx timeline fuel (n + 1)
                (ReadBytes 10 items).2 (out ++ [e]) := rfl

theorem readLoop_cancelled (unmarshal : List UInt8 → Except String Event)
    (trimSpace : List UInt8 → List UInt8) (ctx : Context) (timeline : Nat → World)
    (fuel n : Nat) (items : List Item) (out : List Event)
    (h : cancelledAt ctx timeline n = true) :
    readLoop unmarshal trimSpace ctx timeline (fuel + 1) n items out
      = some { dispatched := out, rest := items } := by
  rw [readLoop_succ, h]
  rfl

theorem readLoop_eof (unmarshal : List UInt8 → Except String Event)
    (trimSpace : List UInt8 → List UInt8) (ctx : Context) (timeline : Nat → World)
    (fuel n : Nat) (items : List Item) (out : List Event) (err : ReadErr)
    (hc : cancelledAt ctx timeline n = false)
    (hr : (ReadBytes 10 items).1.2 = some err) (he : isEOFErr err = true) :
    readLoop unmarshal trimSpace ctx timeline (fuel + 1) n items out
      = some { dispatched := out, rest := (ReadBytes 10 items).2 } := by
  rw [readLoop_succ, hc, hr]
  simp [he]

theorem Frame_items_ReadBytes (f : Frame) (rest : List Item) (h : f.WellFormed) :
    (∀ l, f = .line l → ReadBytes 10 (f.items ++ rest) = ((l ++ [10], none), rest))
    ∧ (∀ p err, f = .failed p err → ReadBytes 10 (f.items ++ rest) = ((p, some err), rest)) := by
  constructor
  · intro l hl
    subst hl
    show ReadBytes 10 ((streamOf l ++ [Item.byte 10]) ++ rest) = _
    rw [List.append_assoc]
    exact ReadBytes_line l rest h
  · intro p err hp
    subst hp
    show ReadBytes 10 ((streamOf p ++ [Item.err err]) ++ rest) = _
    rw [List.append_assoc]
    exact ReadBytes_failed p err rest h.1

/-- One iteration of the loop on a frame, when the context is not cancelled. -/
theorem readLoop_frame (unmarshal : List UInt8 → Except String Event)
    (trimSpace : List UInt8 → List UInt8) (ctx : Context) (timeline : Nat → World)
    (fuel n : Nat) (f : Frame) (rest : List Item) (out : List Event) (h : f.WellFormed)
    (hc : cancelledAt ctx timeline n = false) :
    readLoop unmarshal trimSpace ctx timeline (fuel + 1) n (f.items ++ rest) out
      = readLoop unmarshal trimSpace ctx timeline fuel (n + 1) rest
          (out ++ (f.event unmarshal trimSpace).toList) := by
  rw [readLoop_succ, hc]
  cases f with
  | line l =>
    rw [(Frame_items_ReadBytes (.line l) rest h).1 l rfl]
    simp only [Frame.event]
    cases hu : unmarshal (trimSpace (l ++ [10])) with
    | error msg => simp [Except.toOption]
    | ok e => simp [Except.toOption]
  | failed p err =>
    rw [(Frame_items_ReadBytes (.failed p err) rest h).2 p err rfl]
    simp [Frame.event, h.2]

theorem framesItems_cons (f : Frame) (fs : List Frame) :
    framesItems (f :: fs) = f.items ++ framesItems fs := by
  simp [framesItems]

/-- The loop on a stream of frames that ends with end-of-stream or a peer reset. -/
theorem readLoop_frames (unmarshal : List UInt8 → Except String Event)
    (trimSpace : List UInt8 → List UInt8) (ctx : Context) (timeline : Nat → World)
    (tl : List Item) (err : ReadErr) (hr : (ReadBytes 10 tl).1.2 = some err)
    (he : isEOFErr err = true) (fs : List Frame) :
    ∀ (fuel n : Nat) (out : List Event), (∀ f ∈ fs, f.WellFormed) →
      (∀ i, i ≤ fs.length → cancelledAt ctx timeline (n + i) = false) → fs.length < fuel →
      readLoop unmarshal trimSpace ctx timeline fuel n (framesItems fs ++ tl) out
        = some { dispatched := out ++ fs.filterMap (Frame.event unmarshal trimSpace),
                 rest := (ReadBytes 10 tl).2 } := by
  induction fs with
  | nil =>
    intro fuel n out _ hc hf
    obtain ⟨f', rfl⟩ : ∃ f', fuel = f' + 1 := ⟨fuel - 1, by simp at hf; omega⟩
    have := readLoop_eof unmarshal trimSpace ctx timeline f' n tl out err (hc 0 (le_refl _)) hr he
    simpa [framesItems] using this
  | cons f fs ih =>
    intro fuel n out hwf hc hf
    obtain ⟨f', rfl⟩ : ∃ f', fuel = f' + 1 := ⟨fuel - 1, by simp at hf; omega⟩
    rw [framesItems_cons, List.append_assoc,
      readLoop_frame unmarshal trimSpace ctx timeline f' n f _ out
        (hwf f (List.mem_cons_self _ _)) (hc 0 (Nat.zero_le _)),
      ih f' (n + 1) _ (fun g hg => hwf g (List.mem_cons_of_mem _ hg))
        (fun i hi => by
          have := hc (i + 1) (by simp; omega)
          rw [← this]
          congr 1
          omega)
        (by simp at hf; omega)]
    cases hev : f.event unmarshal trimSpace with
    | none => simp [List.filterMap_cons, hev]
    | some e => simp [List.filterMap_cons, hev]

/-- The loop returns at the first iteration that finds the context cancelled. -/
theorem readLoop_frames_cancelled (unmarshal : List UInt8 → Except String Event)
    (trimSpace : List UInt8 → List UInt8) (ctx : Context) (timeline : Nat → World)
    (tl : List Item) (fs : List Frame) :
    ∀ (j fuel n : Nat) (out : List Event), (∀ f ∈ fs, f.WellFormed) → j ≤ fs.length →
      (∀ i, i < j → cancelledAt ctx timeline (n + i) = false) →
      cancelledAt ctx timeline (n + j) = true → j < fuel →
      readLoop unmarshal trimSpace ctx timeline fuel n (framesItems fs ++ tl) out
        = some { dispatched := out ++ (fs.take j).filterMap (Frame.event unmarshal trimSpace),
                 rest := framesItems (fs.drop j) ++ tl } := by
  induction fs with
  | nil =>
    intro j fuel n out _ hj _ hcj hf
    have hj0 : j = 0 := by simpa using hj
    subst hj0
    obtain ⟨f', rfl⟩ : ∃ f', fuel = f' + 1 := ⟨fuel - 1, by omega⟩
    rw [Nat.add_zero] at hcj
    rw [readLoop_cancelled _ _ _ _ _ _ _ _ hcj]
    simp
  | cons f fs ih =>
    intro j fuel n out hwf hj hc hcj hf
    obtain ⟨f', rfl⟩ : ∃ f', fuel = f' + 1 := ⟨fuel - 1, by omega⟩
    cases j with
    | zero =>
      rw [Nat.add_zero] at hcj
      rw [readLoop_cancelled _ _ _ _ _ _ _ _ hcj]
      simp
    | succ j =>
      rw [framesItems_cons, List.append_assoc,
        readLoop_frame unmarshal trimSpace ctx timeline f' n f _ out
          (hwf f (List.mem_cons_self _ _)) (hc 0 (Nat.succ_pos _)),
        ih j f' (n + 1) _ (fun g hg => hwf g (List.mem_cons_of_mem _ hg))
          (by simpa using hj)
          (fun i hi => by
            have := hc (i + 1) (by omega)
            rw [← this]
            congr 1
            omega)
          (by rw [← hcj]; congr 1; omega)
          (by omega)]
      cases hev : f.event unmarshal trimSpace with
      | none => simp [List.filterMap_cons, hev]
      | some e => simp [List.filterMap_cons, hev]

theorem framesItems_length (fs : List Frame) : fs.length ≤ (framesItems fs).length := by
  induction fs with
  | nil => simp [framesItems]
  | cons f fs ih =>
    rw [framesItems_cons, List.length_append, List.length_cons]
    have : 1 ≤ f.items.length := by
      cases f <;> simp [Frame.items]
    omega

theorem streamOf_append (a b : List UInt8) : streamOf (a ++ b) = streamOf a ++ streamOf b := by
  simp [streamOf]

theorem framesItems_append (fs gs : List Frame) :
    framesItems (fs ++ gs) = framesItems fs ++ framesItems gs := by
  simp [framesItems]

theorem framesItems_lines (lines : List (List UInt8)) :
    framesItems (lines.map Frame.line) = streamOf (lines.flatMap (fun l => l ++ [10])) := by
  induction lines with
  | nil => rfl
  | cons l ls ih =>
    rw [List.map_cons, framesItems_cons, ih, List.flatMap_cons, streamOf_append]
    simp [Frame.items, streamOf]

theorem filterMap_event_lines (unmarshal : List UInt8 → Except String Event)
    (trimSpace : List UInt8 → List UInt8) (lines : List (List UInt8)) :
    (lines.map Frame.line).filterMap (Frame.event unmarshal trimSpace)
      = lines.filterMap (fun l => (unmarshal (trimSpace (l ++ [10]))).toOption) := by
  induction lines with
  | nil => rfl
  | cons l ls ih =>
    rw [List.map_cons, List.filterMap_cons, List.filterMap_cons, ih]
    rfl

/-- The run of `read` on a stream of frames that ends with end-of-stream or a
peer reset, when the context is never cancelled. -/
theorem read_frames (unmarshal : List UInt8 → Except String Event)
    (trimSpace : List UInt8 → List UInt8) (ctx : Context) (timeline : Nat → World)
    (fs : List Frame) (tl : List Item) (err : ReadErr)
    (hr : (ReadBytes 10 tl).1.2 = some err) (he : isEOFErr err = true)
    (hwf : ∀ f ∈ fs, f.WellFormed)
    (hc : ∀ i, i ≤ fs.length → cancelledAt ctx timeline i = false) :
    reader.read unmarshal trimSpace { ctx := ctx, rc := framesItems fs ++ tl } timeline
      = some { dispatched := fs.filterMap (Frame.event unmarshal trimSpace),
               rest := (ReadBytes 10 tl).2 } := by
  have h := readLoop_frames unmarshal trimSpace ctx timeline tl err hr he fs
    ((framesItems fs ++ tl).length + 1) 0 [] hwf
    (fun i hi => by rw [Nat.zero_add]; exact hc i hi)
    (by
      have := framesItems_length fs
      rw [List.length_append]
      omega)
  simpa [reader.read] using h

/-- The run of `read` when the context is found cancelled at the start of iteration `j`. -/
theorem read_frames_cancelled (unmarshal : List UInt8 → Except String Event)
    (trimSpace : List UInt8 → List UInt8) (ctx : Context) (timeline : Nat → World)
    (fs : List Frame) (tl : List Item) (j : Nat)
    (hwf : ∀ f ∈ fs, f.WellFormed) (hj : j ≤ fs.length)
    (hc : ∀ i, i < j → cancelledAt ctx timeline i = false)
    (hcj : cancelledAt ctx timeline j = true) :
    reader.read unmarshal trimSpace { ctx := ctx, rc := framesItems fs ++ tl } timeline
      = some { dispatched := (fs.take j).filterMap (Frame.event unmarshal trimSpace),
               rest := framesItems (fs.drop j) ++ tl } := by
  have h := readLoop_frames_cancelled unmarshal trimSpace ctx timeline tl fs j
    ((framesItems fs ++ tl).length + 1) 0 [] hwf hj
    (fun i hi => by rw [Nat.zero_add]; exact hc i hi)
    (by rw [Nat.zero_add]; exact hcj)
    (by
      have := framesItems_length fs
      rw [List.length_append]
      omega)
  simpa [reader.read] using h

theorem ReadBytes_trailing_eof (t : List UInt8) (h : (10 : UInt8) ∉ t) :
    (ReadBytes 10 (streamOf t)).1.2 = some ReadErr.EOF ∧ (ReadBytes 10 (streamOf t)).2 = [] := by
  rw [ReadBytes_trailing t h]
  exact ⟨rfl, rfl⟩

theorem isEOFErr_EOF : isEOFErr ReadErr.EOF = true := by
  simp [isEOFErr]

theorem ReadBytes_rest_length (delim : UInt8) (items : List Item) :
    (ReadBytes delim items).2.length ≤ items.length - 1 := by
  induction items with
  | nil => simp [ReadBytes]
  | cons it rest ih =>
    cases it with
    | err e => simp [ReadBytes]
    | byte b =>
      rw [ReadBytes]
      by_cases hb : b = delim
      · simp [hb]
      · rw [if_neg hb]
        simp only [List.length_cons, Nat.add_sub_cancel]
        omega

/-- The loop returns within one iteration more than the stream has items. -/
theorem readLoop_isSome (unmarshal : List UInt8 → Except String Event)
    (trimSpace : List UInt8 → List UInt8) (ctx : Context) (timeline : Nat → World) :
    ∀ (fuel n : Nat) (items : List Item) (out : List Event), items.length < fuel →
      (readLoop unmarshal trimSpace ctx timeline fuel n items out).isSome = true := by
  intro fuel
  induction fuel with
  | zero => intro n items out h; omega
  | succ fuel ih =>
    intro n items out h
    rw [readLoop_succ]
    by_cases hc : cancelledAt ctx timeline n = true
    · rw [if_pos hc]; rfl
    · rw [if_neg hc]
      have hlen := ReadBytes_rest_length 10 items
      cases hitems : items with
      | nil => simp [ReadBytes, isEOFErr]
      | cons it rest =>
        have hlt : (ReadBytes 10 (it :: rest)).2.length < fuel := by
          rw [hitems] at hlen h
          simp only [List.length_cons, Nat.add_sub_cancel] at hlen h
          omega
        cases hr : (ReadBytes 10 (it :: rest)).1.2 with
        | some err =>
          simp only []
          by_cases he : isEOFErr err = true
          · simp [he]
          · simp only [he]
            exact ih _ _ _ hlt
        | none =>
          simp only []
          cases hu : unmarshal (trimSpace (ReadBytes 10 (it :: rest)).1.1) with
          | error msg => exact ih _ _ _ hlt
          | ok e => exact ih _ _ _ hlt

/-- The method `read` returns on every stream, whatever the context does. -/
theorem read_isSome (unmarshal : List UInt8 → Except String Event)
    (trimSpace : List UInt8 → List UInt8) (r : reader) (timeline : Nat → World) :
    (reader.read unmarshal trimSpace r timeline).isSome = true :=
  readLoop_isSome unmarshal trimSpace r.ctx timeline _ 0 r.rc [] (Nat.lt_succ_self _)

theorem cancelledAt_background (timeline : Nat → World) (n : Nat) :
    cancelledAt [] timeline n = false := rfl

/-! ### The codec of the wire format -/

theorem toOption_eq_some {α : Type} (x : Except String α) (a : α) (h : x.toOption = some a) :
    x = .ok a := by
  cases x with
  | error msg => simp [Except.toOption] at h
  | ok b =>
    simp only [Except.toOption, Option.some.injEq] at h
    rw [h]

/-- C15. On a stream made of newline-terminated lines followed by trailing bytes
without a newline and then end-of-stream, with a context that is never
cancelled, `reader.read` returns, having handed the dispatcher exactly the
events that the lines parse to after trimming, one per parsable line, in stream
order; the trailing bytes are consumed and dispatch nothing. For the line
`{"name":"x","targetID":"1"}` followed by any 5 bytes that are not a newline,
exactly the event `x` for target `1` is dispatched. -/
theorem read_dispatches_one_event_per_parsable_line
    (unmarshal : List UInt8 → Except String Event) (trimSpace : List UInt8 → List UInt8)
    (ctx : Context) (timeline : Nat → World) (lines : List (List UInt8)) (trailing : List UInt8)
    (hl : ∀ l ∈ lines, (10 : UInt8) ∉ l) (ht : (10 : UInt8) ∉ trailing)
    (hc : ∀ n, cancelledAt ctx timeline n = false) :
    reader.read unmarshal trimSpace
        { ctx := ctx, rc := streamOf (lines.flatMap (fun l => l ++ [10]) ++ trailing) } timeline
      = some { dispatched :=
                 lines.filterMap (fun l => (unmarshal (trimSpace (l ++ [10]))).toOption),
               rest := [] }
    ∧ (∀ g : List UInt8, g.length = 5 → (10 : UInt8) ∉ g →
        (readScenario (bytesOf "\x7b\"name\":\"x\",\"targetID\":\"1\"\x7d\n" ++ g)).map
          (fun r => (r.dispatched, r.rest)) = some ([xEvent], [])) := by
  have main : ∀ (um : List UInt8 → Except String Event) (ts : List UInt8 → List UInt8)
      (c : Context) (tm : Nat → World) (ls : List (List UInt8)) (tr : List UInt8),
      (∀ l ∈ ls, (10 : UInt8) ∉ l) → (10 : UInt8) ∉ tr → (∀ n, cancelledAt c tm n = false) →
      reader.read um ts { ctx := c, rc := streamOf (ls.flatMap (fun l => l ++ [10]) ++ tr) } tm
        = some { dispatched := ls.filterMap (fun l => (um (ts (l ++ [10]))).toOption),
                 rest := [] } := by
    intro um ts c tm ls tr hls htr hcc
    have hwf : ∀ f ∈ ls.map Frame.line, f.WellFormed := by
      intro f hf
      obtain ⟨l, hl', rfl⟩ := List.mem_map.mp hf
      exact hls l hl'
    have h := read_frames um ts c tm (ls.map Frame.line) (streamOf tr) ReadErr.EOF
      (ReadBytes_trailing_eof tr htr).1 isEOFErr_EOF hwf (fun i _ => hcc i)
    rw [framesItems_lines, ← streamOf_append, filterMap_event_lines,
      (ReadBytes_trailing_eof tr htr).2] at h
    exact h
  refine ⟨main unmarshal trimSpace ctx timeline lines trailing hl ht hc, ?_⟩
  intro g _ hg
  have hb : bytesOf "\x7b\"name\":\"x\",\"targetID\":\"1\"\x7d\n"
      = [bytesOf "\x7b\"name\":\"x\",\"targetID\":\"1\"\x7d"].flatMap (fun l => l ++ [10]) := by
    decide
  have h := main jsonUnmarshal trimSpaceAscii [] (fun _ => World.init)
    [bytesOf "\x7b\"name\":\"x\",\"targetID\":\"1\"\x7d"] g (by decide) hg (fun _ => rfl)
  rw [readScenario, hb, h]
  decide

theorem read_dispatches_one_event_per_parsable_line_witness :
    (∀ l ∈ [bytesOf "\x7b\"name\":\"x\",\"targetID\":\"1\"\x7d"], (10 : UInt8) ∉ l)
    ∧ (10 : UInt8) ∉ [1, 2, 3, 4, (5 : UInt8)]
    ∧ (∀ n, cancelledAt [] (fun _ => World.init) n = false)
    ∧ reader.read jsonUnmarshal trimSpaceAscii
        { ctx := [],
          rc := streamOf ([bytesOf "\x7b\"name\":\"x\",\"targetID\":\"1\"\x7d"].flatMap
            (fun l => l ++ [10]) ++ [1, 2, 3, 4, 5]) } (fun _ => World.init)
      = some { dispatched :=
                 [bytesOf "\x7b\"name\":\"x\",\"targetID\":\"1\"\x7d"].filterMap
                   (fun l => (jsonUnmarshal (trimSpaceAscii (l ++ [10]))).toOption),
               rest := [] }
    ∧ [bytesOf "\x7b\"name\":\"x\",\"targetID\":\"1\"\x7d"].filterMap
          (fun l => (jsonUnmarshal (trimSpaceAscii (l ++ [10]))).toOption) = [xEvent] :=
  ⟨by decide, by decide, fun _ => rfl,
    (read_dispatches_one_event_per_parsable_line jsonUnmarshal trimSpaceAscii []
      (fun _ => World.init) [bytesOf "\x7b\"name\":\"x\",\"targetID\":\"1\"\x7d"] [1, 2, 3, 4, 5]
      (by decide) (by decide) (fun _ => rfl)).1,
    by decide⟩

theorem wellFormed_append (fs gs : List Frame) (hf : ∀ f ∈ fs, f.WellFormed)
    (hg : ∀ f ∈ gs, f.WellFormed) : ∀ f ∈ fs ++ gs, f.WellFormed := by
  intro f hmem
  rcases List.mem_append.mp hmem with h | h
  · exact hf f h
  · exact hg f h

/-- C16. A malformed frame is dropped and is not fatal. The stream is made of
frames (lines, or reads that fail with a transient error), among them the
newline-terminated line `bad` that does not parse, and ends with trailing bytes
and end-of-stream; the context is never cancelled. Then `reader.read` returns
having dispatched the events of the frames before `bad` followed by the events
of the frames after it: `bad` dispatches nothing (the result is the one of the
stream without it) and every line after it that parses is dispatched. -/
theorem read_drops_malformed_line
    (unmarshal : List UInt8 → Except String Event) (trimSpace : List UInt8 → List UInt8)
    (ctx : Context) (timeline : Nat → World) (before after : List Frame)
    (bad trailing : List UInt8)
    (hb : ∀ f ∈ before, f.WellFormed) (ha : ∀ f ∈ after, f.WellFormed)
    (hbad : (10 : UInt8) ∉ bad) (ht : (10 : UInt8) ∉ trailing)
    (hu : (unmarshal (trimSpace (bad ++ [10]))).toOption = none)
    (hc : ∀ n, cancelledAt ctx timeline n = false) :
    reader.read unmarshal trimSpace
        { ctx := ctx,
          rc := framesItems before ++ (streamOf (bad ++ [10])
                  ++ (framesItems after ++ streamOf trailing)) } timeline
      = some { dispatched := before.filterMap (Frame.event unmarshal trimSpace)
                 ++ after.filterMap (Frame.event unmarshal trimSpace),
               rest := [] }
    ∧ reader.read unmarshal trimSpace
        { ctx := ctx, rc := framesItems before ++ (framesItems after ++ streamOf trailing) }
        timeline
      = some { dispatched := before.filterMap (Frame.event unmarshal trimSpace)
                 ++ after.filterMap (Frame.event unmarshal trimSpace),
               rest := [] }
    ∧ (∀ l e, Frame.line l ∈ after → unmarshal (trimSpace (l ++ [10])) = .ok e →
        ∃ r, reader.read unmarshal trimSpace
              { ctx := ctx,
                rc := framesItems before ++ (streamOf (bad ++ [10])
                        ++ (framesItems after ++ streamOf trailing)) } timeline = some r
          ∧ e ∈ r.dispatched) := by
  have hwfbad : ∀ f ∈ [Frame.line bad], f.WellFormed := by
    intro f hf
    rw [List.mem_singleton] at hf
    subst hf
    exact hbad
  have hwf1 := wellFormed_append before ([Frame.line bad] ++ after) hb
    (wellFormed_append _ after hwfbad ha)
  have hwf2 := wellFormed_append before after hb ha
  have hs : framesItems before ++ (streamOf (bad ++ [10])
      ++ (framesItems after ++ streamOf trailing))
      = framesItems (before ++ ([Frame.line bad] ++ after)) ++ streamOf trailing := by
    rw [framesItems_append, framesItems_append]
    simp [framesItems, Frame.items, streamOf]
  have hs2 : framesItems before ++ (framesItems after ++ streamOf trailing)
      = framesItems (before ++ after) ++ streamOf trailing := by
    rw [framesItems_append, List.append_assoc]
  have hev : (before ++ ([Frame.line bad] ++ after)).filterMap (Frame.event unmarshal trimSpace)
      = before.filterMap (Frame.event unmarshal trimSpace)
        ++ after.filterMap (Frame.event unmarshal trimSpace) := by
    rw [List.filterMap_append, List.filterMap_append]
    simp [Frame.event, hu]
  have h1 := read_frames unmarshal trimSpace ctx timeline (before ++ ([Frame.line bad] ++ after))
    (streamOf trailing) ReadErr.EOF (ReadBytes_trailing_eof trailing ht).1 isEOFErr_EOF hwf1
    (fun i _ => hc i)
  have h2 := read_frames unmarshal trimSpace ctx timeline (before ++ after)
    (streamOf trailing) ReadErr.EOF (ReadBytes_trailing_eof trailing ht).1 isEOFErr_EOF hwf2
    (fun i _ => hc i)
  rw [(ReadBytes_trailing_eof trailing ht).2, hev] at h1
  rw [(ReadBytes_trailing_eof trailing ht).2, List.filterMap_append] at h2
  rw [hs, hs2]
  refine ⟨h1, h2, ?_⟩
  intro l e hl he
  refine ⟨_, h1, ?_⟩
  apply List.mem_append_right
  rw [List.mem_filterMap]
  exact ⟨Frame.line l, hl, by simp [Frame.event, he, Except.toOption]⟩

theorem read_drops_malformed_line_witness :
    (∀ f ∈ ([] : List Frame), f.WellFormed)
    ∧ (∀ f ∈ [Frame.line (bytesOf "\x7b\"name\":\"x\",\"targetID\":\"1\"\x7d")], f.WellFormed)
    ∧ (10 : UInt8) ∉ bytesOf "\x7b\"name\":"
    ∧ (10 : UInt8) ∉ ([] : List UInt8)
    ∧ (jsonUnmarshal (trimSpaceAscii (bytesOf "\x7b\"name\":" ++ [10]))).toOption = none
    ∧ (∀ n, cancelledAt [] (fun _ => World.init) n = false)
    ∧ reader.read jsonUnmarshal trimSpaceAscii
        { ctx := [],
          rc := framesItems [] ++ (streamOf (bytesOf "\x7b\"name\":" ++ [10])
                  ++ (framesItems [Frame.line (bytesOf "\x7b\"name\":\"x\",\"targetID\":\"1\"\x7d")]
                      ++ streamOf [])) } (fun _ => World.init)
      = some { dispatched := ([] : List Frame).filterMap (Frame.event jsonUnmarshal trimSpaceAscii)
                 ++ [Frame.line (bytesOf "\x7b\"name\":\"x\",\"targetID\":\"1\"\x7d")].filterMap
                      (Frame.event jsonUnmarshal trimSpaceAscii),
               rest := [] }
    ∧ [Frame.line (bytesOf "\x7b\"name\":\"x\",\"targetID\":\"1\"\x7d")].filterMap
          (Frame.event jsonUnmarshal trimSpaceAscii) = [xEvent] :=
  have hwf : ∀ f ∈ [Frame.line (bytesOf "\x7b\"name\":\"x\",\"targetID\":\"1\"\x7d")],
      f.WellFormed := by
    intro f hf
    rw [List.mem_singleton] at hf
    subst hf
    show (10 : UInt8) ∉ bytesOf "\x7b\"name\":\"x\",\"targetID\":\"1\"\x7d"
    decide
  ⟨fun _ h => absurd h (List.not_mem_nil _), hwf, by decide, by decide, by decide,
    fun _ => rfl,
    (read_drops_malformed_line jsonUnmarshal trimSpaceAscii [] (fun _ => World.init) []
      [Frame.line (bytesOf "\x7b\"name\":\"x\",\"targetID\":\"1\"\x7d")] (bytesOf "\x7b\"name\":") []
      (fun _ h => absurd h (List.not_mem_nil _)) hwf (by decide) (by decide) (by decide)
      (fun _ => rfl)).1,
    by decide⟩

theorem isEOFErr_iff (err : ReadErr) :
    isEOFErr err = true
      ↔ (err = .EOF ∨ "wsarecv:".data <:+: err.Error.data.map Char.toLower) := by
  simp [isEOFErr]

/-- C17. `isEOFErr(err)` holds iff `err` is `io.EOF` or its message, lower-cased,
contains `wsarecv:`. With a context that is not cancelled: a read error for
which `isEOFErr` holds makes `read` return, what follows it in the stream stays
unread and undispatched; a read error for which it does not hold leaves the loop
running, the lines readable afterwards are dispatched. When the context is
found cancelled at the start of iteration `j`, `read` returns with the events of
the first `j` frames only and reads nothing more; cancelled at the start, it
returns with nothing read or dispatched. In every case `read` returns. -/
theorem read_stops_exactly_on_eof_like_error :
    (∀ err : ReadErr, isEOFErr err = true
        ↔ (err = .EOF ∨ "wsarecv:".data <:+: err.Error.data.map Char.toLower))
    ∧ (∀ (unmarshal : List UInt8 → Except String Event) (trimSpace : List UInt8 → List UInt8)
        (ctx : Context) (timeline : Nat → World) (fs : List Frame) (p : List UInt8)
        (err : ReadErr) (rest : List Item),
        (∀ f ∈ fs, f.WellFormed) → (10 : UInt8) ∉ p → isEOFErr err = true →
        (∀ n, cancelledAt ctx timeline n = false) →
        reader.read unmarshal trimSpace
            { ctx := ctx, rc := framesItems fs ++ (streamOf p ++ Item.err err :: rest) } timeline
          = some { dispatched := fs.filterMap (Frame.event unmarshal trimSpace), rest := rest })
    ∧ (∀ (unmarshal : List UInt8 → Except String Event) (trimSpace : List UInt8 → List UInt8)
        (ctx : Context) (timeline : Nat → World) (fs gs : List Frame) (p trailing : List UInt8)
        (err : ReadErr),
        (∀ f ∈ fs, f.WellFormed) → (∀ f ∈ gs, f.WellFormed) → (10 : UInt8) ∉ p →
        (10 : UInt8) ∉ trailing → isEOFErr err = false →
        (∀ n, cancelledAt ctx timeline n = false) →
        reader.read unmarshal trimSpace
            { ctx := ctx,
              rc := framesItems fs ++ (streamOf p ++ Item.err err ::
                      (framesItems gs ++ streamOf trailing)) } timeline
          = some { dispatched := fs.filterMap (Frame.event unmarshal trimSpace)
                     ++ gs.filterMap (Frame.event unmarshal trimSpace),
                   rest := [] })
    ∧ (∀ (unmarshal : List UInt8 → Except String Event) (trimSpace : List UInt8 → List UInt8)
        (ctx : Context) (timeline : Nat → World) (fs : List Frame) (tl : List Item) (j : Nat),
        (∀ f ∈ fs, f.WellFormed) → j ≤ fs.length →
        (∀ i, i < j → cancelledAt ctx timeline i = false) → cancelledAt ctx timeline j = true →
        reader.read unmarshal trimSpace { ctx := ctx, rc := framesItems fs ++ tl } timeline
          = some { dispatched := (fs.take j).filterMap (Frame.event unmarshal trimSpace),
                   rest := framesItems (fs.drop j) ++ tl })
    ∧ (∀ (unmarshal : List UInt8 → Except String Event) (trimSpace : List UInt8 → List UInt8)
        (r : reader) (timeline : Nat → World), cancelledAt r.ctx timeline 0 = true →
        reader.read unmarshal trimSpace r timeline = some { dispatched := [], rest := r.rc })
    ∧ (∀ (unmarshal : List UInt8 → Except String Event) (trimSpace : List UInt8 → List UInt8)
        (r : reader) (timeline : Nat → World),
        (reader.read unmarshal trimSpace r timeline).isSome = true)
    ∧ isEOFErr (.other "read tcp 127.0.0.1:5000: WSARecv: connection forcibly closed") = true
    ∧ isEOFErr (.other "EOF") = false
    ∧ isEOFErr (.other "i/o timeout") = false
    ∧ (reader.read jsonUnmarshal trimSpaceAscii
          { ctx := [],
            rc := [Item.err (.other "wsarecv: reset")]
                    ++ streamOf (bytesOf "\x7b\"name\":\"x\",\"targetID\":\"1\"\x7d\n") }
          (fun _ => World.init)).map (fun r => (r.dispatched, r.rest))
        = some ([], streamOf (bytesOf "\x7b\"name\":\"x\",\"targetID\":\"1\"\x7d\n"))
    ∧ (reader.read jsonUnmarshal trimSpaceAscii
          { ctx := [],
            rc := [Item.err (.other "i/o timeout")]
                    ++ streamOf (bytesOf "\x7b\"name\":\"x\",\"targetID\":\"1\"\x7d\n") }
          (fun _ => World.init)).map (fun r => (r.dispatched, r.rest))
        = some ([xEvent], [])
    ∧ (reader.read jsonUnmarshal trimSpaceAscii
          { ctx := [0], rc := streamOf (bytesOf "\x7b\"name\":\"x\",\"targetID\":\"1\"\x7d\n") }
          (fun _ => cancelFunc 0 World.init)).map (fun r => (r.dispatched, r.rest))
        = some ([], streamOf (bytesOf "\x7b\"name\":\"x\",\"targetID\":\"1\"\x7d\n")) := by
  refine ⟨isEOFErr_iff, ?_, ?_, ?_, ?_, read_isSome, by decide, by decide, by decide,
    by decide, by decide, by decide⟩
  · intro unmarshal trimSpace ctx timeline fs p err rest hwf hp he hc
    have h := read_frames unmarshal trimSpace ctx timeline fs (streamOf p ++ Item.err err :: rest)
      err (by rw [ReadBytes_failed p err rest hp]) he hwf (fun i _ => hc i)
    rw [ReadBytes_failed p err rest hp] at h
    exact h
  · intro unmarshal trimSpace ctx timeline fs gs p trailing err hf hg hp ht he hc
    have hwfp : ∀ f ∈ [Frame.failed p err], f.WellFormed := by
      intro f hmem
      rw [List.mem_singleton] at hmem
      subst hmem
      exact ⟨hp, he⟩
    have hwf := wellFormed_append fs ([Frame.failed p err] ++ gs) hf
      (wellFormed_append _ gs hwfp hg)
    have hs : framesItems fs ++ (streamOf p ++ Item.err err ::
        (framesItems gs ++ streamOf trailing))
        = framesItems (fs ++ ([Frame.failed p err] ++ gs)) ++ streamOf trailing := by
      rw [framesItems_append, framesItems_append]
      simp [framesItems, Frame.items]
    have h := read_frames unmarshal trimSpace ctx timeline (fs ++ ([Frame.failed p err] ++ gs))
      (streamOf trailing) ReadErr.EOF (ReadBytes_trailing_eof trailing ht).1 isEOFErr_EOF hwf
      (fun i _ => hc i)
    rw [(ReadBytes_trailing_eof trailing ht).2, List.filterMap_append,
      List.filterMap_append] at h
    rw [hs, h]
    simp [Frame.event]
  · intro unmarshal trimSpace ctx timeline fs tl j hwf hj hc hcj
    exact read_frames_cancelled unmarshal trimSpace ctx timeline fs tl j hwf hj hc hcj
  · intro unmarshal trimSpace r timeline hc
    exact readLoop_cancelled unmarshal trimSpace r.ctx timeline _ 0 r.rc [] hc

/-! ### One-shot listeners -/

theorem runSchedule_looping (e : Event) (todo : List (Sigma fun _ : Int => Listener)) :
    ∀ s : World, runSchedule (List.replicate (todo.length + 1) 0) s [.looping e todo]
      = (todo.foldl (fun s kv => invoke e s kv.1 kv.2) s, [.finished]) := by
  induction todo with
  | nil => intro s; rfl
  | cons kv rest ih =>
    intro s
    rw [List.length_cons, List.replicate_succ, runSchedule]
    simp only [List.get?_cons_zero, Goroutine.step, List.set_cons_zero]
    exact ih _

/-- A goroutine of `dispatch` that runs alone does what `dispatch` does. -/
theorem runSchedule_alone (s : World) (e : Event) :
    runSchedule (List.replicate ((listeners s.d e.TargetID e.Name).entries.length + 2) 0) s
        [.started e]
      = (dispatch s e, [.finished]) := by
  rw [List.replicate_succ, runSchedule]
  simp only [List.get?_cons_zero, Goroutine.step, List.set_cons_zero]
  exact runSchedule_looping e _ s

theorem invocations_append (t n : String) (id : Int) (xs ys : List (Int × Event)) :
    invocations t n id (xs ++ ys) = invocations t n id xs + invocations t n id ys := by
  simp [invocations, List.filter_append]

theorem invocations_nil (t n : String) (id : Int) : invocations t n id [] = 0 := rfl

theorem invocations_map_other (t n : String) (id : Int) (e : Event) (ks : List Int)
    (h : ¬ (e.TargetID = t ∧ e.Name = n)) :
    invocations t n id (ks.map (fun k => (k, e))) = 0 := by
  unfold invocations
  rw [List.length_eq_zero, List.filter_eq_nil_iff]
  intro c hc
  obtain ⟨k, _, rfl⟩ := List.mem_map.mp hc
  simp only [decide_eq_true_eq, not_and]
  intro _ ht hn
  exact h ⟨ht, hn⟩

theorem invocations_map_not_mem (t n : String) (id : Int) (e : Event) (ks : List Int)
    (h : id ∉ ks) : invocations t n id (ks.map (fun k => (k, e))) = 0 := by
  unfold invocations
  rw [List.length_eq_zero, List.filter_eq_nil_iff]
  intro c hc
  obtain ⟨k, hk, rfl⟩ := List.mem_map.mp hc
  simp only [decide_eq_true_eq, not_and]
  intro hkid
  exact absurd (hkid ▸ hk) h

theorem invocations_map_mem (t n : String) (id : Int) (e : Event) (ks : List Int)
    (ht : e.TargetID = t) (hn : e.Name = n) (hnd : ks.Nodup) (h : id ∈ ks) :
    invocations t n id (ks.map (fun k => (k, e))) = 1 := by
  induction ks with
  | nil => simp at h
  | cons a as ih =>
    rw [List.nodup_cons] at hnd
    rw [List.map_cons]
    have hsplit : (a, e) :: as.map (fun k => (k, e)) = [(a, e)] ++ as.map (fun k => (k, e)) := rfl
    rw [hsplit, invocations_append]
    by_cases ha : a = id
    · subst ha
      rw [invocations_map_not_mem t n a e as hnd.1]
      simp [invocations, ht, hn]
    · have hin : id ∈ as := by
        rcases List.mem_cons.mp h with h | h
        · exact absurd h.symm ha
        · exact h
      rw [ih hnd.2 hin]
      simp [invocations, ha]

theorem gone_addListener (t n : String) (id : Int) (d : dispatcher) (t' n' : String)
    (l' : Listener) (h : Gone t n id d) : Gone t n id (addListener d t' n' l') := by
  refine ⟨by rw [addListener_id]; have := h.1; omega, ?_⟩
  rw [lookupListener_addListener]
  have hne : ¬ (t, n, id) = (t', n', d.id + 1) := by
    intro heq
    have := (Prod.mk.inj (Prod.mk.inj heq).2).2
    have := h.1
    omega
  rw [if_neg hne]
  exact h.2

theorem gone_delListener (t n : String) (id : Int) (d : dispatcher) (t' n' : String)
    (id' : Int) (h : Gone t n id d) : Gone t n id (delListener d t' n' id') := by
  refine ⟨by rw [delListener_id]; exact h.1, ?_⟩
  rw [lookupListener_delListener]
  by_cases hc : (t, n, id) = (t', n', id')
  · rw [if_pos hc]
  · rw [if_neg hc]
    exact h.2

theorem sameOrGone_addListener (t n : String) (id : Int) (l : Listener) (d : dispatcher)
    (t' n' : String) (l' : Listener) (h : SameOrGone t n id l d) :
    SameOrGone t n id l (addListener d t' n' l') := by
  refine ⟨by rw [addListener_id]; have := h.1; omega, ?_⟩
  rw [lookupListener_addListener]
  have hne : ¬ (t, n, id) = (t', n', d.id + 1) := by
    intro heq
    have := (Prod.mk.inj (Prod.mk.inj heq).2).2
    have := h.1
    omega
  rw [if_neg hne]
  exact h.2

theorem sameOrGone_delListener (t n : String) (id : Int) (l : Listener) (d : dispatcher)
    (t' n' : String) (id' : Int) (h : SameOrGone t n id l d) :
    SameOrGone t n id l (delListener d t' n' id') := by
  refine ⟨by rw [delListener_id]; exact h.1, ?_⟩
  rw [lookupListener_delListener]
  by_cases hc : (t, n, id) = (t', n', id')
  · rw [if_pos hc]
    exact Or.inr rfl
  · rw [if_neg hc]
    exact h.2

theorem handedOut_addListener (id : Int) (d : dispatcher) (t' n' : String) (l' : Listener)
    (h : id ≤ d.id) : id ≤ (addListener d t' n' l').id := by
  rw [addListener_id]
  omega

theorem handedOut_delListener (id : Int) (d : dispatcher) (t' n' : String) (id' : Int)
    (h : id ≤ d.id) : id ≤ (delListener d t' n' id').id := by
  rw [delListener_id]
  exact h

/-- Invoking a listener that asks for its removal leaves its id out of the bucket. -/
theorem invoke_one_shot_gone (e : Event) (s : World) (id : Int) (l : Listener)
    (hid : id ≤ s.d.id) (hone : (l e).2 = true) :
    Gone e.TargetID e.Name id (invoke e s id l).d := by
  unfold invoke
  have h1 : id ≤ ((l e).1.foldl applyEffect { s with calls := s.calls ++ [(id, e)] }).d.id :=
    foldl_applyEffect_preserves (fun d => id ≤ d.id)
      (fun d t n l' h => handedOut_addListener id d t n l' h)
      (fun d t n id' h => handedOut_delListener id d t n id' h) _ _ hid
  simp only [hone, if_true]
  refine ⟨by rw [delListener_id]; exact h1, ?_⟩
  rw [lookupListener_delListener, if_pos rfl]

/-- The loop of `dispatch` over entries among which is a listener that asks for
its removal, or from a registry that no longer holds it: it is gone afterwards. -/
theorem foldl_invoke_one_shot_gone (e : Event) (id : Int) (l : Listener)
    (hone : (l e).2 = true) (xs : List (Sigma fun _ : Int => Listener)) :
    ∀ s : World, id ≤ s.d.id →
      ((⟨id, l⟩ : Sigma fun _ : Int => Listener) ∈ xs ∨ Gone e.TargetID e.Name id s.d) →
      Gone e.TargetID e.Name id (xs.foldl (fun s kv => invoke e s kv.1 kv.2) s).d := by
  induction xs with
  | nil =>
    intro s _ h
    rcases h with h | h
    · exact absurd h (List.not_mem_nil _)
    · exact h
  | cons x xs ih =>
    intro s hid h
    rw [List.foldl_cons]
    have hid' : id ≤ (invoke e s x.1 x.2).d.id :=
      invoke_preserves (fun d => id ≤ d.id)
        (fun d t n l' h => handedOut_addListener id d t n l' h)
        (fun d t n id' h => handedOut_delListener id d t n id' h) e s x.1 x.2 hid
    rcases h with h | h
    · rcases List.mem_cons.mp h with hx | hx
      · apply ih _ hid'
        right
        rw [← hx]
        exact invoke_one_shot_gone e s id l hid hone
      · exact ih _ hid' (Or.inl hx)
    · apply ih _ hid'
      right
      exact invoke_preserves (Gone e.TargetID e.Name id)
        (fun d t n l' h => gone_addListener _ _ id d t n l' h)
        (fun d t n id' h => gone_delListener _ _ id d t n id' h) e s x.1 x.2 h

theorem mem_keys_of_lookupListener (d : dispatcher) (t n : String) (id : Int) (l : Listener)
    (h : lookupListener d t n id = some l) : id ∈ (listeners d t n).keys := by
  apply AList.mem_keys.mp
  apply AList.lookup_isSome.mp
  rw [listeners_lookup, h]
  rfl

theorem not_mem_keys_of_lookupListener (d : dispatcher) (t n : String) (id : Int)
    (h : lookupListener d t n id = none) : id ∉ (listeners d t n).keys := by
  intro hmem
  have := AList.lookup_isSome.mpr (AList.mem_keys.mpr hmem)
  rw [listeners_lookup, h] at this
  exact absurd this (by simp)

theorem mem_entries_of_lookupListener (d : dispatcher) (t n : String) (id : Int) (l : Listener)
    (h : lookupListener d t n id = some l) :
    (⟨id, l⟩ : Sigma fun _ : Int => Listener) ∈ (listeners d t n).entries := by
  rw [← listeners_lookup] at h
  exact AList.mem_lookup_iff.mp h

/-- What one dispatch does to a one-shot listener that is registered. -/
theorem dispatch_one_shot_present (s : World) (t n : String) (id : Int) (l : Listener)
    (e : Event) (hid : id ≤ s.d.id) (hl : lookupListener s.d t n id = some l)
    (hone : ∀ ev, (l ev).2 = true) :
    (∃ new, (dispatch s e).calls = s.calls ++ new
        ∧ ((e.TargetID = t ∧ e.Name = n) → invocations t n id new = 1
              ∧ Gone t n id (dispatch s e).d)
        ∧ (¬ (e.TargetID = t ∧ e.Name = n) → invocations t n id new = 0))
    ∧ SameOrGone t n id l (dispatch s e).d := by
  refine ⟨⟨_, dispatch_calls s e, ?_, ?_⟩, ?_⟩
  · rintro ⟨ht, hn⟩
    constructor
    · apply invocations_map_mem t n id e _ ht hn (AList.keys_nodup _)
      rw [ht, hn]
      exact mem_keys_of_lookupListener s.d t n id l hl
    · have h : Gone e.TargetID e.Name id (dispatch s e).d :=
        foldl_invoke_one_shot_gone e id l (hone e)
          (listeners s.d e.TargetID e.Name).entries s hid
          (Or.inl (by rw [ht, hn]; exact mem_entries_of_lookupListener s.d t n id l hl))
      rw [ht, hn] at h
      exact h
  · intro hne
    exact invocations_map_other t n id e _ hne
  · exact dispatch_preserves (SameOrGone t n id l)
      (fun d t' n' l' h => sameOrGone_addListener t n id l d t' n' l' h)
      (fun d t' n' id' h => sameOrGone_delListener t n id l d t' n' id' h) s e
      ⟨hid, Or.inl hl⟩

/-- What one dispatch does once the listener is gone: nothing to it. -/
theorem dispatch_one_shot_gone (s : World) (t n : String) (id : Int) (e : Event)
    (h : Gone t n id s.d) :
    (∃ new, (dispatch s e).calls = s.calls ++ new ∧ invocations t n id new = 0)
    ∧ Gone t n id (dispatch s e).d := by
  refine ⟨⟨_, dispatch_calls s e, ?_⟩, ?_⟩
  · by_cases hc : e.TargetID = t ∧ e.Name = n
    · apply invocations_map_not_mem
      rw [hc.1, hc.2]
      exact not_mem_keys_of_lookupListener s.d t n id h.2
    · exact invocations_map_other t n id e _ hc
  · exact dispatch_preserves (Gone t n id)
      (fun d t' n' l' h => gone_addListener t n id d t' n' l' h)
      (fun d t' n' id' h => gone_delListener t n id d t' n' id' h) s e h

/-- Dispatches run one after the other never invoke a listener that is gone. -/
theorem foldl_dispatch_gone (t n : String) (id : Int) (es : List Event) :
    ∀ s : World, Gone t n id s.d →
      ∃ new, (es.foldl dispatch s).calls = s.calls ++ new ∧ invocations t n id new = 0
        ∧ Gone t n id (es.foldl dispatch s).d := by
  induction es with
  | nil => intro s h; exact ⟨[], by simp, rfl, h⟩
  | cons e es ih =>
    intro s h
    obtain ⟨⟨new1, hc1, hi1⟩, hg1⟩ := dispatch_one_shot_gone s t n id e h
    obtain ⟨new2, hc2, hi2, hg2⟩ := ih (dispatch s e) hg1
    refine ⟨new1 ++ new2, ?_, ?_, hg2⟩
    · rw [List.foldl_cons, hc2, hc1, List.append_assoc]
    · rw [invocations_append, hi1, hi2]

/-- Dispatches run one after the other invoke a registered one-shot listener at most once. -/
theorem foldl_dispatch_one_shot (t n : String) (id : Int) (l : Listener)
    (hone : ∀ ev, (l ev).2 = true) (es : List Event) :
    ∀ s : World, SameOrGone t n id l s.d →
      ∃ new, (es.foldl dispatch s).calls = s.calls ++ new ∧ invocations t n id new ≤ 1 := by
  induction es with
  | nil => intro s _; exact ⟨[], by simp, by simp [invocations]⟩
  | cons e es ih =>
    intro s h
    rcases h.2 with hl | hl
    · obtain ⟨⟨new1, hc1, hyes, hno⟩, hsg⟩ := dispatch_one_shot_present s t n id l e h.1 hl hone
      by_cases hc : e.TargetID = t ∧ e.Name = n
      · obtain ⟨hi1, hg1⟩ := hyes hc
        obtain ⟨new2, hc2, hi2, _⟩ := foldl_dispatch_gone t n id es (dispatch s e) hg1
        refine ⟨new1 ++ new2, ?_, ?_⟩
        · rw [List.foldl_cons, hc2, hc1, List.append_assoc]
        · rw [invocations_append, hi1, hi2]
      · obtain ⟨new2, hc2, hi2⟩ := ih (dispatch s e) hsg
        refine ⟨new1 ++ new2, ?_, ?_⟩
        · rw [List.foldl_cons, hc2, hc1, List.append_assoc]
        · rw [invocations_append, hno hc]
          omega
    · obtain ⟨new, hc, hi, _⟩ := foldl_dispatch_gone t n id (e :: es) s ⟨h.1, hl⟩
      exact ⟨new, hc, by omega⟩

/-- C18, as stated, fails. In scenario B the bucket `("1", "foo")` holds one
listener, under id 1, that asks for its removal at every call. Two calls of
`dispatch` for `foo` start their goroutines; both goroutines take their snapshot
before either enters its loop (schedule 0, 1), then each runs its loop
(schedule 0, 1, 0, 1): the listener is invoked twice, and both goroutines have
finished. -/
theorem concurrent_dispatches_invoke_one_shot_twice :
    (listeners scenarioB.d "1" "foo").keys = [1]
    ∧ (∀ ev, (removeListener ev).2 = true)
    ∧ (runSchedule [0, 1, 0, 1, 0, 1] scenarioB
        [.started fooEvent, .started fooEvent]).1.calls = [(1, fooEvent), (1, fooEvent)]
    ∧ invocations "1" "foo" 1 (runSchedule [0, 1, 0, 1, 0, 1] scenarioB
        [.started fooEvent, .started fooEvent]).1.calls = 2
    ∧ (runSchedule [0, 1, 0, 1, 0, 1] scenarioB
        [.started fooEvent, .started fooEvent]).2.map Goroutine.isFinished = [true, true]
    ∧ (listeners (runSchedule [0, 1, 0, 1, 0, 1] scenarioB
        [.started fooEvent, .started fooEvent]).1.d "1" "foo").keys = [] := by
  refine ⟨by decide, fun _ => rfl, by decide, by decide, by decide, by decide⟩

/-- C18, amended. A one-shot listener `l` registered under `id` for `(t, n)` is
invoked at most once by dispatches that run one after the other, whatever the
events and whatever the other listeners do to the registry (a single dispatch
is the case of one event). The first dispatch of an event of `(t, n)` invokes
it once and removes it, and no dispatch that starts afterwards invokes it
again. Two dispatches of an event of `(t, n)` that both take their snapshot
before either loop runs invoke it twice. -/
theorem one_shot_listener_fires_once_without_overlap (s : World) (t n : String) (id : Int)
    (l : Listener) (hk : KeysBelowCounter s.d) (hl : lookupListener s.d t n id = some l)
    (hone : ∀ ev, (l ev).2 = true) :
    (∀ es : List Event,
        invocations t n id ((es.foldl dispatch s).calls.drop s.calls.length) ≤ 1)
    ∧ (∀ e : Event, e.TargetID = t → e.Name = n →
        invocations t n id ((dispatch s e).calls.drop s.calls.length) = 1
        ∧ lookupListener (dispatch s e).d t n id = none
        ∧ ∀ es : List Event,
            invocations t n id
              ((es.foldl dispatch (dispatch s e)).calls.drop (dispatch s e).calls.length) = 0)
    ∧ (∀ e : Event, e.TargetID = t → e.Name = n →
        invocations t n id
          ((runListeners e (listeners s.d e.TargetID e.Name)
              (runListeners e (listeners s.d e.TargetID e.Name) s)).calls.drop
            s.calls.length) = 2) := by
  have hid : id ≤ s.d.id :=
    keys_le_of_keysBelowCounter s.d hk t n id (mem_keys_of_lookupListener s.d t n id l hl)
  refine ⟨?_, ?_, ?_⟩
  · intro es
    obtain ⟨new, hc, hi⟩ := foldl_dispatch_one_shot t n id l hone es s ⟨hid, Or.inl hl⟩
    rw [hc, List.drop_left]
    exact hi
  · intro e ht hn
    obtain ⟨⟨new, hc, hyes, _⟩, _⟩ := dispatch_one_shot_present s t n id l e hid hl hone
    obtain ⟨hi, hg⟩ := hyes ⟨ht, hn⟩
    refine ⟨by rw [hc, List.drop_left]; exact hi, hg.2, ?_⟩
    intro es
    obtain ⟨new2, hc2, hi2, _⟩ := foldl_dispatch_gone t n id es (dispatch s e) hg
    rw [hc2, List.drop_left]
    exact hi2
  · intro e ht hn
    have hmem : id ∈ (listeners s.d e.TargetID e.Name).keys := by
      rw [ht, hn]
      exact mem_keys_of_lookupListener s.d t n id l hl
    have h1 := invocations_map_mem t n id e (listeners s.d e.TargetID e.Name).keys ht hn
      (AList.keys_nodup _) hmem
    rw [runListeners_calls, runListeners_calls, List.append_assoc, List.drop_left,
      invocations_append, h1]

theorem one_shot_listener_fires_once_without_overlap_witness :
    KeysBelowCounter scenarioB.d
    ∧ lookupListener scenarioB.d "1" "foo" 1 = some removeListener
    ∧ (∀ ev, (removeListener ev).2 = true)
    ∧ invocations "1" "foo" 1
        (([fooEvent, fooEvent, fooEvent].foldl dispatch scenarioB).calls.drop
          scenarioB.calls.length) ≤ 1 :=
  have hk : KeysBelowCounter scenarioB.d :=
    keysBelowCounter_of_reachable _ (Reachable.add _ "1" "foo" removeListener Reachable.init)
  have hl : lookupListener scenarioB.d "1" "foo" 1 = some removeListener := by
    rfl
  ⟨hk, hl, fun _ => rfl,
    (one_shot_listener_fires_once_without_overlap scenarioB "1" "foo" 1 removeListener hk hl
      (fun _ => rfl)).1 [fooEvent, fooEvent, fooEvent]⟩

/-! ### displayPool -/

theorem dlookup_kreplace (a a' : Int) (b : Display) :
    ∀ l : List (Sigma fun _ : Int => Display),
      List.dlookup a' (List.kreplace a b l)
        = if a' = a then (List.dlookup a l).map (fun _ => b) else List.dlookup a' l := by
  intro l
  induction l with
  | nil => simp [List.kreplace]
  | cons x xs ih =>
    obtain ⟨k, v⟩ := x
    unfold List.kreplace at ih ⊢
    by_cases hk : a = k
    · subst hk
      rw [List.lookmap_cons_some _ _ (by simp : (fun s : (Sigma fun _ : Int => Display) =>
        if a = s.1 then some (⟨a, b⟩ : Sigma fun _ : Int => Display) else none) ⟨a, v⟩
          = some ⟨a, b⟩)]
      by_cases h' : a' = a
      · subst h'
        simp [List.dlookup_cons_eq]
      · rw [if_neg h', List.dlookup_cons_ne _ _ h', List.dlookup_cons_ne _ _ h']
    · rw [List.lookmap_cons_none _ _ (by simp [hk] : (fun s : (Sigma fun _ : Int => Display) =>
        if a = s.1 then some (⟨a, b⟩ : Sigma fun _ : Int => Display) else none) ⟨k, v⟩ = none)]
      by_cases h' : a' = a
      · subst h'
        rw [if_pos rfl, List.dlookup_cons_ne _ _ hk, List.dlookup_cons_ne _ _ hk, ih, if_pos rfl]
      · rw [if_neg h']
        by_cases h2 : a' = k
        · subst h2
          simp [List.dlookup_cons_eq]
        · rw [List.dlookup_cons_ne _ _ h2, List.dlookup_cons_ne _ _ h2, ih, if_neg h']

theorem lookup_replace (s : GoMap Int Display) (a a' : Int) (b : Display) :
    (s.replace a b).lookup a' = if a' = a then (s.lookup a).map (fun _ => b) else s.lookup a' :=
  dlookup_kreplace a a' b s.entries

theorem foldl_erase_lookup (ids : GoMap Int Bool) (k : Int) (ks : List Int) :
    ∀ m : GoMap Int Display,
      (ks.foldl (fun m id => if (ids.lookup id).isSome then m else m.erase id) m).lookup k
        = if k ∈ ks ∧ ids.lookup k = none then none else m.lookup k := by
  induction ks with
  | nil => intro m; simp
  | cons x xs ih =>
    intro m
    rw [List.foldl_cons, ih]
    by_cases hx : (ids.lookup x).isSome = true
    · rw [if_pos hx]
      by_cases hk : k ∈ xs ∧ ids.lookup k = none
      · rw [if_pos hk, if_pos ⟨List.mem_cons_of_mem _ hk.1, hk.2⟩]
      · rw [if_neg hk]
        have : ¬ (k ∈ x :: xs ∧ ids.lookup k = none) := by
          rintro ⟨hmem, hnone⟩
          rcases List.mem_cons.mp hmem with h | h
          · subst h
            rw [hnone] at hx
            exact absurd hx (by simp)
          · exact hk ⟨h, hnone⟩
        rw [if_neg this]
    · rw [if_neg hx]
      have hxn : ids.lookup x = none := by
        cases h : ids.lookup x with
        | none => rfl
        | some v => rw [h] at hx; exact absurd rfl hx
      by_cases hk : k ∈ xs ∧ ids.lookup k = none
      · rw [if_pos hk, if_pos ⟨List.mem_cons_of_mem _ hk.1, hk.2⟩]
      · rw [if_neg hk]
        by_cases hkx : k = x
        · subst hkx
          rw [AList.lookup_erase, if_pos ⟨List.mem_cons_self _ _, hxn⟩]
        · rw [AList.lookup_erase_ne hkx]
          have : ¬ (k ∈ x :: xs ∧ ids.lookup k = none) := by
            rintro ⟨hmem, hnone⟩
            rcases List.mem_cons.mp hmem with h | h
            · exact hkx h
            · exact hk ⟨h, hnone⟩
          rw [if_neg this]

/-- The second loop of `update` keeps exactly the displays whose key is in `ids`. -/
theorem deleteOld_lookup (ids : GoMap Int Bool) (d : GoMap Int Display) (k : Int) :
    (deleteOld ids d).lookup k = if k ∈ ids then d.lookup k else none := by
  unfold deleteOld
  rw [foldl_erase_lookup]
  by_cases hk : k ∈ ids
  · rw [if_pos hk]
    have : ids.lookup k ≠ none := fun h => (AList.lookup_eq_none.mp h) hk
    rw [if_neg (fun h => this h.2)]
  · rw [if_neg hk]
    have hnone : ids.lookup k = none := AList.lookup_eq_none.mpr hk
    by_cases hmem : k ∈ d.keys
    · rw [if_pos ⟨hmem, hnone⟩]
    · rw [if_neg (fun h => hmem h.1)]
      exact AList.lookup_eq_none.mpr (fun h => hmem (AList.mem_keys.mp h))

theorem heap_set_same (h : Heap) (a : Nat) (v : DisplayOptions) : h.set a v a = v := by
  simp [Heap.set]

theorem heap_set_other (h : Heap) (a b : Nat) (v : DisplayOptions) (hne : b ≠ a) :
    h.set a v b = h b := by
  simp [Heap.set, hne]

theorem updateInv_heap_ID (p : displayPool) (h0 : Heap) (pid : Int) (done : List (Option Nat))
    (st : UpdateState) (inv : UpdateInv p h0 pid done st) (a : Nat) :
    (st.heap a).ID = (h0 a).ID := by
  rcases inv.1 a with h | ⟨b, _, hb, h⟩
  · rw [h]
  · rw [h, hb]

theorem updateInv_init (p : displayPool) (h0 : Heap) (pid : Int) (hc : p.Consistent h0) :
    UpdateInv p h0 pid [] { d := p.d, heap := h0, ids := ∅ } := by
  refine ⟨fun a => Or.inl rfl, hc, ?_, ?_, ?_⟩
  · intro k
    constructor
    · intro h
      exact absurd h (AList.not_mem_empty k)
    · rintro ⟨b, hb, _⟩
      exact absurd hb (List.not_mem_nil _)
  · intro k h
    exact absurd h (AList.not_mem_empty k)
  · intro k
    constructor
    · intro h; exact Or.inl h
    · rintro (h | h)
      · exact h
      · exact absurd h (AList.not_mem_empty k)

/-- One iteration of the first loop of `update` keeps what holds inside the loop. -/
theorem updateOne_inv (p : displayPool) (h0 : Heap) (e : EventDisplays) (pa : Nat) (pid : Int)
    (hp : e.Primary = some pa) (hpid : (h0 pa).ID = some pid)
    (done : List (Option Nat)) (st : UpdateState) (inv : UpdateInv p h0 pid done st)
    (a : Nat) (id : Int) (ha : (h0 a).ID = some id) :
    ∃ st1, updateOne e st (some a) = some st1 ∧ UpdateInv p h0 pid (done ++ [some a]) st1 := by
  obtain ⟨hsrc, hcons, hids, hflag, hkeys⟩ := inv
  have hID := updateInv_heap_ID p h0 pid done st ⟨hsrc, hcons, hids, hflag, hkeys⟩
  have hida : (st.heap a).ID = some id := by rw [hID, ha]
  have hidp : (st.heap pa).ID = some pid := by rw [hID, hpid]
  have hmono : ∀ b, some b ∈ done → some b ∈ done ++ [some a] :=
    fun b hb => List.mem_append_left _ hb
  have hlast : some a ∈ done ++ [some a] :=
    List.mem_append_right _ (List.mem_singleton.mpr rfl)
  have hval : ∃ b, some b ∈ done ++ [some a] ∧ (h0 b).ID = some id ∧ st.heap a = h0 b := by
    rcases hsrc a with h | ⟨b, hb, hbid, h⟩
    · exact ⟨a, hlast, ha, h⟩
    · exact ⟨b, hmono b hb, by rw [hbid, ha], h⟩
  have hids' : ∀ k, k ∈ st.ids.insert id true
      ↔ ∃ b, some b ∈ done ++ [some a] ∧ (h0 b).ID = some k := by
    intro k
    rw [AList.mem_insert]
    constructor
    · rintro (h | h)
      · subst h
        exact ⟨a, hlast, ha⟩
      · obtain ⟨b, hb, hbk⟩ := (hids k).mp h
        exact ⟨b, hmono b hb, hbk⟩
    · rintro ⟨b, hb, hbk⟩
      rcases List.mem_append.mp hb with h | h
      · exact Or.inr ((hids k).mpr ⟨b, h, hbk⟩)
      · have hba : b = a := by
          have := List.mem_singleton.mp h
          exact Option.some.inj this
        subst hba
        left
        rw [ha] at hbk
        exact (Option.some.inj hbk).symm
  cases hlook : st.d.lookup id with
  | some d =>
    obtain ⟨da, hda, hdaid⟩ := hcons id d hlook
    refine ⟨{ d := st.d.replace id { d with primary := decide (id = pid) },
              heap := st.heap.set da (st.heap a),
              ids := st.ids.insert id true }, ?_, ?_, ?_, hids', ?_, ?_⟩
    · simp only [updateOne, hida, hp, hidp, hlook, hda]
    · intro x
      by_cases hx : x = da
      · subst hx
        right
        obtain ⟨b, hb, hbid, hv⟩ := hval
        refine ⟨b, hb, by rw [hbid, hdaid], ?_⟩
        show st.heap.set x (st.heap a) x = h0 b
        rw [heap_set_same, hv]
      · have hx' : st.heap.set da (st.heap a) x = st.heap x := heap_set_other _ _ _ _ hx
        rcases hsrc x with h | ⟨b, hb, hbid, h⟩
        · exact Or.inl (hx'.trans h)
        · exact Or.inr ⟨b, hmono b hb, hbid, hx'.trans h⟩
    · intro k d' hk
      have hk' : (st.d.replace id { d with primary := decide (id = pid) }).lookup k = some d' := hk
      rw [lookup_replace] at hk'
      by_cases hkid : k = id
      · subst hkid
        rw [if_pos rfl, hlook] at hk'
        simp only [Option.map_some', Option.some.injEq] at hk'
        subst hk'
        exact ⟨da, hda, hdaid⟩
      · rw [if_neg hkid] at hk'
        exact hcons k d' hk'
    · intro k hk
      show ∃ d' da' b, (st.d.replace id { d with primary := decide (id = pid) }).lookup k = some d'
        ∧ d'.primary = decide (k = pid) ∧ d'.o = some da' ∧ some b ∈ done ++ [some a]
        ∧ (h0 b).ID = some k ∧ st.heap.set da (st.heap a) da' = h0 b
      rw [lookup_replace]
      by_cases hkid : k = id
      · subst hkid
        obtain ⟨b, hb, hbid, hv⟩ := hval
        refine ⟨{ d with primary := decide (k = pid) }, da, b, ?_, rfl, hda, hb, hbid, ?_⟩
        · rw [if_pos rfl, hlook]
          rfl
        · rw [heap_set_same, hv]
      · rw [if_neg hkid]
        have hk0 : k ∈ st.ids := by
          rcases (AList.mem_insert st.ids).mp hk with h | h
          · exact absurd h hkid
          · exact h
        obtain ⟨d', da', b, hl', hpr, hdo, hb, hbid, hv⟩ := hflag k hk0
        refine ⟨d', da', b, hl', hpr, hdo, hmono b hb, hbid, ?_⟩
        have hne : da' ≠ da := by
          intro heq
          obtain ⟨a2, ha2, ha2id⟩ := hcons k d' hl'
          rw [hdo] at ha2
          have : a2 = da' := (Option.some.inj ha2).symm
          rw [this, heq, hdaid] at ha2id
          exact hkid (Option.some.inj ha2id).symm
        rw [heap_set_other _ _ _ _ hne, hv]
    · intro k
      show k ∈ st.d.replace id { d with primary := decide (id = pid) }
        ↔ k ∈ p.d ∨ k ∈ st.ids.insert id true
      rw [AList.mem_replace, hkeys k, AList.mem_insert]
      constructor
      · rintro (h | h)
        · exact Or.inl h
        · exact Or.inr (Or.inr h)
      · rintro (h | h | h)
        · exact Or.inl h
        · subst h
          have hmem : k ∈ st.d := AList.lookup_isSome.mp (by rw [hlook]; rfl)
          exact (hkeys k).mp hmem
        · exact Or.inr h
  | none =>
    have hnot : id ∉ st.d := AList.lookup_eq_none.mp hlook
    refine ⟨{ d := st.d.insert id (newDisplay (some a) (decide (id = pid))),
              heap := st.heap,
              ids := st.ids.insert id true }, ?_, ?_, ?_, hids', ?_, ?_⟩
    · simp only [updateOne, hida, hp, hidp, hlook]
    · intro x
      rcases hsrc x with h | ⟨b, hb, hbid, h⟩
      · exact Or.inl h
      · exact Or.inr ⟨b, hmono b hb, hbid, h⟩
    · intro k d' hk
      have hk' : (st.d.insert id (newDisplay (some a) (decide (id = pid)))).lookup k = some d' :=
        hk
      by_cases hkid : k = id
      · subst hkid
        rw [AList.lookup_insert] at hk'
        have := Option.some.inj hk'
        subst this
        exact ⟨a, rfl, ha⟩
      · rw [AList.lookup_insert_ne hkid] at hk'
        exact hcons k d' hk'
    · intro k hk
      show ∃ d' da' b, (st.d.insert id (newDisplay (some a) (decide (id = pid)))).lookup k
          = some d'
        ∧ d'.primary = decide (k = pid) ∧ d'.o = some da' ∧ some b ∈ done ++ [some a]
        ∧ (h0 b).ID = some k ∧ st.heap da' = h0 b
      by_cases hkid : k = id
      · subst hkid
        obtain ⟨b, hb, hbid, hv⟩ := hval
        exact ⟨newDisplay (some a) (decide (k = pid)), a, b, AList.lookup_insert _, rfl, rfl,
          hb, hbid, hv⟩
      · rw [AList.lookup_insert_ne hkid]
        have hk0 : k ∈ st.ids := by
          rcases (AList.mem_insert st.ids).mp hk with h | h
          · exact absurd h hkid
          · exact h
        obtain ⟨d', da', b, hl', hpr, hdo, hb, hbid, hv⟩ := hflag k hk0
        exact ⟨d', da', b, hl', hpr, hdo, hmono b hb, hbid, hv⟩
    · intro k
      show k ∈ st.d.insert id (newDisplay (some a) (decide (id = pid)))
        ↔ k ∈ p.d ∨ k ∈ st.ids.insert id true
      rw [AList.mem_insert, hkeys k, AList.mem_insert]
      constructor
      · rintro (h | h | h)
        · exact Or.inr (Or.inl h)
        · exact Or.inl h
        · exact Or.inr (Or.inr h)
      · rintro (h | h | h)
        · exact Or.inr (Or.inl h)
        · exact Or.inl h
        · exact Or.inr (Or.inr h)

/-- The first loop of `update` does not panic on non-nil pointers, and keeps
what holds inside it. -/
theorem updateLoop_inv (p : displayPool) (h0 : Heap) (e : EventDisplays) (pa : Nat) (pid : Int)
    (hp : e.Primary = some pa) (hpid : (h0 pa).ID = some pid) (rest : List (Option Nat)) :
    ∀ (done : List (Option Nat)) (st : UpdateState), UpdateInv p h0 pid done st →
      (∀ o ∈ rest, ∃ a, o = some a ∧ ((h0 a).ID).isSome = true) →
      ∃ st', updateLoop e rest st = some st' ∧ UpdateInv p h0 pid (done ++ rest) st' := by
  induction rest with
  | nil =>
    intro done st inv _
    exact ⟨st, rfl, by rw [List.append_nil]; exact inv⟩
  | cons o rest ih =>
    intro done st inv hnn
    obtain ⟨a, rfl, hsome⟩ := hnn o (List.mem_cons_self _ _)
    obtain ⟨id, hid⟩ := Option.isSome_iff_exists.mp hsome
    obtain ⟨st1, hst1, inv1⟩ := updateOne_inv p h0 e pa pid hp hpid done st inv a id hid
    obtain ⟨st', hst', inv'⟩ := ih (done ++ [some a]) st1 inv1
      (fun o ho => hnn o (List.mem_cons_of_mem _ ho))
    refine ⟨st', ?_, ?_⟩
    · rw [updateLoop, hst1]
      exact hst'
    · rw [List.append_assoc] at inv'
      exact inv'

theorem newDisplayPool_consistent (h : Heap) : newDisplayPool.Consistent h := by
  intro k d hk
  have hnone : newDisplayPool.d.lookup k = none := AList.lookup_empty k
  rw [hnone] at hk
  exact Option.noConfusion hk

/-- C19. Let the pool be one whose displays point to options carrying their key
as `ID` (so is the empty pool, and so is every pool `update` returns), and `e`
an event whose pointers are not nil. Then `update` returns; afterwards the keys
of the pool are exactly the `ID`s that occur in `e.All`, each once (a display
whose `ID` is not in `e.All` is deleted); each display is flagged primary iff
its key is the `ID` of `e.Primary`; its options have its key as `ID` and are
options given in `e.All` for that `ID` (the ones given, when `e.All` gives the
same options wherever it repeats an `ID`). -/
theorem update_syncs_pool_with_event (p : displayPool) (e : EventDisplays) (h : Heap)
    (hc : p.Consistent h) (hn : e.NonNil h) :
    ∃ p' h' pa pid, p.update e h = some (p', h') ∧ e.Primary = some pa ∧ (h pa).ID = some pid
      ∧ (∀ k, k ∈ p'.d.keys ↔ ∃ a, some a ∈ e.All ∧ (h a).ID = some k)
      ∧ p'.d.keys.Nodup
      ∧ (∀ k d, p'.d.lookup k = some d →
          d.primary = decide (k = pid)
          ∧ ∃ da a, d.o = some da ∧ some a ∈ e.All ∧ (h a).ID = some k ∧ h' da = h a)
      ∧ ((∀ a b, some a ∈ e.All → some b ∈ e.All → (h a).ID = (h b).ID → h a = h b) →
          ∀ k d a, p'.d.lookup k = some d → some a ∈ e.All → (h a).ID = some k →
            ∃ da, d.o = some da ∧ h' da = h a)
      ∧ p'.Consistent h' ∧ newDisplayPool.Consistent h' := by
  obtain ⟨hall, pa, hpa, hpsome⟩ := hn
  obtain ⟨pid, hpid⟩ := Option.isSome_iff_exists.mp hpsome
  obtain ⟨st, hst, inv⟩ := updateLoop_inv p h e pa pid hpa hpid e.All []
    { d := p.d, heap := h, ids := ∅ } (updateInv_init p h pid hc) hall
  rw [List.nil_append] at inv
  have hID := updateInv_heap_ID p h pid e.All st inv
  obtain ⟨hsrc, hcons, hids, hflag, hkeys⟩ := inv
  have hmain : ∀ k d, (deleteOld st.ids st.d).lookup k = some d →
      d.primary = decide (k = pid)
      ∧ ∃ da a, d.o = some da ∧ some a ∈ e.All ∧ (h a).ID = some k ∧ st.heap da = h a := by
    intro k d hk
    rw [deleteOld_lookup] at hk
    by_cases hmem : k ∈ st.ids
    · rw [if_pos hmem] at hk
      obtain ⟨d', da, b, hl, hpr, hdo, hb, hbid, hv⟩ := hflag k hmem
      rw [hl] at hk
      have := Option.some.inj hk
      subst this
      exact ⟨hpr, da, b, hdo, hb, hbid, hv⟩
    · rw [if_neg hmem] at hk
      exact Option.noConfusion hk
  refine ⟨{ d := deleteOld st.ids st.d }, st.heap, pa, pid, ?_, hpa, hpid, ?_,
    AList.keys_nodup _, hmain, ?_, ?_, newDisplayPool_consistent _⟩
  · simp only [displayPool.update, hst]
  · intro k
    show k ∈ (deleteOld st.ids st.d).keys ↔ _
    rw [← AList.mem_keys, ← AList.lookup_isSome, deleteOld_lookup, ← hids k]
    by_cases hmem : k ∈ st.ids
    · rw [if_pos hmem]
      obtain ⟨d', _, _, hl, _⟩ := hflag k hmem
      rw [hl]
      exact ⟨fun _ => hmem, fun _ => rfl⟩
    · rw [if_neg hmem]
      exact ⟨fun hf => absurd hf (by simp), fun hf => absurd hf hmem⟩
  · intro huniq k d a hk ha haid
    obtain ⟨_, da, b, hdo, hb, hbid, hv⟩ := hmain k d hk
    exact ⟨da, hdo, by rw [hv]; exact huniq b a hb ha (by rw [hbid, haid])⟩
  · intro k d hk
    obtain ⟨_, da, b, hdo, _, hbid, hv⟩ := hmain k d hk
    exact ⟨da, hdo, by
      show (st.heap da).ID = some k
      rw [hv, hbid]⟩

theorem poolWithoutPrimary_consistent : poolWithoutPrimary.Consistent exampleHeap := by
  intro k d hk
  by_cases h2 : k = 2
  · subst h2
    have : d = newDisplay (some 20) false := by
      have h := hk
      simp only [poolWithoutPrimary, AList.lookup_insert, Option.some.injEq] at h
      exact h.symm
    subst this
    exact ⟨20, rfl, rfl⟩
  · by_cases h1 : k = 1
    · subst h1
      have : d = newDisplay (some 10) false := by
        have h := hk
        simp only [poolWithoutPrimary, AList.lookup_insert_ne h2, AList.lookup_insert,
          Option.some.injEq] at h
        exact h.symm
      subst this
      exact ⟨10, rfl, rfl⟩
    · have h := hk
      simp only [poolWithoutPrimary, AList.lookup_insert_ne h2, AList.lookup_insert_ne h1,
        AList.lookup_empty] at h
      exact Option.noConfusion h

theorem laterDisplays_nonNil : laterDisplays.NonNil exampleHeap := by
  refine ⟨?_, 30, rfl, rfl⟩
  intro o ho
  simp only [laterDisplays, List.mem_cons, List.mem_singleton, List.not_mem_nil, or_false] at ho
  rcases ho with rfl | rfl
  · exact ⟨21, rfl, rfl⟩
  · exact ⟨30, rfl, rfl⟩

theorem update_syncs_pool_with_event_witness :
    poolWithoutPrimary.Consistent exampleHeap
    ∧ laterDisplays.NonNil exampleHeap
    ∧ (∃ p' h' pa pid, poolWithoutPrimary.update laterDisplays exampleHeap = some (p', h')
        ∧ laterDisplays.Primary = some pa ∧ (exampleHeap pa).ID = some pid
        ∧ (∀ k, k ∈ p'.d.keys ↔ ∃ a, some a ∈ laterDisplays.All ∧ (exampleHeap a).ID = some k)
        ∧ p'.d.keys.Nodup
        ∧ (∀ k d, p'.d.lookup k = some d →
            d.primary = decide (k = pid)
            ∧ ∃ da a, d.o = some da ∧ some a ∈ laterDisplays.All ∧ (exampleHeap a).ID = some k
                ∧ h' da = exampleHeap a)
        ∧ ((∀ a b, some a ∈ laterDisplays.All → some b ∈ laterDisplays.All →
              (exampleHeap a).ID = (exampleHeap b).ID → exampleHeap a = exampleHeap b) →
            ∀ k d a, p'.d.lookup k = some d → some a ∈ laterDisplays.All →
              (exampleHeap a).ID = some k → ∃ da, d.o = some da ∧ h' da = exampleHeap a)
        ∧ p'.Consistent h' ∧ newDisplayPool.Consistent h')
    ∧ (poolWithoutPrimary.update laterDisplays exampleHeap).map displayPool.view
        = some [(3, true, some (optionsOf 3 0)), (2, false, some (optionsOf 2 90))] :=
  ⟨poolWithoutPrimary_consistent, laterDisplays_nonNil,
    update_syncs_pool_with_event poolWithoutPrimary laterDisplays exampleHeap
      poolWithoutPrimary_consistent laterDisplays_nonNil,
    by decide⟩

theorem primaryLoop_eq (l : List (Sigma fun _ : Int => Display)) :
    ∀ d0 : Option Display, primaryLoop l d0
      = match l.find? (fun kv => kv.2.primary) with
        | some kv => some kv.2
        | none =>
          match l.getLast? with
          | some kv => some kv.2
          | none => d0 := by
  induction l with
  | nil => intro d0; rfl
  | cons x xs ih =>
    intro d0
    rw [primaryLoop]
    by_cases hx : x.2.primary = true
    · have hfc : List.find? (fun kv : (Sigma fun _ : Int => Display) => kv.2.primary) (x :: xs)
          = some x := by
        simp [List.find?_cons, hx]
      rw [if_pos hx, hfc]
    · have hfc : List.find? (fun kv : (Sigma fun _ : Int => Display) => kv.2.primary) (x :: xs)
          = List.find? (fun kv : (Sigma fun _ : Int => Display) => kv.2.primary) xs := by
        simp [List.find?_cons, hx]
      rw [if_neg hx, hfc, ih]
      cases hf : xs.find? (fun kv => kv.2.primary) with
      | some kv => rfl
      | none =>
        cases xs with
        | nil => rfl
        | cons y ys =>
          rw [List.getLast?_cons_cons]
          cases hl : (y :: ys).getLast? with
          | some kv => rfl
          | none => simp at hl

/-- C20. `primary` returns the first display flagged primary that the loop
visits and, when there is none, the last display visited. Hence: when the pool
holds a display flagged primary, the result is a display of the pool flagged
primary; when the pool is not empty and holds no such display, the result is
the last display of the pool; the result is nil only for the empty pool. -/
theorem primary_returns_primary_or_last (p : displayPool) :
    ((∃ k d, p.d.lookup k = some d ∧ d.primary = true) →
        ∃ k d, p.primary = some d ∧ p.d.lookup k = some d ∧ d.primary = true)
    ∧ ((∀ k d, p.d.lookup k = some d → d.primary = false) → p.d.entries ≠ [] →
        ∃ kv, p.d.entries.getLast? = some kv ∧ p.primary = some kv.2
          ∧ p.d.lookup kv.1 = some kv.2)
    ∧ (p.primary = none ↔ p.d.entries = [])
    ∧ p.primary
        = (match p.d.entries.find? (fun kv => kv.2.primary) with
          | some kv => some kv.2
          | none =>
            match p.d.entries.getLast? with
            | some kv => some kv.2
            | none => none)
    ∧ poolWithPrimary.primary = some (newDisplay (some 20) true)
    ∧ poolWithoutPrimary.primary = some (newDisplay (some 10) false)
    ∧ newDisplayPool.primary = none := by
  have heq := primaryLoop_eq p.d.entries none
  have hlook : ∀ kv, kv ∈ p.d.entries → p.d.lookup kv.1 = some kv.2 := by
    intro kv hkv
    exact AList.mem_lookup_iff.mpr hkv
  refine ⟨?_, ?_, ?_, heq, by decide, by decide, by decide⟩
  · rintro ⟨k, d, hk, hd⟩
    have hmem : (⟨k, d⟩ : Sigma fun _ : Int => Display) ∈ p.d.entries :=
      AList.mem_lookup_iff.mp hk
    cases hf : p.d.entries.find? (fun kv => kv.2.primary) with
    | none =>
      have := List.find?_eq_none.mp hf ⟨k, d⟩ hmem
      exact absurd hd this
    | some kv =>
      refine ⟨kv.1, kv.2, ?_, hlook kv (List.mem_of_find?_eq_some hf), ?_⟩
      · show primaryLoop p.d.entries none = some kv.2
        rw [heq, hf]
      · have hsome := List.find?_some hf
        exact hsome
  · intro hnone hne
    have hf : p.d.entries.find? (fun kv => kv.2.primary) = none := by
      rw [List.find?_eq_none]
      intro kv hkv
      rw [hnone kv.1 kv.2 (hlook kv hkv)]
      simp
    cases hl : p.d.entries.getLast? with
    | none => exact absurd (List.getLast?_eq_none_iff.mp hl) hne
    | some kv =>
      refine ⟨kv, rfl, ?_, hlook kv (List.mem_of_getLast?_eq_some hl)⟩
      show primaryLoop p.d.entries none = some kv.2
      rw [heq, hf, hl]
  · show primaryLoop p.d.entries none = none ↔ _
    rw [heq]
    constructor
    · intro h
      cases hf : p.d.entries.find? (fun kv => kv.2.primary) with
      | some kv => rw [hf] at h; exact Option.noConfusion h
      | none =>
        rw [hf] at h
        cases hl : p.d.entries.getLast? with
        | some kv => rw [hl] at h; exact Option.noConfusion h
        | none => exact List.getLast?_eq_none_iff.mp hl
    · intro h
      rw [h]
      rfl

/-! ### ElectronDownloadSrc -/

/-- C21. `ElectronDownloadSrc(os, arch)` looks at `os` and `arch` only through
their lower case, and returns
`https://github.com/electron/electron/releases/download/v{V}/electron-v{V}-{o}-{a}.zip`
with `V` the constant `VersionElectron`, where `o` is `darwin`, `linux` or
`win32` when `os` in lower case is `darwin`, `linux` or `windows`, and empty
otherwise, and `a` is `x64` when `arch` in lower case is `amd64` or `os` is
darwin, `armv7l` when `arch` is `arm` and `os` is linux, and `ia32` in every
other case. -/
theorem electronDownloadSrc_url (V os arch : String) :
    (∃ o a, ElectronDownloadSrc V os arch
        = "https://github.com/electron/electron/releases/download/v" ++ V
          ++ "/electron-v" ++ V ++ "-" ++ o ++ "-" ++ a ++ ".zip"
      ∧ (ToLower os = "darwin" → o = "darwin")
      ∧ (ToLower os = "linux" → o = "linux")
      ∧ (ToLower os = "windows" → o = "win32")
      ∧ (ToLower os ≠ "darwin" → ToLower os ≠ "linux" → ToLower os ≠ "windows" → o = "")
      ∧ (ToLower arch = "amd64" ∨ ToLower os = "darwin" → a = "x64")
      ∧ (ToLower arch = "arm" → ToLower os = "linux" → a = "armv7l")
      ∧ (¬ (ToLower arch = "amd64" ∨ ToLower os = "darwin") →
          ¬ (ToLower arch = "arm" ∧ ToLower os = "linux") → a = "ia32"))
    ∧ (∀ os2 arch2 : String, ToLower os2 = ToLower os → ToLower arch2 = ToLower arch →
        ElectronDownloadSrc V os2 arch2 = ElectronDownloadSrc V os arch)
    ∧ ToLower "Windows" = "windows" ∧ ToLower "DARWIN" = "darwin" ∧ ToLower "AMD64" = "amd64"
    ∧ ElectronDownloadSrc "1.8.1" "Darwin" "arm"
        = "https://github.com/electron/electron/releases/download/v1.8.1/electron-v1.8.1-darwin-x64.zip"
    ∧ ElectronDownloadSrc "1.8.1" "linux" "AMD64"
        = "https://github.com/electron/electron/releases/download/v1.8.1/electron-v1.8.1-linux-x64.zip"
    ∧ ElectronDownloadSrc "1.8.1" "LINUX" "Arm"
        = "https://github.com/electron/electron/releases/download/v1.8.1/electron-v1.8.1-linux-armv7l.zip"
    ∧ ElectronDownloadSrc "1.8.1" "linux" "386"
        = "https://github.com/electron/electron/releases/download/v1.8.1/electron-v1.8.1-linux-ia32.zip"
    ∧ ElectronDownloadSrc "1.8.1" "Windows" "amd64"
        = "https://github.com/electron/electron/releases/download/v1.8.1/electron-v1.8.1-win32-x64.zip"
    ∧ ElectronDownloadSrc "1.8.1" "windows" "arm"
        = "https://github.com/electron/electron/releases/download/v1.8.1/electron-v1.8.1-win32-ia32.zip"
    ∧ ElectronDownloadSrc "1.8.1" "freebsd" "amd64"
        = "https://github.com/electron/electron/releases/download/v1.8.1/electron-v1.8.1--x64.zip"
    ∧ ElectronDownloadSrc "1.8.1" "freebsd" "arm"
        = "https://github.com/electron/electron/releases/download/v1.8.1/electron-v1.8.1--ia32.zip" := by
  refine ⟨⟨if ToLower os = "darwin" then "darwin"
        else if ToLower os = "linux" then "linux"
        else if ToLower os = "windows" then "win32"
        else "",
      if ToLower arch = "amd64" ∨ (if ToLower os = "darwin" then "darwin"
          else if ToLower os = "linux" then "linux"
          else if ToLower os = "windows" then "win32"
          else "") = "darwin" then "x64"
        else if ToLower arch = "arm" ∧ (if ToLower os = "darwin" then "darwin"
          else if ToLower os = "linux" then "linux"
          else if ToLower os = "windows" then "win32"
          else "") = "linux" then "armv7l"
        else "ia32",
      rfl, ?_, ?_, ?_, ?_, ?_, ?_, ?_⟩, ?_, by decide, by decide, by decide, by decide,
    by decide, by decide, by decide, by decide, by decide, by decide, by decide⟩
  · intro h
    rw [if_pos h]
  · intro h
    rw [h]
    decide
  · intro h
    rw [h]
    decide
  · intro h1 h2 h3
    rw [if_neg h1, if_neg h2, if_neg h3]
  · intro h
    rcases h with h | h
    · rw [if_pos (Or.inl h)]
    · rw [if_pos (Or.inr (by rw [if_pos h]))]
  · intro h1 h2
    rw [h1, h2]
    decide
  · intro h1 h2
    have hd : ToLower os ≠ "darwin" := fun h => h1 (Or.inr h)
    have ha : ToLower arch ≠ "amd64" := fun h => h1 (Or.inl h)
    have ho : ¬ ((if ToLower os = "darwin" then "darwin"
          else if ToLower os = "linux" then "linux"
          else if ToLower os = "windows" then "win32"
          else "") = "darwin") := by
      rw [if_neg hd]
      by_cases hl : ToLower os = "linux"
      · rw [if_pos hl]; decide
      · rw [if_neg hl]
        by_cases hw : ToLower os = "windows"
        · rw [if_pos hw]; decide
        · rw [if_neg hw]; decide
    have hc1 : ¬ (ToLower arch = "amd64" ∨ (if ToLower os = "darwin" then "darwin"
          else if ToLower os = "linux" then "linux"
          else if ToLower os = "windows" then "win32"
          else "") = "darwin") := by
      rintro (h | h)
      · exact ha h
      · exact ho h
    have hc2 : ¬ (ToLower arch = "arm" ∧ (if ToLower os = "darwin" then "darwin"
          else if ToLower os = "linux" then "linux"
          else if ToLower os = "windows" then "win32"
          else "") = "linux") := by
      rintro ⟨harm, hlin⟩
      apply h2
      refine ⟨harm, ?_⟩
      by_cases hl : ToLower os = "linux"
      · exact hl
      · rw [if_neg hd, if_neg hl] at hlin
        by_cases hw : ToLower os = "windows"
        · rw [if_pos hw] at hlin
          exact absurd hlin (by decide)
        · rw [if_neg hw] at hlin
          exact absurd hlin (by decide)
    rw [if_neg hc1, if_neg hc2]
  · intro os2 arch2 ho ha
    unfold ElectronDownloadSrc
    rw [ho, ha]

/-! ### A call of synchronousFunc among the goroutines of dispatch -/

theorem lastCall_append (O : Own) (calls : List (Int × Event)) (c : Int × Event) :
    lastCall O (calls ++ [c]) = if O.isCall c then some c.2 else lastCall O calls := by
  unfold lastCall
  rw [List.foldl_append]
  rfl

theorem ownCall_log (O : Own) (n0 : Nat) (s : World) (c : Int × Event)
    (h : n0 ≤ s.calls.length) :
    ownCall O n0 { s with calls := s.calls ++ [c] }
      = if O.isCall c then some c.2 else ownCall O n0 s := by
  unfold ownCall
  show lastCall O ((s.calls ++ [c]).drop n0) = _
  rw [List.drop_append_of_le_length h, lastCall_append]

theorem isCall_false (O : Own) (id : Int) (e : Event)
    (hne : (e.TargetID, e.Name, id) ≠ (O.targetID, O.eventName, O.id)) :
    O.isCall (id, e) = false := by
  unfold Own.isCall
  rw [decide_eq_false_iff_not]
  rintro ⟨h1, h2, h3⟩
  exact hne (by rw [show id = O.id from h1, show e.TargetID = O.targetID from h2,
    show e.Name = O.eventName from h3])

theorem isCall_true (O : Own) (e : Event) (ht : e.TargetID = O.targetID)
    (hn : e.Name = O.eventName) : O.isCall (O.id, e) = true := by
  unfold Own.isCall
  rw [decide_eq_true_iff]
  exact ⟨rfl, ht, hn⟩

/-- Code written outside `synchronousFunc` keeps what the scope rules give. -/
theorem scoped_applyEffect (O : Own) (n0 : Nat) (s : World) (eff : Effect)
    (he : Effect.Spares O eff) (h : Scoped O n0 s) : Scoped O n0 (applyEffect s eff) := by
  obtain ⟨h1, h2, h3, h4, h5, h6, h7⟩ := h
  cases he with
  | addListener t n l hl =>
    refine ⟨h1, ?_, h3, h4, h5, h6, ?_⟩
    · show O.id ≤ (addListener s.d t n l).id
      rw [addListener_id]
      omega
    · intro t' n' id' l' hlook
      have hlook' : lookupListener (addListener s.d t n l) t' n' id' = some l' := hlook
      rw [lookupListener_addListener] at hlook'
      by_cases hc : (t', n', id') = (t, n, s.d.id + 1)
      · rw [if_pos hc] at hlook'
        have hl' : l = l' := Option.some.inj hlook'
        have hne : (t', n', id') ≠ (O.targetID, O.eventName, O.id) := by
          intro heq
          rw [hc] at heq
          have := (Prod.mk.inj (Prod.mk.inj heq).2).2
          omega
        refine ⟨fun heq => absurd heq hne, fun _ => ?_⟩
        rw [← hl']
        exact hl
      · rw [if_neg hc] at hlook'
        exact h7 t' n' id' l' hlook'
  | delListener t n id =>
    refine ⟨h1, ?_, h3, h4, h5, h6, ?_⟩
    · show O.id ≤ (delListener s.d t n id).id
      rw [delListener_id]
      exact h2
    · intro t' n' id' l' hlook
      have hlook' : lookupListener (delListener s.d t n id) t' n' id' = some l' := hlook
      rw [lookupListener_delListener] at hlook'
      by_cases hc : (t', n', id') = (t, n, id)
      · rw [if_pos hc] at hlook'
        exact Option.noConfusion hlook'
      · rw [if_neg hc] at hlook'
        exact h7 t' n' id' l' hlook'
  | cancel k hk =>
    refine ⟨h1, h2, h3, h4, h5, ?_, h7⟩
    show O.k ∈ k :: s.fired ↔ (ownCall O n0 s).isSome = true
    rw [List.mem_cons]
    constructor
    · rintro (hx | hx)
      · exact absurd hx.symm hk
      · exact h6.mp hx
    · intro hx
      exact Or.inr (h6.mpr hx)
  | assign v e hv =>
    refine ⟨h1, h2, h3, h4, ?_, h6, h7⟩
    show (s.vars.insert v (Value.event e)).lookup O.v = _
    rw [AList.lookup_insert_ne (Ne.symm hv)]
    exact h5

theorem scoped_foldl (O : Own) (n0 : Nat) (effs : List Effect)
    (ha : ∀ eff ∈ effs, Effect.Spares O eff) :
    ∀ s : World, Scoped O n0 s → Scoped O n0 (effs.foldl applyEffect s) := by
  induction effs with
  | nil => intro s h; exact h
  | cons x xs ih =>
    intro s h
    rw [List.foldl_cons]
    exact ih (fun eff he => ha eff (List.mem_cons_of_mem _ he)) _
      (scoped_applyEffect O n0 s x (ha x (List.mem_cons_self _ _)) h)

theorem scoped_log (O : Own) (n0 : Nat) (s : World) (c : Int × Event)
    (hc : O.isCall c = false) (h : Scoped O n0 s) :
    Scoped O n0 { s with calls := s.calls ++ [c] } := by
  obtain ⟨h1, h2, h3, h4, h5, h6, h7⟩ := h
  have ho : ownCall O n0 { s with calls := s.calls ++ [c] } = ownCall O n0 s := by
    rw [ownCall_log O n0 s c h1, hc]
    rfl
  refine ⟨?_, h2, h3, h4, ?_, ?_, h7⟩
  · show n0 ≤ (s.calls ++ [c]).length
    rw [List.length_append]
    omega
  · rw [ho]
    exact h5
  · rw [ho]
    exact h6

/-- The call of a listener written outside `synchronousFunc`, under another
place than the one of the listener of the call. -/
theorem scoped_invoke_other (O : Own) (n0 : Nat) (e : Event) (s : World) (id : Int)
    (l : Listener) (h : Scoped O n0 s) (hl : Listener.Spares O l)
    (hne : (e.TargetID, e.Name, id) ≠ (O.targetID, O.eventName, O.id)) :
    Scoped O n0 (invoke e s id l) := by
  have h1 := scoped_log O n0 s (id, e) (isCall_false O id e hne) h
  have h2 := scoped_foldl O n0 (l e).1 (hl e) _ h1
  unfold invoke
  by_cases hr : (l e).2 = true
  · simp only [hr, if_true]
    exact scoped_applyEffect O n0 _ (.delListener e.TargetID e.Name id)
      (Effect.Spares.delListener _ _ _) h2
  · simp only [hr]
    exact h2

/-- The call of the listener of the call: the result variable holds the event,
the cancel function has been called, the listener is removed. -/
theorem scoped_invoke_own (O : Own) (n0 : Nat) (e : Event) (s : World)
    (h : Scoped O n0 s) (ht : e.TargetID = O.targetID) (hn : e.Name = O.eventName) :
    Scoped O n0 (invoke e s O.id (syncListener O.v O.k))
    ∧ ownCall O n0 (invoke e s O.id (syncListener O.v O.k)) = some e := by
  obtain ⟨h1, h2, h3, h4, h5, h6, h7⟩ := h
  have ho : ownCall O n0 (invoke e s O.id (syncListener O.v O.k)) = some e := by
    show ownCall O n0 { s with calls := s.calls ++ [(O.id, e)] } = some e
    rw [ownCall_log O n0 s (O.id, e) h1, isCall_true O e ht hn]
    rfl
  refine ⟨⟨?_, ?_, h3, h4, ?_, ?_, ?_⟩, ho⟩
  · show n0 ≤ (s.calls ++ [(O.id, e)]).length
    rw [List.length_append]
    omega
  · show O.id ≤ (delListener s.d e.TargetID e.Name O.id).id
    rw [delListener_id]
    exact h2
  · rw [ho]
    show (s.vars.insert O.v (Value.event e)).lookup O.v = _
    rw [AList.lookup_insert]
    rfl
  · rw [ho]
    show O.k ∈ O.k :: s.fired ↔ _
    simp
  · intro t' n' id' l' hlook
    have hlook' : lookupListener (delListener s.d e.TargetID e.Name O.id) t' n' id' = some l' :=
      hlook
    rw [lookupListener_delListener] at hlook'
    by_cases hc : (t', n', id') = (e.TargetID, e.Name, O.id)
    · rw [if_pos hc] at hlook'
      exact Option.noConfusion hlook'
    · rw [if_neg hc] at hlook'
      exact h7 t' n' id' l' hlook'

theorem goroutine_step_scoped (O : Own) (n0 : Nat) (s : World) (g : Goroutine)
    (h : Scoped O n0 s) (hg : g.Scoped O) :
    Scoped O n0 (g.step s).1 ∧ (g.step s).2.Scoped O := by
  cases g with
  | started e =>
    refine ⟨h, ?_⟩
    intro kv hkv
    exact h.2.2.2.2.2.2 e.TargetID e.Name kv.1 kv.2 (mem_listeners_entries s.d _ _ kv hkv)
  | finished => exact ⟨h, trivial⟩
  | looping e todo =>
    cases todo with
    | nil => exact ⟨h, trivial⟩
    | cons kv rest =>
      have hrest : (Goroutine.looping e rest).Scoped O :=
        fun kv' hkv' => hg kv' (List.mem_cons_of_mem _ hkv')
      have hkv := hg kv (List.mem_cons_self _ _)
      refine ⟨?_, hrest⟩
      show Scoped O n0 (invoke e s kv.1 kv.2)
      by_cases hc : (e.TargetID, e.Name, kv.1) = (O.targetID, O.eventName, O.id)
      · have ht : e.TargetID = O.targetID := (Prod.mk.inj hc).1
        have hn : e.Name = O.eventName := (Prod.mk.inj (Prod.mk.inj hc).2).1
        have hid : kv.1 = O.id := (Prod.mk.inj (Prod.mk.inj hc).2).2
        rw [hkv.1 hc, hid]
        exact (scoped_invoke_own O n0 e s h ht hn).1
      · exact scoped_invoke_other O n0 e s kv.1 kv.2 h (hkv.2 hc) hc

theorem move_run_scoped (O : Own) (n0 : Nat) (st : World × List Goroutine) (m : Move)
    (hm : m.Spares O) (h : Scoped O n0 st.1) (hg : ∀ g ∈ st.2, g.Scoped O) :
    Scoped O n0 (m.run st).1 ∧ ∀ g ∈ (m.run st).2, g.Scoped O := by
  cases m with
  | spawn e =>
    refine ⟨h, ?_⟩
    intro g hgm
    have hgm' : g ∈ st.2 ++ [Goroutine.started e] := hgm
    rcases List.mem_append.mp hgm' with hx | hx
    · exact hg g hx
    · rw [List.mem_singleton.mp hx]
      trivial
  | advance i =>
    show Scoped O n0 (match st.2.get? i with
        | none => st
        | some g => ((g.step st.1).1, st.2.set i (g.step st.1).2)).1
      ∧ ∀ g ∈ (match st.2.get? i with
        | none => st
        | some g => ((g.step st.1).1, st.2.set i (g.step st.1).2)).2, g.Scoped O
    cases hi : st.2.get? i with
    | none => exact ⟨h, hg⟩
    | some g0 =>
      have hs := goroutine_step_scoped O n0 st.1 g0 h (hg g0 (List.get?_mem hi))
      refine ⟨hs.1, ?_⟩
      intro g hgm
      rcases List.mem_or_eq_of_mem_set hgm with hx | hx
      · exact hg g hx
      · rw [hx]
        exact hs.2
  | effect eff => exact ⟨scoped_applyEffect O n0 st.1 eff hm h, hg⟩

theorem runMoves_scoped (O : Own) (n0 : Nat) (moves : List Move)
    (hm : ∀ m ∈ moves, m.Spares O) :
    ∀ st : World × List Goroutine, Scoped O n0 st.1 → (∀ g ∈ st.2, g.Scoped O) →
      Scoped O n0 (runMoves moves st).1 ∧ ∀ g ∈ (runMoves moves st).2, g.Scoped O := by
  induction moves with
  | nil => intro st h hg; exact ⟨h, hg⟩
  | cons m rest ih =>
    intro st h hg
    have h1 := move_run_scoped O n0 st m (hm m (List.mem_cons_self _ _)) h hg
    exact ih (fun m' hm' => hm m' (List.mem_cons_of_mem _ hm')) (m.run st) h1.1 h1.2

theorem goroutine_step_fired (s : World) (g : Goroutine) : s.fired ⊆ (g.step s).1.fired := by
  cases g with
  | started e => exact fun _ hx => hx
  | finished => exact fun _ hx => hx
  | looping e todo =>
    cases todo with
    | nil => exact fun _ hx => hx
    | cons kv rest => exact invoke_fired e s kv.1 kv.2

theorem move_run_fired (st : World × List Goroutine) (m : Move) :
    st.1.fired ⊆ (m.run st).1.fired := by
  cases m with
  | spawn e => exact fun _ hx => hx
  | advance i =>
    show st.1.fired ⊆ (match st.2.get? i with
        | none => st
        | some g => ((g.step st.1).1, st.2.set i (g.step st.1).2)).1.fired
    cases st.2.get? i with
    | none => exact fun _ hx => hx
    | some g0 => exact goroutine_step_fired st.1 g0
  | effect eff => exact applyEffect_fired st.1 eff

theorem runMoves_fired (moves : List Move) :
    ∀ st : World × List Goroutine, st.1.fired ⊆ (runMoves moves st).1.fired := by
  induction moves with
  | nil => intro st; exact fun _ hx => hx
  | cons m rest ih =>
    intro st
    exact fun x hx => ih (m.run st) (move_run_fired st m hx)

theorem runMoves_append (xs ys : List Move) (st : World × List Goroutine) :
    runMoves (xs ++ ys) st = runMoves ys (runMoves xs st) := by
  unfold runMoves
  rw [List.foldl_append]

theorem runMoves_take_add (moves : List Move) (n lag : Nat) (st : World × List Goroutine) :
    runMoves ((moves.drop n).take lag) (runMoves (moves.take n) st)
      = runMoves (moves.take (n + lag)) st := by
  rw [List.take_add, runMoves_append]

theorem fired_take_mono (moves : List Move) (st : World × List Goroutine) (j j' : Nat)
    (h : j ≤ j') :
    (runMoves (moves.take j) st).1.fired ⊆ (runMoves (moves.take j') st).1.fired := by
  obtain ⟨d, rfl⟩ := Nat.exists_eq_add_of_le h
  rw [← runMoves_take_add]
  exact runMoves_fired _ _

/-- The receive returns the first state in which the context is cancelled. -/
theorem waitDoneAmong_some (ctx : Context) (moves : List Move) :
    ∀ (st st1 : World × List Goroutine) (rest : List Move),
      waitDoneAmong ctx moves st = some (st1, rest) →
      ∃ n, st1 = runMoves (moves.take n) st ∧ rest = moves.drop n
        ∧ (ctx.Err st1.1).isSome = true
        ∧ ∀ j, j < n → (ctx.Err (runMoves (moves.take j) st).1).isSome = false := by
  induction moves with
  | nil =>
    intro st st1 rest h
    unfold waitDoneAmong at h
    by_cases hc : (Context.Err ctx st.1).isSome = true
    · rw [if_pos hc] at h
      have h' := Option.some.inj h
      refine ⟨0, (Prod.mk.inj h').1.symm, (Prod.mk.inj h').2.symm, ?_, ?_⟩
      · rw [← (Prod.mk.inj h').1]
        exact hc
      · intro j hj
        exact absurd hj (Nat.not_lt_zero j)
    · rw [if_neg hc] at h
      exact Option.noConfusion h
  | cons m ms ih =>
    intro st st1 rest h
    unfold waitDoneAmong at h
    by_cases hc : (Context.Err ctx st.1).isSome = true
    · rw [if_pos hc] at h
      have h' := Option.some.inj h
      refine ⟨0, (Prod.mk.inj h').1.symm, (Prod.mk.inj h').2.symm, ?_, ?_⟩
      · rw [← (Prod.mk.inj h').1]
        exact hc
      · intro j hj
        exact absurd hj (Nat.not_lt_zero j)
    · rw [if_neg hc] at h
      obtain ⟨n, h1, h2, h3, h4⟩ := ih (m.run st) st1 rest h
      refine ⟨n + 1, h1, h2, h3, ?_⟩
      intro j hj
      cases j with
      | zero =>
        show (Context.Err ctx st.1).isSome = false
        cases hb : (Context.Err ctx st.1).isSome with
        | false => rfl
        | true => exact absurd hb hc
      | succ j => exact h4 j (by omega)

/-- The receive returns once the context is cancelled. -/
theorem waitDoneAmong_isSome (ctx : Context) (moves : List Move) :
    ∀ (st : World × List Goroutine) (j : Nat),
      (ctx.Err (runMoves (moves.take j) st).1).isSome = true →
      (waitDoneAmong ctx moves st).isSome = true := by
  induction moves with
  | nil =>
    intro st j h
    unfold waitDoneAmong
    have h' : (Context.Err ctx st.1).isSome = true := by
      rw [List.take_nil] at h
      exact h
    rw [if_pos h']
    rfl
  | cons m ms ih =>
    intro st j h
    unfold waitDoneAmong
    by_cases hc : (Context.Err ctx st.1).isSome = true
    · rw [if_pos hc]
      rfl
    · rw [if_neg hc]
      cases j with
      | zero => exact absurd h hc
      | succ j => exact ih (m.run st) j h

theorem synchronousFuncAmong_eq (c : Canceller) (l : object) (fn : World → World)
    (name : String) (moves : List Move) (lag : Nat) (gs : List Goroutine) (s : World) :
    synchronousFuncAmong c l fn name moves lag gs s
      = (waitDoneAmong (s.nextNode :: c.ctx) moves (synchronousFuncStart c l fn name s, gs)).map
          (fun p => (readEvent (cancelFunc s.nextNode (runMoves (p.2.take lag) p.1).1) s.nextVar,
            cancelFunc s.nextNode (runMoves (p.2.take lag) p.1).1)) := by
  show (match waitDoneAmong (s.nextNode :: c.ctx) moves (synchronousFuncStart c l fn name s, gs)
      with
    | none => none
    | some (st, rest) =>
      some (readEvent (cancelFunc s.nextNode (runMoves (rest.take lag) st).1) s.nextVar,
        cancelFunc s.nextNode (runMoves (rest.take lag) st).1)) = _
  cases waitDoneAmong (s.nextNode :: c.ctx) moves (synchronousFuncStart c l fn name s, gs) with
  | none => rfl
  | some p => rfl

/-- The state in which the listener of the call has just been registered. -/
theorem setup_scoped (c : Canceller) (l : object) (name : String) (s : World)
    (halloc : NodesAllocated s)
    (hreg : ∀ t n id l', lookupListener s.d t n id = some l' →
      Listener.Spares (ownOf l name s) l') :
    Scoped (ownOf l name s) s.calls.length (synchronousFuncSetup c l name s) := by
  have ho : ownCall (ownOf l name s) s.calls.length (synchronousFuncSetup c l name s)
      = none := by
    unfold ownCall
    rw [setup_calls, List.drop_length]
    rfl
  refine ⟨?_, ?_, ?_, ?_, ?_, ?_, ?_⟩
  · rw [setup_calls]
  · rw [setup_d, addListener_id]
    exact le_refl _
  · exact Nat.lt_succ_self _
  · exact Nat.lt_succ_self _
  · rw [ho, setup_vars]
    exact AList.lookup_insert _
  · rw [ho, setup_fired]
    constructor
    · intro hk
      exact absurd hk (not_fired_of_allocated s halloc)
    · intro hk
      exact Bool.noConfusion hk
  · intro t n id l' hl
    rw [setup_d, lookupListener_addListener] at hl
    by_cases hc : (t, n, id) = (l.id, name, s.d.id + 1)
    · rw [if_pos hc] at hl
      exact ⟨fun _ => (Option.some.inj hl).symm, fun hne => absurd hc hne⟩
    · rw [if_neg hc] at hl
      exact ⟨fun heq => absurd heq hc, fun _ => hreg t n id l' hl⟩

theorem goroutine_before_scoped (O : Own) (g : Goroutine) (h : g.Before O) : g.Scoped O := by
  cases g with
  | started e => trivial
  | finished => trivial
  | looping e todo =>
    intro kv hkv
    have hb := h kv hkv
    refine ⟨fun heq => ?_, fun _ => hb.2⟩
    have hid : kv.1 = O.id := (Prod.mk.inj (Prod.mk.inj heq).2).2
    have := hb.1
    omega

/-- While the call waits, the shared state keeps what the scope rules give. -/
theorem worldAfter_scoped (c : Canceller) (l : object) (fn : World → World) (name : String)
    (moves : List Move) (gs : List Goroutine) (s : World)
    (halloc : NodesAllocated s)
    (hreg : ∀ t n id l', lookupListener s.d t n id = some l' →
      Listener.Spares (ownOf l name s) l')
    (hgs : ∀ g ∈ gs, g.Scoped (ownOf l name s))
    (hfn : ∀ s', Scoped (ownOf l name s) s.calls.length s' →
      Scoped (ownOf l name s) s.calls.length (fn s'))
    (hmoves : ∀ m ∈ moves, m.Spares (ownOf l name s)) (j : Nat) :
    Scoped (ownOf l name s) s.calls.length (worldAfter c l fn name moves gs s j) :=
  (runMoves_scoped (ownOf l name s) s.calls.length (moves.take j)
    (fun m hm => hmoves m (List.mem_of_mem_take hm))
    (synchronousFuncStart c l fn name s, gs)
    (hfn _ (setup_scoped c l name s halloc hreg))
    hgs).1

/-- The context of the call is cancelled exactly when its listener has been
called or the canceller has been cancelled. -/
theorem err_worldAfter (c : Canceller) (l : object) (fn : World → World) (name : String)
    (moves : List Move) (gs : List Goroutine) (s : World) (j : Nat)
    (h : Scoped (ownOf l name s) s.calls.length (worldAfter c l fn name moves gs s j)) :
    (Context.Err (s.nextNode :: c.ctx) (worldAfter c l fn name moves gs s j)).isSome = true
      ↔ ((deliveredAfter c l fn name moves gs s j).isSome = true
          ∨ c.Cancelled (worldAfter c l fn name moves gs s j) = true) := by
  rw [err_pair]
  have hk : s.nextNode ∈ (worldAfter c l fn name moves gs s j).fired
      ↔ (deliveredAfter c l fn name moves gs s j).isSome = true := h.2.2.2.2.2.1
  rw [hk]

theorem read_worldAfter (c : Canceller) (l : object) (fn : World → World) (name : String)
    (moves : List Move) (gs : List Goroutine) (s : World) (j : Nat)
    (h : Scoped (ownOf l name s) s.calls.length (worldAfter c l fn name moves gs s j)) :
    readEvent (cancelFunc s.nextNode (worldAfter c l fn name moves gs s j)) s.nextVar
      = (deliveredAfter c l fn name moves gs s j).getD default :=
  readEvent_of_lookup _ _ _ h.2.2.2.2.1

/-- What `synchronousFunc` returns, from the first moment its context is cancelled. -/
theorem synchronousFuncAmong_some (c : Canceller) (l : object) (fn : World → World)
    (name : String) (moves : List Move) (lag : Nat) (gs : List Goroutine) (s : World)
    (o : Event) (s' : World)
    (h : synchronousFuncAmong c l fn name moves lag gs s = some (o, s')) :
    ∃ n, (Context.Err (s.nextNode :: c.ctx) (worldAfter c l fn name moves gs s n)).isSome = true
      ∧ (∀ j, j < n →
          (Context.Err (s.nextNode :: c.ctx) (worldAfter c l fn name moves gs s j)).isSome = false)
      ∧ o = readEvent (cancelFunc s.nextNode (worldAfter c l fn name moves gs s (n + lag)))
              s.nextVar := by
  rw [synchronousFuncAmong_eq] at h
  obtain ⟨p, hp, hq⟩ := Option.map_eq_some'.mp h
  obtain ⟨n, h1, h2, h3, h4⟩ := waitDoneAmong_some _ moves _ p.1 p.2 hp
  refine ⟨n, ?_, h4, ?_⟩
  · unfold worldAfter
    rw [← h1]
    exact h3
  · have ho := (Prod.mk.inj hq).1
    rw [← ho, h1, h2, runMoves_take_add]
    rfl

theorem synchronousFuncAmong_isSome (c : Canceller) (l : object) (fn : World → World)
    (name : String) (moves : List Move) (lag : Nat) (gs : List Goroutine) (s : World) (j : Nat)
    (h : (Context.Err (s.nextNode :: c.ctx) (worldAfter c l fn name moves gs s j)).isSome = true) :
    ∃ o s', synchronousFuncAmong c l fn name moves lag gs s = some (o, s') := by
  have hw := waitDoneAmong_isSome (s.nextNode :: c.ctx) moves
    (synchronousFuncStart c l fn name s, gs) j h
  rw [synchronousFuncAmong_eq]
  obtain ⟨p, hp⟩ := Option.isSome_iff_exists.mp hw
  rw [hp]
  exact ⟨_, _, rfl⟩

theorem isSome_false_iff_none (x : Option Event) : ¬ (x.isSome = true) ↔ x = none := by
  cases x <;> simp

/-- C3, as stated, fails. In scenario C the event `done` is dispatched to `t`
before the canceller is cancelled, and `synchronousFunc` returns the zero
`Event`: when the action `fn` removes the listener of the call (the goroutine
of `dispatch` has run to its end, and the canceller is not cancelled yet, after
three moves; the same happens when `dispatch` runs at once), and, with an
action that does nothing, when the goroutine started by `dispatch` reaches the
listener only after the canceller is cancelled. The other way round, the
canceller is cancelled first and `synchronousFunc` returns the event `done`,
when the listener is called before the call runs again. -/
theorem synchronousFunc_misses_dispatched_event :
    (synchronousFuncAmong cancellerC objectC removeDoneListener "done"
        [.spawn doneEvent, .advance 0, .advance 0, .effect (.cancel cancellerC.node)]
        0 [] scenarioC).map Prod.fst = some default
    ∧ ((runMoves [.spawn doneEvent, .advance 0, .advance 0]
          (synchronousFuncStart cancellerC objectC removeDoneListener "done" scenarioC, [])).2.map
        Goroutine.isFinished = [true]
      ∧ cancellerC.Cancelled (runMoves [.spawn doneEvent, .advance 0, .advance 0]
          (synchronousFuncStart cancellerC objectC removeDoneListener "done" scenarioC, [])).1
        = false)
    ∧ (synchronousFunc cancellerC objectC removeDoneListener "done"
        [.dispatch doneEvent, .effect (.cancel cancellerC.node)] scenarioC).map Prod.fst
        = some default
    ∧ (synchronousFuncAmong cancellerC objectC id "done"
        [.spawn doneEvent, .effect (.cancel cancellerC.node), .advance 0, .advance 0]
        0 [] scenarioC).map Prod.fst = some default
    ∧ (synchronousFuncAmong cancellerC objectC id "done"
        [.effect (.cancel cancellerC.node), .spawn doneEvent, .advance 0, .advance 0]
        3 [] scenarioC).map Prod.fst = some doneEvent := by
  decide

/-- C3, amended. A call of `synchronousFunc` returns the event with which its
one-shot listener was last called before the call runs again, and the zero
`Event` when the listener has not been called by then; it runs again only after
its listener has been called or the canceller has been cancelled, and it does
return once either has happened. In particular it returns the event with which
its listener is called before the canceller is cancelled (when the listener is
not called again before the call runs again), and the zero `Event` when the
canceller is cancelled and the call runs again before its listener is called.
This holds whatever the action `fn` and the other goroutines do: they are
written outside `synchronousFunc`, so they cannot name its result variable or
its cancel function, and that is all the hypotheses ask of the listeners
registered so far, of the goroutines of `dispatch` under way, of `fn` and of the
moves; they may remove the listener of the call. The listeners are called by
the goroutines that `dispatch` starts, one step at a time; `lag` moves are made
between the cancellation of the context and the moment the call runs again;
after `j` moves the listener was last called with `deliveredAfter ... j`. -/
theorem synchronousFunc_returns_last_delivered (c : Canceller) (l : object)
    (fn : World → World) (eventNameDone : String) (moves : List Move) (lag : Nat)
    (gs : List Goroutine) (s : World)
    (halloc : NodesAllocated s)
    (hreg : ∀ t n id l', lookupListener s.d t n id = some l' →
      Listener.Spares (ownOf l eventNameDone s) l')
    (hgs : ∀ g ∈ gs, g.Scoped (ownOf l eventNameDone s))
    (hfn : ∀ s', Scoped (ownOf l eventNameDone s) s.calls.length s' →
      Scoped (ownOf l eventNameDone s) s.calls.length (fn s'))
    (hmoves : ∀ m ∈ moves, m.Spares (ownOf l eventNameDone s)) :
    ((synchronousFuncAmong c l fn eventNameDone moves lag gs s).isSome = true
      ↔ ∃ j, (deliveredAfter c l fn eventNameDone moves gs s j).isSome = true
          ∨ c.Cancelled (worldAfter c l fn eventNameDone moves gs s j) = true)
    ∧ (∀ o s', synchronousFuncAmong c l fn eventNameDone moves lag gs s = some (o, s') →
        ∃ n, (∀ j, j < n → deliveredAfter c l fn eventNameDone moves gs s j = none
                ∧ c.Cancelled (worldAfter c l fn eventNameDone moves gs s j) = false)
          ∧ ((deliveredAfter c l fn eventNameDone moves gs s n).isSome = true
              ∨ c.Cancelled (worldAfter c l fn eventNameDone moves gs s n) = true)
          ∧ o = (deliveredAfter c l fn eventNameDone moves gs s (n + lag)).getD default)
    ∧ (∀ n ev,
        (∀ j, j < n → deliveredAfter c l fn eventNameDone moves gs s j = none
          ∧ c.Cancelled (worldAfter c l fn eventNameDone moves gs s j) = false) →
        deliveredAfter c l fn eventNameDone moves gs s n = some ev →
        deliveredAfter c l fn eventNameDone moves gs s (n + lag) = some ev →
        (synchronousFuncAmong c l fn eventNameDone moves lag gs s).map Prod.fst = some ev)
    ∧ (∀ n, c.Cancelled (worldAfter c l fn eventNameDone moves gs s n) = true →
        deliveredAfter c l fn eventNameDone moves gs s (n + lag) = none →
        (synchronousFuncAmong c l fn eventNameDone moves lag gs s).map Prod.fst
          = some default) := by
  have hinv := worldAfter_scoped c l fn eventNameDone moves gs s halloc hreg hgs hfn hmoves
  have herr := fun j => err_worldAfter c l fn eventNameDone moves gs s j (hinv j)
  have hread := fun j => read_worldAfter c l fn eventNameDone moves gs s j (hinv j)
  have hquiet : ∀ j,
      (Context.Err (s.nextNode :: c.ctx) (worldAfter c l fn eventNameDone moves gs s j)).isSome
        = false →
      deliveredAfter c l fn eventNameDone moves gs s j = none
        ∧ c.Cancelled (worldAfter c l fn eventNameDone moves gs s j) = false := by
    intro j hj
    have hn : ¬ ((deliveredAfter c l fn eventNameDone moves gs s j).isSome = true
        ∨ c.Cancelled (worldAfter c l fn eventNameDone moves gs s j) = true) := by
      intro hx
      have := (herr j).mpr hx
      rw [hj] at this
      exact Bool.noConfusion this
    constructor
    · exact (isSome_false_iff_none _).mp (fun hx => hn (Or.inl hx))
    · cases hb : c.Cancelled (worldAfter c l fn eventNameDone moves gs s j) with
      | false => rfl
      | true => exact absurd (Or.inr hb) hn
  have hmono : ∀ j j', j ≤ j' →
      (deliveredAfter c l fn eventNameDone moves gs s j).isSome = true →
      (deliveredAfter c l fn eventNameDone moves gs s j').isSome = true := by
    intro j j' hle hj
    have h1 : s.nextNode ∈ (worldAfter c l fn eventNameDone moves gs s j).fired :=
      (hinv j).2.2.2.2.2.1.mpr hj
    exact (hinv j').2.2.2.2.2.1.mp (fired_take_mono moves _ j j' hle h1)
  have hsome : ∀ o s', synchronousFuncAmong c l fn eventNameDone moves lag gs s = some (o, s') →
      ∃ n, (Context.Err (s.nextNode :: c.ctx)
            (worldAfter c l fn eventNameDone moves gs s n)).isSome = true
        ∧ (∀ j, j < n → (Context.Err (s.nextNode :: c.ctx)
            (worldAfter c l fn eventNameDone moves gs s j)).isSome = false)
        ∧ o = (deliveredAfter c l fn eventNameDone moves gs s (n + lag)).getD default := by
    intro o s' h
    obtain ⟨n, h1, h2, h3⟩ := synchronousFuncAmong_some c l fn eventNameDone moves lag gs s o s' h
    exact ⟨n, h1, h2, h3.trans (hread (n + lag))⟩
  refine ⟨⟨?_, ?_⟩, ?_, ?_, ?_⟩
  · intro h
    obtain ⟨p, hp⟩ := Option.isSome_iff_exists.mp h
    obtain ⟨n, h1, _, _⟩ := hsome p.1 p.2 hp
    exact ⟨n, (herr n).mp h1⟩
  · rintro ⟨j, hj⟩
    obtain ⟨o, s', h⟩ := synchronousFuncAmong_isSome c l fn eventNameDone moves lag gs s j
      ((herr j).mpr hj)
    rw [h]
    rfl
  · intro o s' h
    obtain ⟨n, h1, h2, h3⟩ := hsome o s' h
    exact ⟨n, fun j hj => hquiet j (h2 j hj), (herr n).mp h1, h3⟩
  · intro n ev hpre hn hlag
    have hcn := (herr n).mpr (Or.inl (by rw [hn]; rfl))
    obtain ⟨o, s', h⟩ := synchronousFuncAmong_isSome c l fn eventNameDone moves lag gs s n hcn
    obtain ⟨n1, h1, h2, h3⟩ := hsome o s' h
    have hn1 : n1 = n := by
      rcases Nat.lt_trichotomy n1 n with hlt | heq | hgt
      · have hq := hpre n1 hlt
        rcases (herr n1).mp h1 with hx | hx
        · rw [hq.1] at hx
          exact Bool.noConfusion hx
        · rw [hq.2] at hx
          exact Bool.noConfusion hx
      · exact heq
      · have := h2 n hgt
        rw [hcn] at this
        exact Bool.noConfusion this
    rw [h, h3, hn1, hlag]
    rfl
  · intro n hc hlag
    have hcn := (herr n).mpr (Or.inr hc)
    obtain ⟨o, s', h⟩ := synchronousFuncAmong_isSome c l fn eventNameDone moves lag gs s n hcn
    obtain ⟨n1, h1, h2, h3⟩ := hsome o s' h
    have hle : n1 ≤ n := by
      by_contra hgt
      have := h2 n (by omega)
      rw [hcn] at this
      exact Bool.noConfusion this
    have hnone : deliveredAfter c l fn eventNameDone moves gs s (n1 + lag) = none := by
      apply (isSome_false_iff_none _).mp
      intro hx
      have := hmono (n1 + lag) (n + lag) (by omega) hx
      rw [hlag] at this
      exact Bool.noConfusion this
    rw [h, h3, hnone]
    rfl

/-! ### Actions and scenario C -/

/-- An action that removes a listener, be it the listener of the call, keeps
what the scope rules give. -/
theorem scoped_removeDoneListener (O : Own) (n0 : Nat) (s : World) (h : Scoped O n0 s) :
    Scoped O n0 (removeDoneListener s) :=
  scoped_applyEffect O n0 s _ (Effect.Spares.delListener _ _ _) h

/-- An action that declares a variable keeps what the scope rules give. -/
theorem scoped_declareVar (O : Own) (n0 : Nat) (s : World) (h : Scoped O n0 s) :
    Scoped O n0 (declareVar s) := by
  obtain ⟨h1, h2, h3, h4, h5, h6, h7⟩ := h
  refine ⟨h1, h2, Nat.lt_succ_of_lt h3, h4, ?_, h6, h7⟩
  show (s.vars.insert s.nextVar (Value.error none)).lookup O.v = _
  rw [AList.lookup_insert_ne (Nat.ne_of_lt h3)]
  exact h5

/-- The action of `synchronousEvent` keeps what the scope rules give: it writes
to the stream and to the variable `err` of `synchronousEvent`. -/
theorem scoped_writeAction (O : Own) (n0 : Nat) (marshal : Event → Except String (List UInt8))
    (i : Event) (verr : Nat) (hv : verr ≠ O.v) (s : World) (h : Scoped O n0 s) :
    Scoped O n0 (writeAction marshal i verr s) := by
  obtain ⟨h1, h2, h3, h4, h5, h6, h7⟩ := h
  unfold writeAction
  cases (writer.write marshal s.w i).2 with
  | none =>
    refine ⟨h1, h2, h3, h4, ?_, h6, h7⟩
    show (s.vars.insert verr (Value.error none)).lookup O.v = _
    rw [AList.lookup_insert_ne (Ne.symm hv)]
    exact h5
  | some err =>
    refine ⟨h1, h2, h3, h4, ?_, h6, h7⟩
    show (s.vars.insert verr (Value.error (some (wrapf err "writing event failed")))).lookup O.v
      = _
    rw [AList.lookup_insert_ne (Ne.symm hv)]
    exact h5

theorem scenarioC_spares (O : Own) :
    ∀ t n id l', lookupListener scenarioC.d t n id = some l' → Listener.Spares O l' := by
  intro t n id l' h
  have hd : scenarioC.d = newDispatcher := rfl
  rw [hd] at h
  simp [lookupListener, bucket_newDispatcher] at h

theorem cancel_root_spares (pre : List Move)
    (hpre : ∀ m ∈ pre, m.Spares (ownOf objectC "done" scenarioC)) :
    ∀ m ∈ pre ++ [Move.effect (.cancel cancellerC.node)],
      m.Spares (ownOf objectC "done" scenarioC) := by
  intro m hm
  rcases List.mem_append.mp hm with hx | hx
  · exact hpre m hx
  · rw [List.mem_singleton.mp hx]
    exact Effect.Spares.cancel _ (by decide)

theorem deliver_done_spares :
    ∀ m ∈ [Move.spawn doneEvent, Move.advance 0, Move.advance 0],
      m.Spares (ownOf objectC "done" scenarioC) := by
  intro m hm
  simp only [List.mem_cons, List.mem_singleton, List.not_mem_nil, or_false] at hm
  rcases hm with rfl | rfl | rfl <;> trivial

/-- Scenario C among the goroutines of `dispatch`. The action removes the
listener of the call, `done` is dispatched and the canceller is cancelled: the
call returns the zero event. The action declares a variable, the goroutine of
`dispatch` calls the listener with `done` before the canceller is cancelled:
the call returns `done`. -/
theorem synchronousFunc_returns_last_delivered_witness :
    NodesAllocated scenarioC
    ∧ (synchronousFuncAmong cancellerC objectC removeDoneListener "done"
        ([.spawn doneEvent, .advance 0, .advance 0] ++ [.effect (.cancel cancellerC.node)])
        0 [] scenarioC).map Prod.fst = some default
    ∧ (synchronousFuncAmong cancellerC objectC declareVar "done"
        ([.spawn doneEvent, .advance 0, .advance 0] ++ [.effect (.cancel cancellerC.node)])
        0 [] scenarioC).map Prod.fst = some doneEvent :=
  ⟨scenarioC_allocated,
   (synchronousFunc_returns_last_delivered cancellerC objectC removeDoneListener "done"
      ([.spawn doneEvent, .advance 0, .advance 0] ++ [.effect (.cancel cancellerC.node)])
      0 [] scenarioC scenarioC_allocated (scenarioC_spares _)
      (fun g hg => absurd hg (List.not_mem_nil g))
      (fun s' h => scoped_removeDoneListener _ _ s' h)
      (cancel_root_spares _ deliver_done_spares)).2.2.2 4 (by decide) (by decide),
   (synchronousFunc_returns_last_delivered cancellerC objectC declareVar "done"
      ([.spawn doneEvent, .advance 0, .advance 0] ++ [.effect (.cancel cancellerC.node)])
      0 [] scenarioC scenarioC_allocated (scenarioC_spares _)
      (fun g hg => absurd hg (List.not_mem_nil g))
      (fun s' h => scoped_declareVar _ _ s' h)
      (cancel_root_spares _ deliver_done_spares)).2.2.1 3 doneEvent (by decide) (by decide)
      (by decide)⟩

end Astilectron
